import Mathlib

/-!
# Connected components by parallel label propagation over a CSR graph

A shallow embedding of `src/opencilk.cpp` and `src/pthreads.cpp`.

* C++ `std::vector<int>` is a `List`; a read `xs[i]` is `xs.getD i 0` and a write
  `xs[i] = x` is `xs.set i x`.  An access outside the vector is undefined
  behaviour in the source; the properties of the constructor and of the
  algorithm are stated for inputs on which no such access happens (indices in
  `[1,V]`, well-formed CSR graphs).
* Vertex indices, offsets and counters are natural numbers (`int` values that
  the source never makes negative, and whose range is assumed large enough:
  signed overflow is undefined behaviour in the source as well).
  Labels are `Int`, as in the source, so that non-negativity is a statement.
* The parallel relaxation loop is modelled at the granularity of one vertex
  relaxation (lines 131-143 of `pthreads.cpp`, 118-130 of `opencilk.cpp`):
  a schedule decides which worker (pthreads) or which loop iteration (cilk)
  performs its next relaxation, and every schedule is admitted.
-/

set_option autoImplicit false

/-! ## The CSR structure and its constructor (both files, lines 10-95) -/

/-- The four data members of `struct CSRMatrix`. -/
structure CSRMatrix where
  row_ptr : List Nat
  col_ind : List Nat
  num_vertices : Nat
  nnz : Nat
deriving Repr, DecidableEq

/-- The counter update `xs[i]++`. -/
def incrAt (xs : List Nat) (i : Nat) : List Nat :=
  xs.set i (xs.getD i 0 + 1)

/-- Body of the first pass (lines 52-64): `row--; col--; degree[row]++;` and, for a
symmetric matrix and an off-diagonal entry, `degree[col]++`. -/
def countStep (is_symmetric : Bool) (degree : List Nat) (e : Nat × Nat) : List Nat :=
  let row := e.1 - 1
  let col := e.2 - 1
  let degree := incrAt degree row
  if is_symmetric && row != col then incrAt degree col else degree

/-- First pass: `std::vector<int> degree(num_vertices, 0)` and the loop over the
data lines. -/
def countPass (is_symmetric : Bool) (num_vertices : Nat) (entries : List (Nat × Nat)) :
    List Nat :=
  entries.foldl (countStep is_symmetric) (List.replicate num_vertices 0)

/-- Body of the prefix-sum loop: `row_ptr[i + 1] = row_ptr[i] + degree[i]`. -/
def rowPtrStep (degree : List Nat) (row_ptr : List Nat) (i : Nat) : List Nat :=
  row_ptr.set (i + 1) (row_ptr.getD i 0 + degree.getD i 0)

/-- Lines 66-70: `row_ptr.assign(num_vertices + 1, 0)` followed by the prefix-sum
loop `for (i = 0; i < num_vertices; i++)`. -/
def buildRowPtr (num_vertices : Nat) (degree : List Nat) : List Nat :=
  (List.range num_vertices).foldl (rowPtrStep degree) (List.replicate (num_vertices + 1) 0)

/-- Body of the second pass (lines 80-92) on the pair `(col_ind, current_pos)`:
`col_ind[current_pos[row]++] = col` and, for a symmetric matrix and an
off-diagonal entry, `col_ind[current_pos[col]++] = row`. -/
def fillStep (is_symmetric : Bool) (st : List Nat × List Nat) (e : Nat × Nat) :
    List Nat × List Nat :=
  let row := e.1 - 1
  let col := e.2 - 1
  let col_ind := st.1.set (st.2.getD row 0) col
  let current_pos := incrAt st.2 row
  if is_symmetric && row != col then
    (col_ind.set (current_pos.getD col 0) row, incrAt current_pos col)
  else
    (col_ind, current_pos)

/-- Second pass: `col_ind.resize(nnz)`, `current_pos = row_ptr`, then the loop over
the data lines.  The result is the pair `(col_ind, current_pos)`. -/
def fillPass (is_symmetric : Bool) (row_ptr : List Nat) (nnz : Nat)
    (entries : List (Nat × Nat)) : List Nat × List Nat :=
  entries.foldl (fillStep is_symmetric) (List.replicate nnz 0, row_ptr)

/-- The two-pass construction of lines 47-92, on the data lines that were read
(1-based `row col` pairs, in file order). -/
def CSRMatrix.build (is_symmetric : Bool) (num_vertices : Nat) (entries : List (Nat × Nat)) :
    CSRMatrix :=
  let degree := countPass is_symmetric num_vertices entries
  let row_ptr := buildRowPtr num_vertices degree
  let nnz := row_ptr.getD num_vertices 0
  let col_ind := (fillPass is_symmetric row_ptr nnz entries).1
  { row_ptr := row_ptr, col_ind := col_ind, num_vertices := num_vertices, nnz := nnz }

/-- What the constructor reads from a Matrix Market file: the `field` and `symmetry`
tokens of the banner, the three `int` values of the dimensions line, and the `row col`
pairs of the data lines that the file holds, in file order. -/
structure MtxFile where
  field : String
  symmetry : String
  rows : Int
  cols : Int
  nnz : Int
  entries : List (Int × Int)
deriving Repr

/-- The two ways the constructor ends the process with `exit(1)`. -/
inductive LoadError where
  | cannotOpen
  | notSquare
deriving Repr, DecidableEq

/-- What a call of the constructor comes to.  `exit` is one of its two `exit(1)` paths
and `built` the graph it returns.  The other three are no exits of the constructor:
`lengthError` is the exception of `std::vector<int> degree(num_vertices, 0)` for a
negative size; `undefined` covers a read of `row`, `col` past the last data line (they
are uninitialised) and an index outside `degree` or `current_pos`; `negativeColumn` is a
return with a negative entry in `col_ind`, which `CSRMatrix` here does not represent. -/
inductive LoadResult where
  | exit (e : LoadError)
  | built (g : CSRMatrix)
  | lengthError
  | undefined
  | negativeColumn
deriving Repr, DecidableEq

/-- The indices that the two passes use for the data line `(r, c)` are inside the vectors
of length `V`: `row = r - 1` always, `col = c - 1` when the matrix is symmetric and the
line is off-diagonal. -/
def lineDefined (is_symmetric : Bool) (V : Nat) (e : Int × Int) : Bool :=
  decide (1 ≤ e.1 ∧ e.1 ≤ (V : Int) ∧
    (is_symmetric = true → e.1 ≠ e.2 → 1 ≤ e.2 ∧ e.2 ≤ (V : Int)))

/-- The constructor `CSRMatrix(filename)`; `none` stands for a file that cannot be
opened.  After the two checks that end in `exit(1)`, both loops read `original_nnz` data
lines (none when it is negative) and decrement `row` and `col`. -/
def CSRMatrix.load (file : Option MtxFile) : LoadResult :=
  match file with
  | none => LoadResult.exit LoadError.cannotOpen
  | some f =>
    let is_symmetric := decide (f.symmetry = "symmetric")
    if f.rows ≠ f.cols then LoadResult.exit LoadError.notSquare
    else if f.rows < 0 then LoadResult.lengthError
    else
      let num_vertices := f.rows.toNat
      let original_nnz := f.nnz.toNat
      let lines := f.entries.take original_nnz
      if f.entries.length < original_nnz then LoadResult.undefined
      else if lines.all (lineDefined is_symmetric num_vertices) = false then
        LoadResult.undefined
      else if lines.all (fun e => decide (1 ≤ e.2)) = false then LoadResult.negativeColumn
      else
        LoadResult.built
          (CSRMatrix.build is_symmetric num_vertices
            (lines.map (fun e => (e.1.toNat, e.2.toNat))))

/-! ## The relaxation kernel (pthreads 131-143, opencilk 118-130) -/

/-- The inner loop `for (k = row_ptr[v]; k < row_ptr[v+1]; k++)` folding
`min_label = std::min(min_label, label[col_ind[k]])` from `min_label = label[v]`. -/
def minLabel (g : CSRMatrix) (label : List Int) (v : Nat) : Int :=
  (List.range' (g.row_ptr.getD v 0) (g.row_ptr.getD (v + 1) 0 - g.row_ptr.getD v 0)).foldl
    (fun min_label k => min min_label (label.getD (g.col_ind.getD k 0) 0))
    (label.getD v 0)

/-- One iteration of the vertex loop: compute `min_label`, and when it is below
`label[v]` store it and report a change. -/
def relaxVertex (g : CSRMatrix) (label : List Int) (v : Nat) : List Int × Bool :=
  let min_label := minLabel g label v
  if min_label < label.getD v 0 then (label.set v min_label, true) else (label, false)

/-- The initialisation `label[v] = v` for every vertex. -/
def initLabels (num_vertices : Nat) : List Int :=
  (List.range num_vertices).map Int.ofNat

/-- Ways a run of the algorithm can fail to return. -/
inductive Fault where
  | lengthError
  | divisionByZero
  | outOfFuel
deriving Repr, DecidableEq

deriving instance DecidableEq for Except

/-! ## The thread-pool variant (`pthreads.cpp`, lines 100-224) -/

namespace Pthreads

/-- The fields of `ThreadData` that differ between threads. -/
structure ThreadData where
  start : Nat
  end_ : Nat
  thread_id : Nat
deriving Repr, DecidableEq

/-- Per-thread state inside one pass of the `while` loop: the loop variable `v` of
line 131 and the flag `local_changed`. -/
structure WorkerState where
  v : Nat
  local_changed : Bool
deriving Repr, DecidableEq

/-- One iteration of `for (v = data->start; v < data->end; v++)` by one thread;
nothing happens once the loop condition is false. -/
def workerStep (g : CSRMatrix) (td : ThreadData) (label : List Int) (w : WorkerState) :
    List Int × WorkerState :=
  if w.v < td.end_ then
    let r := relaxVertex g label w.v
    (r.1, { v := w.v + 1, local_changed := w.local_changed || r.2 })
  else
    (label, w)

/-- The thread with index `i` performs its next loop iteration on the shared label
array. An index that names no thread leaves the state alone. -/
def stepThread (g : CSRMatrix) (tds : List ThreadData) (st : List Int × List WorkerState)
    (i : Nat) : List Int × List WorkerState :=
  match tds[i]?, st.2[i]? with
  | some td, some w =>
    let r := workerStep g td st.1 w
    (r.1, st.2.set i r.2)
  | _, _ => st

/-- The steps that remain before the barrier of line 153: every thread, in index
order, gets as many turns as its partition has vertices. -/
def drainSchedule (tds : List ThreadData) : List Nat :=
  tds.enum.flatMap (fun p => List.replicate (p.2.end_ - p.2.start) p.1)

/-- One pass of the `while` loop of `worker_thread` for all threads together:
thread 0 clears `global_changed`, the threads relax their partitions interleaved as
`sched` says (then run to the barrier), each thread whose `local_changed` is set
raises `global_changed`.  Returns the labels and `global_changed`. -/
def runEpoch (g : CSRMatrix) (tds : List ThreadData) (sched : List Nat) (label : List Int) :
    List Int × Bool :=
  let ws := tds.map (fun td => ({ v := td.start, local_changed := false } : WorkerState))
  let st := (sched ++ drainSchedule tds).foldl (stepThread g tds) (label, ws)
  (st.1, st.2.any (fun w => w.local_changed))

/-- The function `worker_thread` as run by all threads together (the barriers keep them
in the same pass of the `while (continue_loop)` loop): every thread reads
`continue_loop = global_changed`, and thread 0 increments `iterations` in every pass.
`scheds n` is the interleaving of the pass that starts with `iterations = n`. -/
def worker_thread (g : CSRMatrix) (tds : List ThreadData) (scheds : Nat → List Nat) :
    Nat → List Int → Nat → Except Fault (List Int × Nat)
  | 0, _, _ => Except.error Fault.outOfFuel
  | fuel + 1, label, iterations =>
    let r := runEpoch g tds (scheds iterations) label
    let continue_loop := r.2
    let iterations := iterations + 1
    if continue_loop then worker_thread g tds scheds fuel r.1 iterations
    else Except.ok (r.1, iterations)

/-- The partition table set up in lines 189-199. -/
def makeThreadData (num_vertices num_threads : Nat) : List ThreadData :=
  let chunk_size := (num_vertices + num_threads - 1) / num_threads
  (List.range num_threads).map (fun i =>
    { start := i * chunk_size,
      end_ := min ((i + 1) * chunk_size) num_vertices,
      thread_id := i })

/-- The method `CSRMatrix::ColoringCCAlgorithm(int num_threads)`: returns the label
array and the reported iteration count.  A negative `num_threads` makes the
`std::vector` constructors of lines 179-180 throw; `num_threads = 0` divides by zero
in line 189. -/
def ColoringCCAlgorithm (fuel : Nat) (g : CSRMatrix) (num_threads : Int)
    (scheds : Nat → List Nat) : Except Fault (List Int × Nat) :=
  let label := initLabels g.num_vertices
  if num_threads < 0 then Except.error Fault.lengthError
  else if num_threads = 0 then Except.error Fault.divisionByZero
  else
    worker_thread g (makeThreadData g.num_vertices num_threads.toNat) scheds fuel label 0

end Pthreads

/-! ## The fork-join variant (`opencilk.cpp`, lines 97-150) -/

namespace OpenCilk

/-- A `cilk_for (v = 0; v < n; v++)` loop: every iteration runs exactly once; the
iterations named by `sched` run first, in that order (a repeated or out-of-range
name is skipped), the others afterwards in index order.  The empty schedule is the
serial elision. -/
def cilkFor {σ : Type} (n : Nat) (sched : List Nat) (body : Nat → σ → σ) (s : σ) : σ :=
  let st := sched.foldl
    (fun (st : σ × List Bool) v =>
      if v < n ∧ st.2.getD v true = false then (body v st.1, st.2.set v true) else st)
    (s, List.replicate n false)
  (List.range n).foldl
    (fun s v => if st.2.getD v true = false then body v s else s) st.1

/-- Body of the relaxation loop (lines 119-129) on `(label, local_changed)`. -/
def relaxBody (g : CSRMatrix) (v : Nat) (st : List Int × List Bool) : List Int × List Bool :=
  let r := relaxVertex g st.1 v
  (r.1, if r.2 then st.2.set v true else st.2)

/-- One pass of the `do`-`while` body after `iterations++`: clear `local_changed`,
relax every vertex, and scan `local_changed` for a set entry. -/
def runEpoch (g : CSRMatrix) (sched : List Nat) (label : List Int) : List Int × Bool :=
  let local_changed := List.replicate g.num_vertices false
  let st := cilkFor g.num_vertices sched (relaxBody g) (label, local_changed)
  (st.1, st.2.any (fun b => b))

/-- The `do { ... } while (changed)` loop with `iterations++` at its head. -/
def epochLoop (g : CSRMatrix) (scheds : Nat → List Nat) :
    Nat → List Int → Nat → Except Fault (List Int × Nat)
  | 0, _, _ => Except.error Fault.outOfFuel
  | fuel + 1, label, iterations =>
    let r := runEpoch g (scheds iterations) label
    let iterations := iterations + 1
    if r.2 then epochLoop g scheds fuel r.1 iterations
    else Except.ok (r.1, iterations)

/-- The method `CSRMatrix::ColoringCCAlgorithm()`. -/
def ColoringCCAlgorithm (fuel : Nat) (g : CSRMatrix) (scheds : Nat → List Nat) :
    Except Fault (List Int × Nat) :=
  epochLoop g scheds fuel (initLabels g.num_vertices) 0

end OpenCilk

/-! ## Specification vocabulary -/

/-- The data lines use 1-based indices inside `[1, V]`. -/
def InRange (V : Nat) (entries : List (Nat × Nat)) : Prop :=
  ∀ e ∈ entries, 1 ≤ e.1 ∧ e.1 ≤ V ∧ 1 ≤ e.2 ∧ e.2 ≤ V

instance (V : Nat) (entries : List (Nat × Nat)) : Decidable (InRange V entries) := by
  unfold InRange; infer_instance

/-- The neighbours that the data line `(r, c)` contributes to vertex `v` (0-based):
`c` when `r` names `v`, and `r` when the matrix is symmetric, the line is
off-diagonal and `c` names `v`. -/
def entryContrib (is_symmetric : Bool) (v : Nat) (e : Nat × Nat) : List Nat :=
  (if e.1 = v + 1 then [e.2 - 1] else []) ++
  (if is_symmetric = true ∧ e.1 ≠ e.2 ∧ e.2 = v + 1 then [e.1 - 1] else [])

/-- The neighbours contributed to `v` by the whole file, in file order. -/
def contrib (is_symmetric : Bool) (entries : List (Nat × Nat)) (v : Nat) : List Nat :=
  entries.flatMap (entryContrib is_symmetric v)

/-- The neighbour slice `col_ind[row_ptr[v] .. row_ptr[v+1])` of a vertex. -/
def CSRMatrix.neighbors (g : CSRMatrix) (v : Nat) : List Nat :=
  (g.col_ind.drop (g.row_ptr.getD v 0)).take (g.row_ptr.getD (v + 1) 0 - g.row_ptr.getD v 0)

/-- Structural validity of a CSR graph: `row_ptr` has `V + 1` entries, starts at 0,
is non-decreasing and ends at the length of `col_ind`, whose entries are vertices. -/
def CSRMatrix.WellFormed (g : CSRMatrix) : Prop :=
  g.row_ptr.length = g.num_vertices + 1 ∧
  g.row_ptr.getD 0 0 = 0 ∧
  (∀ i, i < g.num_vertices → g.row_ptr.getD i 0 ≤ g.row_ptr.getD (i + 1) 0) ∧
  g.row_ptr.getD g.num_vertices 0 = g.col_ind.length ∧
  (∀ u ∈ g.col_ind, u < g.num_vertices)

instance (g : CSRMatrix) : Decidable g.WellFormed := by
  unfold CSRMatrix.WellFormed; infer_instance

/-- The adjacency is symmetric: `u` is a neighbour of `v` iff `v` is one of `u`. -/
def CSRMatrix.Undirected (g : CSRMatrix) : Prop :=
  ∀ u, u < g.num_vertices → ∀ v, v < g.num_vertices →
    (v ∈ g.neighbors u ↔ u ∈ g.neighbors v)

instance (g : CSRMatrix) : Decidable g.Undirected := by
  unfold CSRMatrix.Undirected; infer_instance

/-- The vertex `w` can be reached from `v` along stored edges (`v` itself included). -/
def CSRMatrix.Reach (g : CSRMatrix) : Nat → Nat → Prop :=
  Relation.ReflTransGen (fun a b => b ∈ g.neighbors a)

/-- The number `m` is the least vertex index reachable from `v`. -/
def CSRMatrix.IsMinReach (g : CSRMatrix) (v m : Nat) : Prop :=
  g.Reach v m ∧ ∀ w, g.Reach v w → m ≤ w

/-- Vertices `v` and `w` lie in one connected component: they are joined by a path
whose edges may be followed in either direction. -/
def CSRMatrix.Connected (g : CSRMatrix) : Nat → Nat → Prop :=
  Relation.ReflTransGen (fun a b => b ∈ g.neighbors a ∨ a ∈ g.neighbors b)

/-- The number `m` is the least vertex index of the connected component of `v`. -/
def CSRMatrix.IsComponentMin (g : CSRMatrix) (v m : Nat) : Prop :=
  g.Connected v m ∧ ∀ w, g.Connected v w → m ≤ w

/-- The kernel's result in the words of its contract:
`min(label[v], min over u in neighbors(v) of label[u])`. -/
def specNewLabel (g : CSRMatrix) (label : List Int) (v : Nat) : Int :=
  ((g.neighbors v).map (fun u => label.getD u 0)).foldr min (label.getD v 0)

/-- Sum of the labels. -/
def labelSum (label : List Int) : Int := label.sum

/-- The write `col_ind[current_pos[r]++] = x` on the pair `(col_ind, current_pos)`. -/
def pushAt (st : List Nat × List Nat) (r x : Nat) : List Nat × List Nat :=
  (st.1.set (st.2.getD r 0) x, incrAt st.2 r)

/-- State of the fill pass when the slice of every vertex `v` holds the bucket `B v`:
`R` gives the slice starts, `N` the length of `col_ind`. -/
def FillInv (V N : Nat) (R : Nat → Nat) (B : Nat → List Nat) (st : List Nat × List Nat) :
    Prop :=
  st.1.length = N ∧ st.2.length = V + 1 ∧
  (∀ v, v < V → st.2.getD v 0 = R v + (B v).length) ∧
  (∀ v, v < V → ∀ j, j < (B v).length → st.1[R v + j]? = (B v)[j]?)

/-- Relaxing the vertices of `vs` one after the other, in place, with the disjunction of
the reported changes. -/
def relaxSeq (g : CSRMatrix) (vs : List Nat) (st : List Int × Bool) : List Int × Bool :=
  vs.foldl (fun st v => ((relaxVertex g st.1 v).1, st.2 || (relaxVertex g st.1 v).2)) st

/-- Every label lies between 0 and the index of its vertex. -/
def Bounded (label : List Int) : Prop :=
  ∀ v, v < label.length → 0 ≤ label.getD v 0 ∧ label.getD v 0 ≤ (v : Int)

instance (label : List Int) : Decidable (Bounded label) := by
  unfold Bounded; infer_instance

/-- The labels of a run: one per vertex, each the index of a vertex that is reachable
from its own vertex and not above it. -/
def LabelInv (g : CSRMatrix) (label : List Int) : Prop :=
  label.length = g.num_vertices ∧
  ∀ v, v < g.num_vertices → ∃ w, w ≤ v ∧ g.Reach v w ∧ label.getD v 0 = (w : Int)

/-- No vertex has a neighbour with a smaller label. -/
def FixedPoint (g : CSRMatrix) (label : List Int) : Prop :=
  ∀ v, v < g.num_vertices → ∀ u ∈ g.neighbors v, label.getD v 0 ≤ label.getD u 0

/-- An epoch function whose every pass relaxes vertices of the graph only, and each of
them at least once. -/
def Sweeps (g : CSRMatrix) (E : Nat → List Int → List Int × Bool) : Prop :=
  ∀ n label, ∃ vs : List Nat, (∀ v ∈ vs, v < g.num_vertices) ∧
    (∀ v, v < g.num_vertices → v ∈ vs) ∧ E n label = relaxSeq g vs (label, false)

/-- The common shape of the two epoch loops: run pass number `iterations`, count it,
and go on while it reports a change. -/
def iterateEpochs (E : Nat → List Int → List Int × Bool) :
    Nat → List Int → Nat → Except Fault (List Int × Nat)
  | 0, _, _ => Except.error Fault.outOfFuel
  | fuel + 1, label, iterations =>
    if (E iterations label).2 then iterateEpochs E fuel (E iterations label).1 (iterations + 1)
    else Except.ok ((E iterations label).1, iterations + 1)

/-- The vertices relaxed by the threads, in the order in which the schedule `sched`
makes them take their turns, from the loop variables `cur`. -/
def Pthreads.trace (tds : List Pthreads.ThreadData) : List Nat → List Nat → List Nat
  | [], _ => []
  | i :: rest, cur =>
    match tds[i]?, cur[i]? with
    | some td, some c =>
      if c < td.end_ then c :: Pthreads.trace tds rest (cur.set i (c + 1))
      else Pthreads.trace tds rest cur
    | _, _ => Pthreads.trace tds rest cur

/-- The iterations of a `cilk_for` that the schedule runs first, with the updated
table of finished iterations. -/
def OpenCilk.picked (n : Nat) : List Nat → List Bool → List Nat × List Bool
  | [], done => ([], done)
  | v :: rest, done =>
    if v < n ∧ done.getD v true = false then
      (v :: (OpenCilk.picked n rest (done.set v true)).1,
        (OpenCilk.picked n rest (done.set v true)).2)
    else OpenCilk.picked n rest done

/-- The order in which a `cilk_for` over `n` iterations runs them under `sched`. -/
def OpenCilk.order (n : Nat) (sched : List Nat) : List Nat :=
  (OpenCilk.picked n sched (List.replicate n false)).1 ++
    (List.range n).filter
      (fun v => decide ((OpenCilk.picked n sched (List.replicate n false)).2.getD v true = false))

/-- Two disjoint triangles on the vertices 0-2 and 3-5, as the constructor builds them
from the symmetric lines `1 2`, `2 3`, `1 3`, `4 5`, `5 6`, `4 6`. -/
def twoTriangles : CSRMatrix :=
  { row_ptr := [0, 2, 4, 6, 8, 10, 12],
    col_ind := [1, 2, 0, 2, 1, 0, 4, 5, 3, 5, 4, 3],
    num_vertices := 6,
    nnz := 12 }

/-- The path 0 - 1 - 2 - 3, as built from the symmetric lines `1 2`, `2 3`, `3 4`. -/
def path4 : CSRMatrix :=
  { row_ptr := [0, 1, 3, 5, 6],
    col_ind := [1, 0, 2, 1, 3, 2],
    num_vertices := 4,
    nnz := 6 }

/-- The label array at the start of the `n`-th pass of an epoch loop that begins with
pass number `it` on the array `label`. -/
def epochState (E : Nat → List Int → List Int × Bool) : Nat → List Int → Nat → List Int
  | _, label, 0 => label
  | it, label, n + 1 => epochState E (it + 1) (E it label).1 n

/-- The vertex `v` lies in the partition `[start, end)` of a thread. -/
def Pthreads.Owns (td : Pthreads.ThreadData) (v : Nat) : Prop :=
  td.start ≤ v ∧ v < td.end_

instance (td : Pthreads.ThreadData) (v : Nat) : Decidable (Pthreads.Owns td v) := by
  unfold Pthreads.Owns; infer_instance

/-- A single vertex without edges. -/
def singleVertex : CSRMatrix :=
  { row_ptr := [0, 0], col_ind := [], num_vertices := 1, nnz := 0 }

/-- The data lines of a file are well formed: the dimension is not negative, the file
holds the declared number of data lines, and their 1-based indices lie in `[1, rows]`. -/
def MtxFile.DataOk (f : MtxFile) : Prop :=
  0 ≤ f.rows ∧ f.nnz.toNat ≤ f.entries.length ∧
  ∀ e ∈ f.entries.take f.nnz.toNat, 1 ≤ e.1 ∧ e.1 ≤ f.rows ∧ 1 ≤ e.2 ∧ e.2 ≤ f.rows

instance (f : MtxFile) : Decidable f.DataOk := by
  unfold MtxFile.DataOk; infer_instance

/-! ## Auxiliary facts on vectors -/

theorem getD_incrAt (xs : List Nat) (i j : Nat) :
    (incrAt xs i).getD j 0 = xs.getD j 0 + (if i = j ∧ i < xs.length then 1 else 0) := by
  unfold incrAt
  simp only [List.getD_eq_getElem?_getD, List.getElem?_set]
  by_cases h : i = j
  · subst h
    by_cases h2 : i < xs.length
    · simp [h2]
    · simp [h2, List.getElem?_eq_none (Nat.le_of_not_lt h2)]
  · simp [h]

theorem length_incrAt (xs : List Nat) (i : Nat) : (incrAt xs i).length = xs.length := by
  simp [incrAt]

theorem sum_take_succ (l : List Nat) (i : Nat) :
    (l.take (i + 1)).sum = (l.take i).sum + l.getD i 0 := by
  induction l generalizing i with
  | nil => simp
  | cons a t ih =>
    cases i with
    | zero => simp
    | succ k =>
      have := ih k
      simp only [List.take_succ_cons, List.sum_cons, this, List.getD_cons_succ]
      omega

/-! ## The count pass and the prefix sums -/

theorem length_countStep (s : Bool) (deg : List Nat) (e : Nat × Nat) :
    (countStep s deg e).length = deg.length := by
  simp only [countStep]
  split <;> simp [length_incrAt]

theorem getD_countStep (s : Bool) (V : Nat) (deg : List Nat) (e : Nat × Nat) (v : Nat)
    (hlen : deg.length = V) (he : 1 ≤ e.1 ∧ e.1 ≤ V ∧ 1 ≤ e.2 ∧ e.2 ≤ V) :
    (countStep s deg e).getD v 0 = deg.getD v 0 + (entryContrib s v e).length := by
  obtain ⟨h1, h2, h3, h4⟩ := he
  simp only [countStep, entryContrib, Bool.and_eq_true, bne_iff_ne, ne_eq, List.length_append]
  have c1 : (e.1 - 1 = v ∧ e.1 - 1 < deg.length) ↔ e.1 = v + 1 := by omega
  have c2 : (e.2 - 1 = v ∧ e.2 - 1 < deg.length) ↔ e.2 = v + 1 := by omega
  have c3 : (e.1 - 1 = e.2 - 1) ↔ e.1 = e.2 := by omega
  split_ifs <;>
    simp only [getD_incrAt, length_incrAt, c1, c2, List.length_cons, List.length_nil] <;>
    split_ifs <;> first | omega | simp_all

theorem foldl_countStep (s : Bool) (V : Nat) (es : List (Nat × Nat)) (deg : List Nat)
    (hlen : deg.length = V) (hr : InRange V es) :
    (es.foldl (countStep s) deg).length = V ∧
    ∀ v, (es.foldl (countStep s) deg).getD v 0 = deg.getD v 0 + (contrib s es v).length := by
  induction es generalizing deg with
  | nil => simp [contrib, hlen]
  | cons e t ih =>
    have he := hr e (List.mem_cons_self _ _)
    have ht : InRange V t := fun x hx => hr x (List.mem_cons_of_mem _ hx)
    have hl : (countStep s deg e).length = V := by rw [length_countStep]; exact hlen
    obtain ⟨i1, i2⟩ := ih (countStep s deg e) hl ht
    refine ⟨by simpa using i1, fun v => ?_⟩
    simp only [List.foldl_cons]
    rw [i2 v, getD_countStep s V deg e v hlen he]
    simp [contrib, List.flatMap_cons]
    omega

theorem length_countPass (s : Bool) (V : Nat) (es : List (Nat × Nat)) (hr : InRange V es) :
    (countPass s V es).length = V :=
  (foldl_countStep s V es _ (by simp) hr).1

theorem getD_countPass (s : Bool) (V : Nat) (es : List (Nat × Nat)) (hr : InRange V es)
    (v : Nat) : (countPass s V es).getD v 0 = (contrib s es v).length := by
  have := (foldl_countStep s V es (List.replicate V 0) (by simp) hr).2 v
  unfold countPass
  rw [this]
  simp [List.getElem?_replicate]
  split <;> simp

theorem length_rowPtr_foldl (deg : List Nat) (l : List Nat) (rp : List Nat) :
    (l.foldl (rowPtrStep deg) rp).length = rp.length := by
  induction l generalizing rp with
  | nil => rfl
  | cons a t ih => simp [ih, rowPtrStep]

theorem rowPtr_upto (deg : List Nat) (V n : Nat) (hn : n ≤ V) :
    ∀ i, ((List.range n).foldl (rowPtrStep deg) (List.replicate (V + 1) 0)).getD i 0 =
      if i ≤ n then (deg.take i).sum else 0 := by
  induction n with
  | zero =>
    intro i
    simp only [List.range_zero, List.foldl_nil, List.getD_eq_getElem?_getD,
      List.getElem?_replicate]
    by_cases h : i ≤ 0
    · have : i = 0 := by omega
      subst this; simp
    · simp only [h, if_false]; split <;> rfl
  | succ k ih =>
    intro i
    have ihk := ih (by omega)
    rw [List.range_succ, List.foldl_append]
    simp only [List.foldl_cons, List.foldl_nil]
    generalize hrp : (List.range k).foldl (rowPtrStep deg) (List.replicate (V + 1) 0) = rp at ihk
    have hlen : rp.length = V + 1 := by rw [← hrp, length_rowPtr_foldl]; simp
    unfold rowPtrStep
    simp only [List.getD_eq_getElem?_getD, List.getElem?_set] at ihk ⊢
    by_cases hi : k + 1 = i
    · subst hi
      have h1 := ihk k
      simp only [le_refl, if_true] at h1
      have hlt : k + 1 < rp.length := by omega
      simp only [if_true, hlt, Option.getD_some, h1]
      have := sum_take_succ deg k
      simp only [List.getD_eq_getElem?_getD] at this
      simp only [Nat.le_refl, if_true]
      omega
    · simp only [hi, if_false]
      rw [ihk i]
      by_cases h2 : i ≤ k
      · have : i ≤ k + 1 := by omega
        simp [h2, this]
      · have : ¬ i ≤ k + 1 := by omega
        simp [h2, this]

theorem getD_buildRowPtr (V : Nat) (deg : List Nat) (i : Nat) (hi : i ≤ V) :
    (buildRowPtr V deg).getD i 0 = (deg.take i).sum := by
  unfold buildRowPtr
  rw [rowPtr_upto deg V V (le_refl V) i]
  simp [hi]

theorem length_buildRowPtr (V : Nat) (deg : List Nat) : (buildRowPtr V deg).length = V + 1 := by
  unfold buildRowPtr
  rw [length_rowPtr_foldl]; simp

/-! ## The fill pass -/

theorem fillStep_eq (s : Bool) (st : List Nat × List Nat) (e : Nat × Nat) :
    fillStep s st e =
      if s = true ∧ e.1 - 1 ≠ e.2 - 1 then pushAt (pushAt st (e.1 - 1) (e.2 - 1)) (e.2 - 1) (e.1 - 1)
      else pushAt st (e.1 - 1) (e.2 - 1) := by
  simp only [fillStep, pushAt, Bool.and_eq_true, bne_iff_ne, ne_eq]

theorem starts_mono (R D : Nat → Nat) (hR : ∀ v, R (v + 1) = R v + D v) (a b : Nat)
    (hab : a ≤ b) : R a ≤ R b := by
  induction b with
  | zero =>
    have : a = 0 := by omega
    subst this; exact le_refl _
  | succ k ih =>
    by_cases h : a = k + 1
    · subst h; exact le_refl _
    · have := ih (by omega)
      have := hR k
      omega

theorem fillInv_push (V N : Nat) (R D : Nat → Nat) (hR : ∀ v, R (v + 1) = R v + D v)
    (hN : R V ≤ N) (B B' : Nat → List Nat) (st : List Nat × List Nat)
    (hinv : FillInv V N R B st) (hB : ∀ v, v < V → (B v).length ≤ D v)
    (r x : Nat) (hr : r < V) (hlt : (B r).length < D r)
    (hB' : ∀ v, B' v = if v = r then B v ++ [x] else B v) :
    FillInv V N R B' (pushAt st r x) := by
  obtain ⟨h1, h2, h3, h4⟩ := hinv
  have hcur : st.2.getD r 0 = R r + (B r).length := h3 r hr
  have hpos : R r + (B r).length < N := by
    have := hR r
    have := starts_mono R D hR (r + 1) V (by omega)
    omega
  refine ⟨by simp [pushAt, h1], by simp [pushAt, length_incrAt, h2], ?_, ?_⟩
  · intro v hv
    simp only [pushAt, getD_incrAt, hB' v]
    rw [h3 v hv]
    by_cases hvr : v = r
    · subst hvr
      have : v = v ∧ v < st.2.length := ⟨rfl, by omega⟩
      simp [this]; omega
    · have : ¬ (r = v ∧ r < st.2.length) := fun h => hvr h.1.symm
      simp [this, hvr]
  · intro v hv j hj
    simp only [pushAt, hcur, List.getElem?_set, hB' v]
    by_cases hvr : v = r
    · subst hvr
      rw [hB' v] at hj
      simp only [if_true, List.length_append, List.length_singleton] at hj ⊢
      by_cases hjl : j = (B v).length
      · subst hjl
        simp [h1, hpos]
      · have hjlt : j < (B v).length := by omega
        have hne : ¬ (R v + (B v).length = R v + j) := by omega
        simp only [hne, if_false]
        rw [h4 v hv j hjlt, List.getElem?_append_left hjlt]
    · rw [hB' v] at hj
      simp only [hvr, if_false] at hj ⊢
      have hjD : j < D v := lt_of_lt_of_le hj (hB v hv)
      have hne : ¬ (R r + (B r).length = R v + j) := by
        have e1 := hR v
        have e2 := hR r
        rcases Nat.lt_or_gt_of_ne hvr with hlt2 | hgt
        · have := starts_mono R D hR (v + 1) r (by omega)
          omega
        · have := starts_mono R D hR (r + 1) v (by omega)
          omega
      simp only [hne, if_false]
      exact h4 v hv j hj

theorem entryContrib_single (s : Bool) (v : Nat) (e : Nat × Nat) (h1 : 1 ≤ e.1)
    (hc : ¬ (s = true ∧ e.1 - 1 ≠ e.2 - 1)) (h2 : 1 ≤ e.2) :
    entryContrib s v e = if v = e.1 - 1 then [e.2 - 1] else [] := by
  have c1 : (e.1 = v + 1) ↔ (v = e.1 - 1) := by omega
  have c2 : ¬ (s = true ∧ e.1 ≠ e.2 ∧ e.2 = v + 1) := by
    rintro ⟨a, b, -⟩
    exact hc ⟨a, by omega⟩
  simp only [entryContrib, c1, c2, if_false, List.append_nil]

theorem entryContrib_double (s : Bool) (v : Nat) (e : Nat × Nat) (h1 : 1 ≤ e.1)
    (h2 : 1 ≤ e.2) (hc : s = true ∧ e.1 - 1 ≠ e.2 - 1) :
    entryContrib s v e =
      if v = e.1 - 1 then [e.2 - 1] else if v = e.2 - 1 then [e.1 - 1] else [] := by
  obtain ⟨hs, hne⟩ := hc
  have c1 : (e.1 = v + 1) ↔ (v = e.1 - 1) := by omega
  have c2 : (s = true ∧ e.1 ≠ e.2 ∧ e.2 = v + 1) ↔ (v = e.2 - 1) := by
    constructor
    · rintro ⟨-, -, c⟩; omega
    · intro c; exact ⟨hs, by omega, by omega⟩
  simp only [entryContrib, c1, c2]
  by_cases a : v = e.1 - 1
  · have : ¬ v = e.2 - 1 := by omega
    simp [a, this]
    intro h; omega
  · simp [a]

theorem contrib_append (s : Bool) (p q : List (Nat × Nat)) (v : Nat) :
    contrib s (p ++ q) v = contrib s p v ++ contrib s q v := by
  simp [contrib, List.flatMap_append]

theorem contrib_cons (s : Bool) (e : Nat × Nat) (q : List (Nat × Nat)) (v : Nat) :
    contrib s (e :: q) v = entryContrib s v e ++ contrib s q v := by
  simp [contrib, List.flatMap_cons]

theorem fillInv_fold (s : Bool) (V N : Nat) (R : Nat → Nat) (es : List (Nat × Nat))
    (hR : ∀ v, R (v + 1) = R v + (contrib s es v).length) (hN : R V ≤ N)
    (hr : InRange V es) (es1 es2 es3 : List (Nat × Nat)) (hes : es = es1 ++ (es2 ++ es3))
    (st : List Nat × List Nat) (hinv : FillInv V N R (contrib s es1) st) :
    FillInv V N R (contrib s (es1 ++ es2)) (es2.foldl (fillStep s) st) := by
  induction es2 generalizing es1 st with
  | nil =>
    simp only [List.append_nil]
    exact hinv
  | cons e t ih =>
    have he : 1 ≤ e.1 ∧ e.1 ≤ V ∧ 1 ≤ e.2 ∧ e.2 ≤ V := hr e (by rw [hes]; simp)
    obtain ⟨b1, b2, b3, b4⟩ := he
    have hsplit : ∀ v, contrib s es v =
        contrib s es1 v ++ (entryContrib s v e ++ contrib s (t ++ es3) v) := by
      intro v; rw [hes, contrib_append, List.cons_append, contrib_cons]
    have hnext : ∀ v, contrib s (es1 ++ [e]) v = contrib s es1 v ++ entryContrib s v e := by
      intro v; rw [contrib_append, contrib_cons]; simp [contrib]
    simp only [List.foldl_cons]
    have hassoc : es1 ++ e :: t = (es1 ++ [e]) ++ t := by simp
    rw [hassoc]
    apply ih (es1 ++ [e]) (by simp [hes])
    rw [fillStep_eq]
    by_cases hc : s = true ∧ e.1 - 1 ≠ e.2 - 1
    · rw [if_pos hc]
      have hne : e.1 - 1 ≠ e.2 - 1 := hc.2
      have hec := fun v => entryContrib_double s v e b1 b3 hc
      apply fillInv_push V N R (fun v => (contrib s es v).length) hR hN
        (fun v => if v = e.1 - 1 then contrib s es1 v ++ [e.2 - 1] else contrib s es1 v)
        _ _ ?_ ?_ (e.2 - 1) (e.1 - 1) (by omega) ?_ ?_
      · apply fillInv_push V N R (fun v => (contrib s es v).length) hR hN
          (contrib s es1) _ st hinv ?_ (e.1 - 1) (e.2 - 1) (by omega) ?_ (fun v => rfl)
        · intro v _; beta_reduce; rw [hsplit v]; simp
        · show (contrib s es1 (e.1 - 1)).length < (contrib s es (e.1 - 1)).length
          rw [hsplit, hec]; simp
      · intro v _
        show _ ≤ (contrib s es v).length
        rw [hsplit v, hec v]
        by_cases a : v = e.1 - 1
        · simp [a]
        · simp [a]
      · show _ < (contrib s es (e.2 - 1)).length
        have a : ¬ (e.2 - 1 = e.1 - 1) := fun h => hne h.symm
        rw [hsplit, hec]
        simp [a]
      · intro v
        rw [hnext v, hec v]
        by_cases a : v = e.1 - 1
        · subst a
          simp [hne]
        · by_cases b : v = e.2 - 1
          · subst b
            simp [Ne.symm hne]
          · simp [a, b]
    · rw [if_neg hc]
      have hec := fun v => entryContrib_single s v e b1 hc b3
      apply fillInv_push V N R (fun v => (contrib s es v).length) hR hN
        (contrib s es1) _ st hinv ?_ (e.1 - 1) (e.2 - 1) (by omega) ?_ ?_
      · intro v _; beta_reduce; rw [hsplit v]; simp
      · show _ < (contrib s es (e.1 - 1)).length
        rw [hsplit, hec]; simp
      · intro v
        rw [hnext v, hec v]
        by_cases a : v = e.1 - 1
        · simp [a]
        · simp [a]

/-! ## Facts about the built graph -/

/-- Start of the slice of vertex `i`: the sum of the first `i` degrees. -/
theorem build_row_ptr (s : Bool) (V : Nat) (es : List (Nat × Nat)) (i : Nat) (hi : i ≤ V) :
    (CSRMatrix.build s V es).row_ptr.getD i 0 = ((countPass s V es).take i).sum := by
  simp only [CSRMatrix.build]
  exact getD_buildRowPtr V _ i hi

theorem build_row_ptr_succ (s : Bool) (V : Nat) (es : List (Nat × Nat)) (hr : InRange V es)
    (v : Nat) (hv : v < V) :
    (CSRMatrix.build s V es).row_ptr.getD (v + 1) 0 =
      (CSRMatrix.build s V es).row_ptr.getD v 0 + (contrib s es v).length := by
  rw [build_row_ptr s V es (v + 1) (by omega), build_row_ptr s V es v (by omega),
    sum_take_succ, getD_countPass s V es hr]

theorem build_fillInv (s : Bool) (V : Nat) (es : List (Nat × Nat)) (hr : InRange V es) :
    FillInv V ((CSRMatrix.build s V es).row_ptr.getD V 0)
      (fun i => ((countPass s V es).take i).sum) (contrib s es)
      (fillPass s (CSRMatrix.build s V es).row_ptr
        ((CSRMatrix.build s V es).row_ptr.getD V 0) es) := by
  have hR : ∀ v, (fun i => ((countPass s V es).take i).sum) (v + 1) =
      (fun i => ((countPass s V es).take i).sum) v + (contrib s es v).length := by
    intro v
    beta_reduce
    rw [sum_take_succ, getD_countPass s V es hr]
  unfold fillPass
  have hfold := fillInv_fold s V ((CSRMatrix.build s V es).row_ptr.getD V 0)
    (fun i => ((countPass s V es).take i).sum) es hR ?_ hr
    [] es [] (by simp) (List.replicate ((CSRMatrix.build s V es).row_ptr.getD V 0) 0,
      (CSRMatrix.build s V es).row_ptr) ?_
  · simpa using hfold
  · rw [build_row_ptr s V es V (le_refl V)]
  · refine ⟨by simp, ?_, ?_, ?_⟩
    · simp only [CSRMatrix.build]; exact length_buildRowPtr V _
    · intro v hv
      simp only [contrib, List.flatMap_nil, List.length_nil, Nat.add_zero]
      exact build_row_ptr s V es v (by omega)
    · intro v _ j hj
      simp [contrib] at hj

theorem build_col_ind (s : Bool) (V : Nat) (es : List (Nat × Nat)) :
    (CSRMatrix.build s V es).col_ind =
      (fillPass s (CSRMatrix.build s V es).row_ptr
        ((CSRMatrix.build s V es).row_ptr.getD V 0) es).1 := rfl

theorem build_neighbors (s : Bool) (V : Nat) (es : List (Nat × Nat)) (hr : InRange V es)
    (v : Nat) (hv : v < V) :
    (CSRMatrix.build s V es).neighbors v = contrib s es v := by
  obtain ⟨_, _, _, h4⟩ := build_fillInv s V es hr
  have hrow := build_row_ptr s V es v (by omega)
  have hsucc := build_row_ptr_succ s V es hr v hv
  unfold CSRMatrix.neighbors
  rw [hsucc, Nat.add_sub_cancel_left, build_col_ind]
  apply List.ext_getElem?
  intro n
  by_cases hn : n < (contrib s es v).length
  · rw [List.getElem?_take_of_lt hn, List.getElem?_drop, hrow]
    exact h4 v hv n hn
  · have h2 : (contrib s es v)[n]? = none := List.getElem?_eq_none (by omega)
    rw [h2]
    apply List.getElem?_eq_none
    simp only [List.length_take]
    omega

theorem length_build_col_ind (s : Bool) (V : Nat) (es : List (Nat × Nat)) :
    (CSRMatrix.build s V es).col_ind.length = (CSRMatrix.build s V es).row_ptr.getD V 0 := by
  have : ∀ (l : List (Nat × Nat)) (st : List Nat × List Nat),
      (l.foldl (fillStep s) st).1.length = st.1.length := by
    intro l
    induction l with
    | nil => intro st; rfl
    | cons e t ih =>
      intro st
      simp only [List.foldl_cons]
      rw [ih, fillStep_eq]
      split <;> simp [pushAt]
  rw [build_col_ind]
  unfold fillPass
  rw [this]; simp

theorem length_contrib (s : Bool) (es : List (Nat × Nat)) (v : Nat) :
    (contrib s es v).length =
      es.countP (fun e => decide (e.1 = v + 1)) +
        (if s = true then es.countP (fun e => decide (e.2 = v + 1 ∧ e.1 ≠ e.2)) else 0) := by
  induction es with
  | nil => simp [contrib]
  | cons e t ih =>
    rw [contrib_cons, List.length_append, ih]
    simp only [entryContrib, List.countP_cons, List.length_append]
    cases s
    · simp only [Bool.false_eq_true, false_and, if_false, List.length_nil, decide_eq_true_eq]
      split_ifs <;> simp
      all_goals omega
    · simp only [true_and, if_true, decide_eq_true_eq]
      have c : (e.1 ≠ e.2 ∧ e.2 = v + 1) ↔ (e.2 = v + 1 ∧ e.1 ≠ e.2) := by tauto
      simp only [c]
      split_ifs <;> simp <;> omega

theorem sum_incrAt (xs : List Nat) (i : Nat) (hi : i < xs.length) :
    (incrAt xs i).sum = xs.sum + 1 := by
  induction xs generalizing i with
  | nil => simp at hi
  | cons a t ih =>
    cases i with
    | zero => simp [incrAt]; omega
    | succ k =>
      have hk : k < t.length := by simpa using hi
      have := ih k hk
      simp only [incrAt, List.getD_cons_succ, List.set_cons_succ, List.sum_cons] at this ⊢
      omega

theorem sum_countStep (s : Bool) (V : Nat) (deg : List Nat) (e : Nat × Nat)
    (hlen : deg.length = V) (he : 1 ≤ e.1 ∧ e.1 ≤ V ∧ 1 ≤ e.2 ∧ e.2 ≤ V) :
    (countStep s deg e).sum =
      deg.sum + 1 + (if s = true ∧ e.1 ≠ e.2 then 1 else 0) := by
  obtain ⟨h1, h2, h3, h4⟩ := he
  have c3 : (e.1 - 1 = e.2 - 1) ↔ e.1 = e.2 := by omega
  simp only [countStep, Bool.and_eq_true, bne_iff_ne, ne_eq, c3]
  split_ifs
  · rw [sum_incrAt _ _ (by rw [length_incrAt]; omega), sum_incrAt _ _ (by omega)]
  · rw [sum_incrAt _ _ (by omega)]

theorem sum_countPass (s : Bool) (V : Nat) (es : List (Nat × Nat)) (hr : InRange V es) :
    (countPass s V es).sum =
      es.length + (if s = true then es.countP (fun e => decide (e.1 ≠ e.2)) else 0) := by
  have key : ∀ (l : List (Nat × Nat)) (deg : List Nat), deg.length = V → InRange V l →
      (l.foldl (countStep s) deg).sum =
        deg.sum + l.length + (if s = true then l.countP (fun e => decide (e.1 ≠ e.2)) else 0) := by
    intro l
    induction l with
    | nil => intro deg _ _; simp
    | cons e t ih =>
      intro deg hlen hl
      have he := hl e (List.mem_cons_self _ _)
      have ht : InRange V t := fun x hx => hl x (List.mem_cons_of_mem _ hx)
      simp only [List.foldl_cons]
      rw [ih _ (by rw [length_countStep]; exact hlen) ht, sum_countStep s V deg e hlen he]
      simp only [List.length_cons, List.countP_cons, decide_eq_true_eq]
      cases s
      · simp; omega
      · simp only [true_and, if_true]
        split_ifs <;> omega
  have := key es (List.replicate V 0) (by simp) hr
  unfold countPass
  rw [this]; simp

theorem build_row_ptr_shape_aux (s : Bool) (V : Nat) (es : List (Nat × Nat)) :
    (CSRMatrix.build s V es).num_vertices = V ∧
    (CSRMatrix.build s V es).row_ptr.length = V + 1 ∧
    (CSRMatrix.build s V es).row_ptr.getD 0 0 = 0 ∧
    (∀ i j, i ≤ j → j ≤ V →
      (CSRMatrix.build s V es).row_ptr.getD i 0 ≤ (CSRMatrix.build s V es).row_ptr.getD j 0) ∧
    (CSRMatrix.build s V es).row_ptr.getD V 0 = (CSRMatrix.build s V es).col_ind.length ∧
    (CSRMatrix.build s V es).row_ptr.getD V 0 = (CSRMatrix.build s V es).nnz := by
  refine ⟨rfl, ?_, ?_, ?_, (length_build_col_ind s V es).symm, rfl⟩
  · simp only [CSRMatrix.build]; exact length_buildRowPtr V _
  · rw [build_row_ptr s V es 0 (Nat.zero_le V)]; simp
  · intro i j hij hj
    rw [build_row_ptr s V es i (by omega), build_row_ptr s V es j hj]
    exact starts_mono (fun i => ((countPass s V es).take i).sum)
      (fun i => (countPass s V es).getD i 0) (fun v => sum_take_succ _ v) i j hij

/-- C2: for data lines with 1-based indices in `[1, V]` the constructor yields a
`row_ptr` of length `V + 1` that starts at 0, is non-decreasing and ends at a value
equal both to the length of `col_ind` and to the stored `nnz`; that value is the number
of neighbours contributed by the file, summed over the vertices. -/
theorem build_row_ptr_shape (s : Bool) (V : Nat) (es : List (Nat × Nat))
    (hr : InRange V es) :
    (CSRMatrix.build s V es).num_vertices = V ∧
    (CSRMatrix.build s V es).row_ptr.length = V + 1 ∧
    (CSRMatrix.build s V es).row_ptr.getD 0 0 = 0 ∧
    (∀ i j, i ≤ j → j ≤ V →
      (CSRMatrix.build s V es).row_ptr.getD i 0 ≤ (CSRMatrix.build s V es).row_ptr.getD j 0) ∧
    (CSRMatrix.build s V es).row_ptr.getD V 0 = (CSRMatrix.build s V es).col_ind.length ∧
    (CSRMatrix.build s V es).row_ptr.getD V 0 = (CSRMatrix.build s V es).nnz ∧
    (CSRMatrix.build s V es).row_ptr.getD V 0 =
      es.length + (if s = true then es.countP (fun e => decide (e.1 ≠ e.2)) else 0) := by
  obtain ⟨a, b, c, d, e, f⟩ := build_row_ptr_shape_aux s V es
  refine ⟨a, b, c, d, e, f, ?_⟩
  rw [build_row_ptr s V es V (le_refl V),
    List.take_of_length_le (by rw [length_countPass s V es hr]), sum_countPass s V es hr]

theorem build_row_ptr_shape_witness :
    InRange 3 [(1, 2), (2, 3), (3, 3)] ∧
    (CSRMatrix.build true 3 [(1, 2), (2, 3), (3, 3)]).row_ptr = [0, 1, 3, 5] ∧
    (CSRMatrix.build true 3 [(1, 2), (2, 3), (3, 3)]).row_ptr.getD 3 0 =
      (CSRMatrix.build true 3 [(1, 2), (2, 3), (3, 3)]).col_ind.length :=
  ⟨by decide, by decide,
    (build_row_ptr_shape true 3 [(1, 2), (2, 3), (3, 3)] (by decide)).2.2.2.2.1⟩

/-- C3: after the fill pass the slice `col_ind[row_ptr[v] .. row_ptr[v+1])` of every
vertex is exactly the list of neighbours contributed to it, in file order: `c` for each
line `(v, c)`, and `r` for each off-diagonal line `(r, v)` of a symmetric matrix.  The
slice has as many slots as contributions, so none is unwritten, dropped or repeated. -/
theorem build_slice_eq_contrib (s : Bool) (V : Nat) (es : List (Nat × Nat))
    (hr : InRange V es) (v : Nat) (hv : v < V) :
    (CSRMatrix.build s V es).neighbors v = contrib s es v ∧
    (CSRMatrix.build s V es).row_ptr.getD (v + 1) 0 -
      (CSRMatrix.build s V es).row_ptr.getD v 0 = (contrib s es v).length ∧
    (CSRMatrix.build s V es).row_ptr.getD (v + 1) 0 ≤
      (CSRMatrix.build s V es).col_ind.length := by
  refine ⟨build_neighbors s V es hr v hv, ?_, ?_⟩
  · rw [build_row_ptr_succ s V es hr v hv]; omega
  · rw [length_build_col_ind]
    exact (build_row_ptr_shape_aux s V es).2.2.2.1 (v + 1) V (by omega) (le_refl V)

theorem build_slice_eq_contrib_witness :
    InRange 3 [(3, 1), (1, 2), (1, 1), (2, 1)] ∧ 0 < 3 ∧
    (CSRMatrix.build true 3 [(3, 1), (1, 2), (1, 1), (2, 1)]).neighbors 0 = [2, 1, 0, 1] ∧
    contrib true [(3, 1), (1, 2), (1, 1), (2, 1)] 0 = [2, 1, 0, 1] :=
  ⟨by decide, by decide,
    (build_slice_eq_contrib true 3 [(3, 1), (1, 2), (1, 1), (2, 1)] (by decide) 0
      (by decide)).1.trans (by decide),
    by decide⟩

/-- C5: the degree `row_ptr[v+1] - row_ptr[v]` of a vertex is the number of lines whose
row names `v`, plus, for a symmetric matrix, the number of off-diagonal lines whose
column names `v`; a diagonal line `(v, v)` adds exactly one to the degree of `v`,
symmetric or not. -/
theorem build_degree_count (s : Bool) (V : Nat) (es : List (Nat × Nat))
    (hr : InRange V es) (v : Nat) (hv : v < V) :
    (CSRMatrix.build s V es).row_ptr.getD (v + 1) 0 -
        (CSRMatrix.build s V es).row_ptr.getD v 0 =
      es.countP (fun e => decide (e.1 = v + 1)) +
        (if s = true then es.countP (fun e => decide (e.2 = v + 1 ∧ e.1 ≠ e.2)) else 0) ∧
    (CSRMatrix.build s V ((v + 1, v + 1) :: es)).row_ptr.getD (v + 1) 0 -
        (CSRMatrix.build s V ((v + 1, v + 1) :: es)).row_ptr.getD v 0 =
      ((CSRMatrix.build s V es).row_ptr.getD (v + 1) 0 -
        (CSRMatrix.build s V es).row_ptr.getD v 0) + 1 := by
  have hr' : InRange V ((v + 1, v + 1) :: es) := by
    intro e he
    rcases List.mem_cons.1 he with h | h
    · subst h; simp; omega
    · exact hr e h
  have h1 := build_row_ptr_succ s V es hr v hv
  have h2 := build_row_ptr_succ s V _ hr' v hv
  have h3 := length_contrib s es v
  have h4 : (contrib s ((v + 1, v + 1) :: es) v).length = (contrib s es v).length + 1 := by
    rw [contrib_cons]
    simp [entryContrib]
  refine ⟨by omega, by omega⟩

theorem build_degree_count_witness :
    InRange 3 [(1, 2), (2, 2), (3, 2)] ∧ 1 < 3 ∧
    (CSRMatrix.build true 3 [(1, 2), (2, 2), (3, 2)]).row_ptr.getD 2 0 -
      (CSRMatrix.build true 3 [(1, 2), (2, 2), (3, 2)]).row_ptr.getD 1 0 = 1 + 2 :=
  ⟨by decide, by decide,
    (build_degree_count true 3 [(1, 2), (2, 2), (3, 2)] (by decide) 1 (by decide)).1.trans
      (by decide)⟩

theorem count_ite_singleton (c : Prop) [Decidable c] (x y : Nat) :
    List.count x (if c then [y] else []) = if c ∧ y = x then 1 else 0 := by
  by_cases h : c
  · by_cases h2 : y = x
    · subst h2; simp [h]
    · simp [h, h2, List.count_singleton]
  · simp [h]

theorem count_entryContrib_symm (u v : Nat) (e : Nat × Nat) (h1 : 1 ≤ e.1) (h2 : 1 ≤ e.2) :
    List.count v (entryContrib true u e) = List.count u (entryContrib true v e) := by
  simp only [entryContrib, true_and, List.count_append, count_ite_singleton]
  split_ifs <;> omega

theorem count_contrib_symm (V : Nat) (es : List (Nat × Nat)) (hr : InRange V es) (u v : Nat) :
    List.count v (contrib true es u) = List.count u (contrib true es v) := by
  induction es with
  | nil => simp [contrib]
  | cons e t ih =>
    have he := hr e (List.mem_cons_self _ _)
    have ht : InRange V t := fun x hx => hr x (List.mem_cons_of_mem _ hx)
    rw [contrib_cons, contrib_cons, List.count_append, List.count_append, ih ht,
      count_entryContrib_symm u v e he.1 he.2.2.1]

/-- C4: the graph built from an input declared symmetric is undirected: `v` occurs in the
slice of `u` as often as `u` occurs in the slice of `v`, hence membership is mutual, and
`row_ptr[V]` is twice the number of off-diagonal lines plus the number of diagonal
lines. -/
theorem build_symmetric_undirected (V : Nat) (es : List (Nat × Nat)) (hr : InRange V es) :
    (∀ u v, u < V → v < V →
      List.count v ((CSRMatrix.build true V es).neighbors u) =
        List.count u ((CSRMatrix.build true V es).neighbors v)) ∧
    (CSRMatrix.build true V es).Undirected ∧
    (CSRMatrix.build true V es).row_ptr.getD V 0 =
      2 * es.countP (fun e => decide (e.1 ≠ e.2)) + es.countP (fun e => decide (e.1 = e.2)) := by
  have hcount : ∀ u v, u < V → v < V →
      List.count v ((CSRMatrix.build true V es).neighbors u) =
        List.count u ((CSRMatrix.build true V es).neighbors v) := by
    intro u v hu hv
    rw [build_neighbors true V es hr u hu, build_neighbors true V es hr v hv]
    exact count_contrib_symm V es hr u v
  refine ⟨hcount, ?_, ?_⟩
  · intro u hu v hv
    rw [← List.count_pos_iff, ← List.count_pos_iff, hcount u v hu hv]
  · rw [build_row_ptr true V es V (le_refl V),
      List.take_of_length_le (by rw [length_countPass true V es hr]), sum_countPass true V es hr]
    have hlen : es.length =
        es.countP (fun e => decide (e.1 = e.2)) + es.countP (fun e => decide (e.1 ≠ e.2)) := by
      rw [List.length_eq_countP_add_countP (fun e => decide (e.1 = e.2)) es]
      congr 2
      funext e
      simp
    simp only [if_true]
    omega

theorem build_symmetric_undirected_witness :
    InRange 3 [(1, 2), (2, 2), (3, 2), (2, 1)] ∧
    (CSRMatrix.build true 3 [(1, 2), (2, 2), (3, 2), (2, 1)]).Undirected ∧
    (CSRMatrix.build true 3 [(1, 2), (2, 2), (3, 2), (2, 1)]).row_ptr.getD 3 0 = 2 * 3 + 1 :=
  ⟨by decide,
    (build_symmetric_undirected 3 [(1, 2), (2, 2), (3, 2), (2, 1)] (by decide)).2.1,
    by decide⟩

/-! ## The relaxation kernel -/

theorem foldr_min_init (xs : List Int) (a b : Int) :
    xs.foldr min (min a b) = min (xs.foldr min a) b := by
  induction xs with
  | nil => rfl
  | cons x t ih =>
    simp only [List.foldr_cons, ih]
    omega

theorem foldl_min_eq_foldr {κ : Type} (h : κ → Int) (ks : List κ) (a : Int) :
    ks.foldl (fun m k => min m (h k)) a = (ks.map h).foldr min a := by
  induction ks generalizing a with
  | nil => rfl
  | cons k t ih =>
    simp only [List.foldl_cons, List.map_cons, List.foldr_cons, ih, foldr_min_init]
    omega

theorem foldr_min_le_init (xs : List Int) (a : Int) : xs.foldr min a ≤ a := by
  induction xs with
  | nil => exact le_refl _
  | cons x t ih => simp only [List.foldr_cons]; omega

theorem foldr_min_le_mem (xs : List Int) (a x : Int) (hx : x ∈ xs) : xs.foldr min a ≤ x := by
  induction xs with
  | nil => simp at hx
  | cons y t ih =>
    simp only [List.foldr_cons]
    rcases List.mem_cons.1 hx with h | h
    · subst h; omega
    · have := ih h; omega

theorem foldr_min_mem (xs : List Int) (a : Int) : xs.foldr min a = a ∨ xs.foldr min a ∈ xs := by
  induction xs with
  | nil => left; rfl
  | cons y t ih =>
    simp only [List.foldr_cons, List.mem_cons]
    rcases ih with h | h
    · rcases le_total y (t.foldr min a) with c | c
      · right; left; omega
      · left; omega
    · rcases le_total y (t.foldr min a) with c | c
      · right; left; omega
      · right; right
        have : min y (t.foldr min a) = t.foldr min a := by omega
        rw [this]; exact h

theorem map_getD_range' (l : List Nat) (a n : Nat) (h : a + n ≤ l.length) :
    (List.range' a n).map (fun k => l.getD k 0) = (l.drop a).take n := by
  induction n generalizing a with
  | zero => simp
  | succ k ih =>
    have ha : a < l.length := by omega
    rw [List.range'_succ, List.map_cons, ih (a + 1) (by omega), List.drop_eq_getElem_cons ha,
      List.take_succ_cons, List.getD_eq_getElem _ _ ha]

theorem wf_row_ptr_le (g : CSRMatrix) (hwf : g.WellFormed) (i j : Nat) (hij : i ≤ j)
    (hj : j ≤ g.num_vertices) : g.row_ptr.getD i 0 ≤ g.row_ptr.getD j 0 := by
  obtain ⟨_, _, hmono, _, _⟩ := hwf
  induction j with
  | zero =>
    have : i = 0 := by omega
    subst this; exact le_refl _
  | succ k ih =>
    by_cases h : i = k + 1
    · subst h; exact le_refl _
    · have := ih (by omega) (by omega)
      have := hmono k (by omega)
      omega

theorem wf_neighbors_eq (g : CSRMatrix) (hwf : g.WellFormed) (v : Nat)
    (hv : v < g.num_vertices) :
    (List.range' (g.row_ptr.getD v 0)
        (g.row_ptr.getD (v + 1) 0 - g.row_ptr.getD v 0)).map (fun k => g.col_ind.getD k 0) =
      g.neighbors v := by
  have h1 := wf_row_ptr_le g hwf v (v + 1) (by omega) (by omega)
  have h2 := wf_row_ptr_le g hwf (v + 1) g.num_vertices (by omega) (le_refl _)
  have h3 := hwf.2.2.2.1
  exact map_getD_range' g.col_ind _ _ (by omega)

theorem wf_neighbor_lt (g : CSRMatrix) (hwf : g.WellFormed) (v u : Nat)
    (hu : u ∈ g.neighbors v) : u < g.num_vertices :=
  hwf.2.2.2.2 u (List.mem_of_mem_drop (List.mem_of_mem_take hu))

theorem wf_neighbors_nil (g : CSRMatrix) (hwf : g.WellFormed) (v : Nat)
    (hv : g.num_vertices ≤ v) : g.neighbors v = [] := by
  have hlen := hwf.1
  have : g.row_ptr.getD (v + 1) 0 = 0 := by
    rw [List.getD_eq_getElem?_getD, List.getElem?_eq_none (by omega)]; rfl
  unfold CSRMatrix.neighbors
  rw [this]; simp

theorem minLabel_eq_spec (g : CSRMatrix) (hwf : g.WellFormed) (label : List Int) (v : Nat)
    (hv : v < g.num_vertices) : minLabel g label v = specNewLabel g label v := by
  unfold minLabel specNewLabel
  rw [foldl_min_eq_foldr (fun k => label.getD (g.col_ind.getD k 0) 0), ← wf_neighbors_eq g hwf v hv,
    List.map_map]
  rfl

theorem specNewLabel_le_self (g : CSRMatrix) (label : List Int) (v : Nat) :
    specNewLabel g label v ≤ label.getD v 0 :=
  foldr_min_le_init _ _

theorem specNewLabel_le_neighbor (g : CSRMatrix) (label : List Int) (v u : Nat)
    (hu : u ∈ g.neighbors v) : specNewLabel g label v ≤ label.getD u 0 :=
  foldr_min_le_mem _ _ _ (List.mem_map.2 ⟨u, hu, rfl⟩)

theorem specNewLabel_cases (g : CSRMatrix) (label : List Int) (v : Nat) :
    specNewLabel g label v = label.getD v 0 ∨
      ∃ u ∈ g.neighbors v, specNewLabel g label v = label.getD u 0 := by
  rcases foldr_min_mem ((g.neighbors v).map (fun u => label.getD u 0)) (label.getD v 0) with h | h
  · left; exact h
  · right
    obtain ⟨u, hu, e⟩ := List.mem_map.1 h
    exact ⟨u, hu, e.symm⟩

theorem minLabel_le_self (g : CSRMatrix) (label : List Int) (v : Nat) :
    minLabel g label v ≤ label.getD v 0 := by
  unfold minLabel
  rw [foldl_min_eq_foldr (fun k => label.getD (g.col_ind.getD k 0) 0)]
  exact foldr_min_le_init _ _

theorem relaxVertex_def (g : CSRMatrix) (label : List Int) (v : Nat) :
    relaxVertex g label v =
      if minLabel g label v < label.getD v 0 then (label.set v (minLabel g label v), true)
      else (label, false) := rfl

theorem length_relaxVertex (g : CSRMatrix) (label : List Int) (v : Nat) :
    (relaxVertex g label v).1.length = label.length := by
  rw [relaxVertex_def]
  split <;> simp

theorem relaxVertex_changed (g : CSRMatrix) (label : List Int) (v : Nat) :
    (relaxVertex g label v).2 = true ↔ minLabel g label v < label.getD v 0 := by
  rw [relaxVertex_def]
  by_cases c : minLabel g label v < label.getD v 0
  · rw [if_pos c]; exact ⟨fun _ => c, fun _ => rfl⟩
  · rw [if_neg c]; exact ⟨fun h => (by cases h), fun h => absurd h c⟩

theorem relaxVertex_unchanged (g : CSRMatrix) (label : List Int) (v : Nat)
    (h : (relaxVertex g label v).2 = false) : (relaxVertex g label v).1 = label := by
  rw [relaxVertex_def] at h ⊢
  by_cases c : minLabel g label v < label.getD v 0
  · rw [if_pos c] at h; cases h
  · rw [if_neg c]

theorem getD_relaxVertex_ne (g : CSRMatrix) (label : List Int) (v w : Nat) (h : w ≠ v) :
    (relaxVertex g label v).1.getD w 0 = label.getD w 0 := by
  rw [relaxVertex_def]
  split
  · simp only [List.getD_eq_getElem?_getD]
    rw [List.getElem?_set_ne (Ne.symm h)]
  · rfl

theorem getD_relaxVertex_self (g : CSRMatrix) (label : List Int) (v : Nat)
    (hv : v < label.length) : (relaxVertex g label v).1.getD v 0 = minLabel g label v := by
  have hle := minLabel_le_self g label v
  rw [relaxVertex_def]
  split
  · simp only [List.getD_eq_getElem?_getD, List.getElem?_set, if_true, hv, Option.getD_some]
  · rename_i c
    simp only at c ⊢
    omega

/-- C6: on a well-formed graph the relaxation of vertex `v` computes
`min(label[v], min over the neighbours u of label[u])`, stores it at `v` exactly when it
is below `label[v]`, reports a change exactly then, and touches no other entry. -/
theorem relaxVertex_contract (g : CSRMatrix) (hwf : g.WellFormed) (label : List Int)
    (v : Nat) (hv : v < g.num_vertices) (hlen : label.length = g.num_vertices) :
    minLabel g label v = specNewLabel g label v ∧
    relaxVertex g label v =
      (if specNewLabel g label v < label.getD v 0
        then (label.set v (specNewLabel g label v), true) else (label, false)) ∧
    ((relaxVertex g label v).2 = true ↔ specNewLabel g label v < label.getD v 0) ∧
    (relaxVertex g label v).1.getD v 0 = specNewLabel g label v ∧
    (∀ w, w ≠ v → (relaxVertex g label v).1.getD w 0 = label.getD w 0) ∧
    (relaxVertex g label v).1.length = label.length ∧
    minLabel g label v ≤ label.getD v 0 ∧
    (∀ u ∈ g.neighbors v, minLabel g label v ≤ label.getD u 0) ∧
    (minLabel g label v = label.getD v 0 ∨
      ∃ u ∈ g.neighbors v, minLabel g label v = label.getD u 0) := by
  have hspec := minLabel_eq_spec g hwf label v hv
  refine ⟨hspec, ?_, ?_, ?_, ?_, length_relaxVertex g label v, minLabel_le_self g label v,
    ?_, ?_⟩
  · rw [← hspec]; rfl
  · rw [← hspec]; exact relaxVertex_changed g label v
  · rw [← hspec]; exact getD_relaxVertex_self g label v (by omega)
  · intro w hw; exact getD_relaxVertex_ne g label v w hw
  · intro u hu; rw [hspec]; exact specNewLabel_le_neighbor g label v u hu
  · rw [hspec]; exact specNewLabel_cases g label v

theorem relaxVertex_contract_witness :
    (CSRMatrix.build true 3 [(1, 2), (2, 3)]).WellFormed ∧
    relaxVertex (CSRMatrix.build true 3 [(1, 2), (2, 3)]) [0, 5, 2] 1 = ([0, 0, 2], true) ∧
    specNewLabel (CSRMatrix.build true 3 [(1, 2), (2, 3)]) [0, 5, 2] 1 = 0 :=
  ⟨by decide,
    (relaxVertex_contract (CSRMatrix.build true 3 [(1, 2), (2, 3)]) (by decide) [0, 5, 2] 1
      (by decide) (by decide)).2.1.trans (by decide),
    by decide⟩

/-! ## Invariants of the label array -/

theorem bounded_getD_nonneg (label : List Int) (hb : Bounded label) (u : Nat) :
    0 ≤ label.getD u 0 := by
  by_cases h : u < label.length
  · exact (hb u h).1
  · rw [List.getD_eq_getElem?_getD, List.getElem?_eq_none (by omega)]; rfl

theorem minLabel_nonneg (g : CSRMatrix) (label : List Int) (hb : Bounded label) (v : Nat) :
    0 ≤ minLabel g label v := by
  unfold minLabel
  rw [foldl_min_eq_foldr (fun k => label.getD (g.col_ind.getD k 0) 0)]
  rcases foldr_min_mem ((List.range' (g.row_ptr.getD v 0)
      (g.row_ptr.getD (v + 1) 0 - g.row_ptr.getD v 0)).map
      (fun k => label.getD (g.col_ind.getD k 0) 0)) (label.getD v 0) with h | h
  · rw [h]; exact bounded_getD_nonneg label hb v
  · obtain ⟨k, _, e⟩ := List.mem_map.1 h
    rw [← e]; exact bounded_getD_nonneg label hb _

theorem bounded_relaxVertex (g : CSRMatrix) (label : List Int) (hb : Bounded label) (v : Nat) :
    Bounded (relaxVertex g label v).1 := by
  intro w hw
  rw [length_relaxVertex] at hw
  by_cases h : w = v
  · subst h
    rw [getD_relaxVertex_self g label w hw]
    have := minLabel_le_self g label w
    have := minLabel_nonneg g label hb w
    have := (hb w hw).2
    omega
  · rw [getD_relaxVertex_ne g label v w h]
    exact hb w hw

theorem labelInv_relaxVertex (g : CSRMatrix) (hwf : g.WellFormed) (label : List Int)
    (hinv : LabelInv g label) (v : Nat) (hv : v < g.num_vertices) :
    LabelInv g (relaxVertex g label v).1 := by
  obtain ⟨hlen, hreach⟩ := hinv
  refine ⟨by rw [length_relaxVertex]; exact hlen, ?_⟩
  intro x hx
  by_cases h : x = v
  · subst h
    rw [getD_relaxVertex_self g label x (by omega), minLabel_eq_spec g hwf label x hx]
    obtain ⟨w, hw1, hw2, hw3⟩ := hreach x hx
    rcases specNewLabel_cases g label x with e | ⟨u, hu, e⟩
    · exact ⟨w, hw1, hw2, by rw [e, hw3]⟩
    · have hult := wf_neighbor_lt g hwf x u hu
      obtain ⟨w', hw1', hw2', hw3'⟩ := hreach u hult
      have hle := specNewLabel_le_self g label x
      refine ⟨w', ?_, Relation.ReflTransGen.head hu hw2', by rw [e, hw3']⟩
      rw [e, hw3', hw3] at hle
      omega
  · rw [getD_relaxVertex_ne g label v x h]
    exact hreach x hx

theorem sum_set_int (l : List Int) (i : Nat) (x : Int) (hi : i < l.length) :
    (l.set i x).sum = l.sum - l.getD i 0 + x := by
  induction l generalizing i with
  | nil => simp at hi
  | cons a t ih =>
    cases i with
    | zero => simp; omega
    | succ k =>
      have hk : k < t.length := by simpa using hi
      have := ih k hk
      simp only [List.set_cons_succ, List.sum_cons, List.getD_cons_succ] at this ⊢
      omega

theorem labelSum_relaxVertex_le (g : CSRMatrix) (label : List Int) (v : Nat) :
    labelSum (relaxVertex g label v).1 ≤ labelSum label := by
  rw [relaxVertex_def]
  by_cases c : minLabel g label v < label.getD v 0
  · rw [if_pos c]
    by_cases hv : v < label.length
    · simp only [labelSum]
      rw [sum_set_int label v _ hv]; omega
    · simp only [labelSum]
      rw [List.set_eq_of_length_le (by omega)]
  · rw [if_neg c]

theorem labelSum_relaxVertex_lt (g : CSRMatrix) (label : List Int) (v : Nat)
    (hv : v < label.length) (hc : (relaxVertex g label v).2 = true) :
    labelSum (relaxVertex g label v).1 < labelSum label := by
  have c := (relaxVertex_changed g label v).1 hc
  rw [relaxVertex_def, if_pos c]
  simp only [labelSum]
  rw [sum_set_int label v _ hv]; omega

theorem fixedPoint_iff (g : CSRMatrix) (hwf : g.WellFormed) (label : List Int) :
    FixedPoint g label ↔ ∀ v, v < g.num_vertices → (relaxVertex g label v).2 = false := by
  constructor
  · intro hfp v hv
    by_contra hne
    have hc : (relaxVertex g label v).2 = true := by simpa using hne
    have hlt := (relaxVertex_changed g label v).1 hc
    rw [minLabel_eq_spec g hwf label v hv] at hlt
    rcases specNewLabel_cases g label v with e | ⟨u, hu, e⟩
    · omega
    · have := hfp v hv u hu
      omega
  · intro h v hv u hu
    have h1 := h v hv
    have h2 : ¬ (minLabel g label v < label.getD v 0) := by
      intro c
      have := (relaxVertex_changed g label v).2 c
      rw [h1] at this; cases this
    rw [minLabel_eq_spec g hwf label v hv] at h2
    have := specNewLabel_le_neighbor g label v u hu
    omega

/-! ## Sequences of relaxations -/

theorem relaxSeq_nil (g : CSRMatrix) (st : List Int × Bool) : relaxSeq g [] st = st := rfl

theorem relaxSeq_cons (g : CSRMatrix) (v : Nat) (vs : List Nat) (st : List Int × Bool) :
    relaxSeq g (v :: vs) st =
      relaxSeq g vs ((relaxVertex g st.1 v).1, st.2 || (relaxVertex g st.1 v).2) := rfl

theorem relaxSeq_append (g : CSRMatrix) (vs ws : List Nat) (st : List Int × Bool) :
    relaxSeq g (vs ++ ws) st = relaxSeq g ws (relaxSeq g vs st) := by
  simp [relaxSeq, List.foldl_append]

theorem relaxSeq_flag (g : CSRMatrix) (vs : List Nat) (label : List Int) (c : Bool) :
    relaxSeq g vs (label, c) =
      ((relaxSeq g vs (label, false)).1, c || (relaxSeq g vs (label, false)).2) := by
  induction vs generalizing label c with
  | nil => simp [relaxSeq_nil]
  | cons v t ih =>
    rw [relaxSeq_cons, relaxSeq_cons, ih, ih (relaxVertex g label v).1 (false || _)]
    simp [Bool.or_assoc]

theorem length_relaxSeq (g : CSRMatrix) (vs : List Nat) (st : List Int × Bool) :
    (relaxSeq g vs st).1.length = st.1.length := by
  induction vs generalizing st with
  | nil => rfl
  | cons v t ih => rw [relaxSeq_cons, ih]; exact length_relaxVertex g st.1 v

theorem bounded_relaxSeq (g : CSRMatrix) (vs : List Nat) (st : List Int × Bool)
    (hb : Bounded st.1) : Bounded (relaxSeq g vs st).1 := by
  induction vs generalizing st with
  | nil => exact hb
  | cons v t ih => rw [relaxSeq_cons]; exact ih _ (bounded_relaxVertex g st.1 hb v)

theorem labelInv_relaxSeq (g : CSRMatrix) (hwf : g.WellFormed) (vs : List Nat)
    (hvs : ∀ v ∈ vs, v < g.num_vertices) (st : List Int × Bool) (hinv : LabelInv g st.1) :
    LabelInv g (relaxSeq g vs st).1 := by
  induction vs generalizing st with
  | nil => exact hinv
  | cons v t ih =>
    rw [relaxSeq_cons]
    exact ih (fun x hx => hvs x (List.mem_cons_of_mem _ hx)) _
      (labelInv_relaxVertex g hwf st.1 hinv v (hvs v (List.mem_cons_self _ _)))

theorem labelSum_relaxSeq_le (g : CSRMatrix) (vs : List Nat) (st : List Int × Bool) :
    labelSum (relaxSeq g vs st).1 ≤ labelSum st.1 := by
  induction vs generalizing st with
  | nil => exact le_refl _
  | cons v t ih =>
    rw [relaxSeq_cons]
    exact le_trans (ih _) (labelSum_relaxVertex_le g st.1 v)

theorem labelSum_relaxSeq_lt (g : CSRMatrix) (vs : List Nat) (label : List Int)
    (hvs : ∀ v ∈ vs, v < label.length) (hc : (relaxSeq g vs (label, false)).2 = true) :
    labelSum (relaxSeq g vs (label, false)).1 < labelSum label := by
  induction vs generalizing label with
  | nil => simp [relaxSeq_nil] at hc
  | cons v t ih =>
    have hv := hvs v (List.mem_cons_self _ _)
    rw [relaxSeq_cons, relaxSeq_flag] at hc ⊢
    simp only [Bool.false_or, Bool.or_eq_true] at hc ⊢
    rcases hc with h | h
    · exact lt_of_le_of_lt (labelSum_relaxSeq_le g t _) (labelSum_relaxVertex_lt g label v hv h)
    · have ht : ∀ x ∈ t, x < (relaxVertex g label v).1.length := by
        intro x hx; rw [length_relaxVertex]; exact hvs x (List.mem_cons_of_mem _ hx)
      exact lt_of_lt_of_le (ih _ ht h) (labelSum_relaxVertex_le g label v)

theorem relaxSeq_quiet (g : CSRMatrix) (vs : List Nat) (label : List Int)
    (hc : (relaxSeq g vs (label, false)).2 = false) :
    (relaxSeq g vs (label, false)).1 = label ∧ ∀ v ∈ vs, (relaxVertex g label v).2 = false := by
  induction vs generalizing label with
  | nil => exact ⟨rfl, fun v hv => by simp at hv⟩
  | cons v t ih =>
    rw [relaxSeq_cons, relaxSeq_flag] at hc ⊢
    simp only [Bool.false_or, Bool.or_eq_false_iff] at hc ⊢
    obtain ⟨h1, h2⟩ := hc
    have hsame := relaxVertex_unchanged g label v h1
    rw [hsame] at h2 ⊢
    obtain ⟨i1, i2⟩ := ih label h2
    refine ⟨i1, fun x hx => ?_⟩
    rcases List.mem_cons.1 hx with e | e
    · rw [e]; exact h1
    · exact i2 x e

theorem relaxSeq_fixed (g : CSRMatrix) (vs : List Nat) (label : List Int) (c : Bool)
    (h : ∀ v ∈ vs, (relaxVertex g label v).2 = false) :
    relaxSeq g vs (label, c) = (label, c) := by
  induction vs with
  | nil => rfl
  | cons v t ih =>
    have h1 := h v (List.mem_cons_self _ _)
    rw [relaxSeq_cons]
    simp only [relaxVertex_unchanged g label v h1, h1, Bool.or_false]
    exact ih (fun x hx => h x (List.mem_cons_of_mem _ hx))

/-! ## Reachability and the meaning of a fixed point -/

theorem reach_lt (g : CSRMatrix) (hwf : g.WellFormed) (v w : Nat) (hv : v < g.num_vertices)
    (h : g.Reach v w) : w < g.num_vertices := by
  induction h with
  | refl => exact hv
  | tail _ hab _ => exact wf_neighbor_lt g hwf _ _ hab

theorem fixedPoint_le_reach (g : CSRMatrix) (hwf : g.WellFormed) (label : List Int)
    (hfp : FixedPoint g label) (v w : Nat) (hv : v < g.num_vertices) (h : g.Reach v w) :
    label.getD v 0 ≤ label.getD w 0 := by
  induction h with
  | refl => exact le_refl _
  | tail hva hab ih =>
    exact le_trans ih (hfp _ (reach_lt g hwf v _ hv hva) _ hab)

theorem fixedPoint_minReach (g : CSRMatrix) (hwf : g.WellFormed) (label : List Int)
    (hinv : LabelInv g label) (hfp : FixedPoint g label) (v : Nat) (hv : v < g.num_vertices) :
    ∃ m, g.IsMinReach v m ∧ label.getD v 0 = (m : Int) := by
  obtain ⟨w, _, hw2, hw3⟩ := hinv.2 v hv
  refine ⟨w, ⟨hw2, fun x hx => ?_⟩, hw3⟩
  have hxlt := reach_lt g hwf v x hv hx
  obtain ⟨wx, hwx1, _, hwx3⟩ := hinv.2 x hxlt
  have := fixedPoint_le_reach g hwf label hfp v x hv hx
  rw [hw3, hwx3] at this
  omega

theorem connected_reach (g : CSRMatrix) (hwf : g.WellFormed) (hund : g.Undirected)
    (v w : Nat) (hv : v < g.num_vertices) (h : g.Connected v w) : g.Reach v w := by
  induction h with
  | refl => exact Relation.ReflTransGen.refl
  | tail hva hab ih =>
    rename_i a b
    have ha := reach_lt g hwf v a hv ih
    rcases hab with h1 | h1
    · exact Relation.ReflTransGen.tail ih h1
    · have hb : b < g.num_vertices := by
        by_contra hge
        rw [wf_neighbors_nil g hwf b (by omega)] at h1
        simp at h1
      exact Relation.ReflTransGen.tail ih ((hund b hb a ha).1 h1)

theorem reach_connected (g : CSRMatrix) (v w : Nat) (h : g.Reach v w) : g.Connected v w := by
  induction h with
  | refl => exact Relation.ReflTransGen.refl
  | tail _ hab ih => exact Relation.ReflTransGen.tail ih (Or.inl hab)

theorem minReach_componentMin (g : CSRMatrix) (hwf : g.WellFormed) (hund : g.Undirected)
    (v m : Nat) (hv : v < g.num_vertices) (h : g.IsMinReach v m) : g.IsComponentMin v m :=
  ⟨reach_connected g v m h.1, fun w hw => h.2 w (connected_reach g hwf hund v w hv hw)⟩

theorem minReach_unique (g : CSRMatrix) (v m m' : Nat) (h : g.IsMinReach v m)
    (h' : g.IsMinReach v m') : m = m' :=
  le_antisymm (h.2 m' h'.1) (h'.2 m h.1)

/-! ## The epoch loop over an arbitrary sweeping epoch function -/

theorem labelInv_bounded (g : CSRMatrix) (label : List Int) (hinv : LabelInv g label) :
    Bounded label := by
  intro v hv
  obtain ⟨w, hw1, _, hw3⟩ := hinv.2 v (by rw [← hinv.1]; exact hv)
  rw [hw3]
  omega

theorem bounded_labelSum_nonneg (label : List Int) (hb : Bounded label) : 0 ≤ labelSum label := by
  apply List.sum_nonneg
  intro x hx
  obtain ⟨i, hi, e⟩ := List.getElem_of_mem hx
  have := (hb i hi).1
  rw [List.getD_eq_getElem _ _ hi, e] at this
  exact this

theorem labelInv_init (g : CSRMatrix) : LabelInv g (initLabels g.num_vertices) := by
  refine ⟨by simp [initLabels], fun v hv => ⟨v, le_refl v, Relation.ReflTransGen.refl, ?_⟩⟩
  simp [initLabels, List.getElem?_range hv]

theorem labelSum_init_le (V : Nat) : labelSum (initLabels V) ≤ ((V * V : Nat) : Int) := by
  induction V with
  | zero => simp [labelSum, initLabels]
  | succ n ih =>
    simp only [labelSum, initLabels, List.range_succ, List.map_append, List.sum_append,
      List.map_cons, List.map_nil, List.sum_cons, List.sum_nil] at ih ⊢
    push_cast at ih ⊢
    have : (0 : Int) ≤ (n : Int) := Int.ofNat_nonneg n
    have h2 : Int.ofNat n = (n : Int) := rfl
    rw [h2]
    nlinarith

theorem sweep_quiet_fixedPoint (g : CSRMatrix) (hwf : g.WellFormed) (vs : List Nat)
    (hcov : ∀ v, v < g.num_vertices → v ∈ vs) (label : List Int)
    (hc : (relaxSeq g vs (label, false)).2 = false) :
    (relaxSeq g vs (label, false)).1 = label ∧ FixedPoint g label := by
  obtain ⟨h1, h2⟩ := relaxSeq_quiet g vs label hc
  exact ⟨h1, (fixedPoint_iff g hwf label).2 (fun v hv => h2 v (hcov v hv))⟩

theorem iterateEpochs_converges (g : CSRMatrix) (hwf : g.WellFormed)
    (E : Nat → List Int → List Int × Bool) (hE : Sweeps g E) (m : Nat) :
    ∀ (label : List Int) (it : Nat), LabelInv g label → (labelSum label).toNat ≤ m →
      ∃ (final : List Int) (k : Nat), 1 ≤ k ∧ k ≤ m + 1 ∧ LabelInv g final ∧
        FixedPoint g final ∧
        ∀ fuel, m < fuel → iterateEpochs E fuel label it = Except.ok (final, it + k) := by
  induction m with
  | zero =>
    intro label it hinv hm
    obtain ⟨vs, hvs, hcov, hEq⟩ := hE it label
    have hlen : ∀ v ∈ vs, v < label.length := fun v hv => by rw [hinv.1]; exact hvs v hv
    by_cases hc : (relaxSeq g vs (label, false)).2 = true
    · have hlt := labelSum_relaxSeq_lt g vs label hlen hc
      have hnn := bounded_labelSum_nonneg _
        (labelInv_bounded g _ (labelInv_relaxSeq g hwf vs hvs (label, false) hinv))
      omega
    · have hc' : (relaxSeq g vs (label, false)).2 = false := by simpa using hc
      obtain ⟨h1, h2⟩ := sweep_quiet_fixedPoint g hwf vs hcov label hc'
      refine ⟨label, 1, le_refl 1, by omega, hinv, h2, fun fuel hf => ?_⟩
      obtain ⟨f, rfl⟩ : ∃ f, fuel = f + 1 := ⟨fuel - 1, by omega⟩
      simp only [iterateEpochs, hEq, hc', h1, Bool.false_eq_true, if_false]
  | succ n ih =>
    intro label it hinv hm
    obtain ⟨vs, hvs, hcov, hEq⟩ := hE it label
    have hlen : ∀ v ∈ vs, v < label.length := fun v hv => by rw [hinv.1]; exact hvs v hv
    by_cases hc : (relaxSeq g vs (label, false)).2 = true
    · have hlt := labelSum_relaxSeq_lt g vs label hlen hc
      have hinv' := labelInv_relaxSeq g hwf vs hvs (label, false) hinv
      have hnn := bounded_labelSum_nonneg _ (labelInv_bounded g _ hinv')
      obtain ⟨final, k, hk1, hk2, hf1, hf2, hrun⟩ :=
        ih (relaxSeq g vs (label, false)).1 (it + 1) hinv' (by omega)
      refine ⟨final, k + 1, by omega, by omega, hf1, hf2, fun fuel hf => ?_⟩
      obtain ⟨f, rfl⟩ : ∃ f, fuel = f + 1 := ⟨fuel - 1, by omega⟩
      simp only [iterateEpochs, hEq, hc, if_true]
      rw [hrun f (by omega)]
      congr 2; omega
    · have hc' : (relaxSeq g vs (label, false)).2 = false := by simpa using hc
      obtain ⟨h1, h2⟩ := sweep_quiet_fixedPoint g hwf vs hcov label hc'
      refine ⟨label, 1, le_refl 1, by omega, hinv, h2, fun fuel hf => ?_⟩
      obtain ⟨f, rfl⟩ : ∃ f, fuel = f + 1 := ⟨fuel - 1, by omega⟩
      simp only [iterateEpochs, hEq, hc', h1, Bool.false_eq_true, if_false]

/-! ## The thread-pool variant as a sweep -/

theorem any_set_or {α : Type} (f : α → Bool) (ws : List α) (i : Nat) (w w' : α) (ch : Bool)
    (h : ws[i]? = some w) (hf : f w' = (f w || ch)) :
    (ws.set i w').any f = (ws.any f || ch) := by
  induction ws generalizing i with
  | nil => simp at h
  | cons a t ih =>
    cases i with
    | zero =>
      simp only [List.getElem?_cons_zero, Option.some.injEq] at h
      subst h
      simp only [List.set_cons_zero, List.any_cons, hf]
      cases f a <;> cases ch <;> cases t.any f <;> rfl
    | succ k =>
      simp only [List.getElem?_cons_succ] at h
      simp only [List.set_cons_succ, List.any_cons, ih k h, Bool.or_assoc]

theorem set_same {α : Type} (ws : List α) (i : Nat) (w : α) (h : ws[i]? = some w) :
    ws.set i w = ws := by
  induction ws generalizing i with
  | nil => rfl
  | cons a t ih =>
    cases i with
    | zero =>
      simp only [List.getElem?_cons_zero, Option.some.injEq] at h
      subst h; rfl
    | succ k =>
      simp only [List.getElem?_cons_succ] at h
      simp only [List.set_cons_succ, ih k h]

theorem pthreads_worker_thread_eq_iterate (g : CSRMatrix) (tds : List Pthreads.ThreadData)
    (scheds : Nat → List Nat) (fuel : Nat) (label : List Int) (it : Nat) :
    Pthreads.worker_thread g tds scheds fuel label it =
      iterateEpochs (fun n l => Pthreads.runEpoch g tds (scheds n) l) fuel label it := by
  induction fuel generalizing label it with
  | zero => rfl
  | succ f ih =>
    simp only [Pthreads.worker_thread, iterateEpochs]
    rw [ih]

theorem Pthreads.foldl_stepThread (g : CSRMatrix) (tds : List Pthreads.ThreadData)
    (sched : List Nat) (label : List Int) (ws : List Pthreads.WorkerState) :
    (sched.foldl (Pthreads.stepThread g tds) (label, ws)).1 =
        (relaxSeq g (Pthreads.trace tds sched (ws.map (fun w => w.v))) (label, false)).1 ∧
    (sched.foldl (Pthreads.stepThread g tds) (label, ws)).2.any (fun w => w.local_changed) =
        (ws.any (fun w => w.local_changed) ||
          (relaxSeq g (Pthreads.trace tds sched (ws.map (fun w => w.v))) (label, false)).2) := by
  induction sched generalizing label ws with
  | nil => simp [Pthreads.trace, relaxSeq_nil]
  | cons i rest ih =>
    simp only [List.foldl_cons, Pthreads.trace, List.getElem?_map]
    cases htd : tds[i]? with
    | none =>
      have hs : Pthreads.stepThread g tds (label, ws) i = (label, ws) := by
        simp only [Pthreads.stepThread, htd]
      rw [hs]; exact ih label ws
    | some td =>
      cases hw : ws[i]? with
      | none =>
        have hs : Pthreads.stepThread g tds (label, ws) i = (label, ws) := by
          simp only [Pthreads.stepThread, htd, hw]
        rw [hs]; exact ih label ws
      | some w =>
        simp only [Option.map_some']
        by_cases hlt : w.v < td.end_
        · have hs : Pthreads.stepThread g tds (label, ws) i =
              ((relaxVertex g label w.v).1,
                ws.set i { v := w.v + 1,
                           local_changed := w.local_changed || (relaxVertex g label w.v).2 }) := by
            simp only [Pthreads.stepThread, htd, hw, Pthreads.workerStep, hlt, if_true]
          rw [hs, if_pos hlt]
          obtain ⟨i1, i2⟩ := ih (relaxVertex g label w.v).1
            (ws.set i { v := w.v + 1,
                        local_changed := w.local_changed || (relaxVertex g label w.v).2 })
          rw [List.map_set] at i1 i2
          rw [relaxSeq_cons, relaxSeq_flag]
          refine ⟨i1, ?_⟩
          rw [i2, any_set_or (fun w => w.local_changed) ws i w _ (relaxVertex g label w.v).2 hw rfl]
          simp [Bool.or_assoc]
        · have hs : Pthreads.stepThread g tds (label, ws) i = (label, ws) := by
            simp only [Pthreads.stepThread, htd, hw, Pthreads.workerStep, hlt, if_false]
            rw [set_same ws i w hw]
          rw [hs, if_neg hlt]; exact ih label ws

theorem Pthreads.trace_lt_end (tds : List Pthreads.ThreadData) (sched : List Nat)
    (cur : List Nat) (x : Nat) (hx : x ∈ Pthreads.trace tds sched cur) :
    ∃ td ∈ tds, x < td.end_ := by
  induction sched generalizing cur with
  | nil => simp [Pthreads.trace] at hx
  | cons i rest ih =>
    simp only [Pthreads.trace] at hx
    cases htd : tds[i]? with
    | none => simp only [htd] at hx; exact ih cur hx
    | some td =>
      cases hc : cur[i]? with
      | none => simp only [htd, hc] at hx; exact ih cur hx
      | some c =>
        simp only [htd, hc] at hx
        by_cases hlt : c < td.end_
        · rw [if_pos hlt] at hx
          rcases List.mem_cons.1 hx with e | e
          · exact ⟨td, List.getElem?_mem htd, by omega⟩
          · exact ih _ e
        · rw [if_neg hlt] at hx; exact ih cur hx

theorem Pthreads.mem_trace (tds : List Pthreads.ThreadData) (sched : List Nat)
    (cur : List Nat) (x i : Nat) (td : Pthreads.ThreadData) (c : Nat)
    (htd : tds[i]? = some td) (hc : cur[i]? = some c) (h1 : c ≤ x) (h2 : x < td.end_)
    (h3 : x < c + List.count i sched) : x ∈ Pthreads.trace tds sched cur := by
  induction sched generalizing cur c with
  | nil => simp at h3; omega
  | cons j rest ih =>
    simp only [Pthreads.trace]
    rw [List.count_cons] at h3
    by_cases hij : j = i
    · subst hij
      simp only [htd, hc, beq_self_eq_true, if_true] at h3 ⊢
      have hclt : c < td.end_ := by omega
      rw [if_pos hclt]
      by_cases hxc : x = c
      · subst hxc; exact List.mem_cons_self _ _
      · apply List.mem_cons_of_mem
        have hlen : j < cur.length := (List.getElem?_eq_some_iff.1 hc).1
        exact ih (cur.set j (c + 1)) (c + 1)
          (by rw [List.getElem?_set]; simp [hlen]) (by omega) (by omega)
    · have hne : (j == i) = false := by simpa using hij
      simp only [hne, Bool.false_eq_true, if_false, Nat.add_zero] at h3
      have hrec := fun cur' (h : cur'[i]? = some c) => ih cur' c h h1 h3
      cases htj : tds[j]? with
      | none => exact hrec cur hc
      | some tdj =>
        cases hcj : cur[j]? with
        | none => exact hrec cur hc
        | some cj =>
          simp only
          split
          · apply List.mem_cons_of_mem
            exact hrec _ (by rw [List.getElem?_set_ne hij]; exact hc)
          · exact hrec cur hc

theorem count_le_count_flatMap {α β : Type} [BEq β] (f : α → List β) (l : List α) (p : α)
    (hp : p ∈ l) (b : β) : List.count b (f p) ≤ List.count b (l.flatMap f) := by
  induction l with
  | nil => simp at hp
  | cons a t ih =>
    rw [List.flatMap_cons, List.count_append]
    rcases List.mem_cons.1 hp with e | e
    · subst e; omega
    · have := ih e; omega

theorem Pthreads.count_drainSchedule (tds : List Pthreads.ThreadData) (i : Nat)
    (td : Pthreads.ThreadData) (htd : tds[i]? = some td) :
    td.end_ - td.start ≤ List.count i (Pthreads.drainSchedule tds) := by
  have hmem : (i, td) ∈ tds.enum := List.mk_mem_enum_iff_getElem?.2 htd
  have := count_le_count_flatMap
    (fun p : Nat × Pthreads.ThreadData => List.replicate (p.2.end_ - p.2.start) p.1)
    tds.enum (i, td) hmem i
  simpa [Pthreads.drainSchedule, List.count_replicate] using this

theorem Pthreads.getElem?_makeThreadData (V P i : Nat) (hi : i < P) :
    (Pthreads.makeThreadData V P)[i]? =
      some { start := i * ((V + P - 1) / P),
             end_ := min ((i + 1) * ((V + P - 1) / P)) V,
             thread_id := i } := by
  simp [Pthreads.makeThreadData, List.getElem?_map, List.getElem?_range hi]

theorem Pthreads.makeThreadData_end_le (V P : Nat) (td : Pthreads.ThreadData)
    (h : td ∈ Pthreads.makeThreadData V P) : td.end_ ≤ V := by
  simp only [Pthreads.makeThreadData, List.mem_map, List.mem_range] at h
  obtain ⟨i, _, e⟩ := h
  rw [← e]
  exact Nat.min_le_right _ _

theorem chunk_cover (V P chunk v : Nat) (hchunk : 1 ≤ chunk) (hceil : V ≤ P * chunk)
    (hv : v < V) :
    v / chunk < P ∧ v / chunk * chunk ≤ v ∧ v < min ((v / chunk + 1) * chunk) V := by
  refine ⟨?_, Nat.div_mul_le_self v chunk, ?_⟩
  · apply Nat.div_lt_of_lt_mul
    calc v < V := hv
      _ ≤ P * chunk := hceil
      _ = chunk * P := Nat.mul_comm _ _
  · have h1 := Nat.div_add_mod v chunk
    have h2 := Nat.mod_lt v (show 0 < chunk by omega)
    have h3 : (v / chunk + 1) * chunk = chunk * (v / chunk) + chunk := by
      rw [Nat.succ_mul, Nat.mul_comm]
    rw [h3]
    omega

theorem Pthreads.makeThreadData_cover (V P : Nat) (hP : 1 ≤ P) (v : Nat) (hv : v < V) :
    ∃ (i : Nat) (td : Pthreads.ThreadData),
      (Pthreads.makeThreadData V P)[i]? = some td ∧ td.start ≤ v ∧ v < td.end_ := by
  have hchunk : 1 ≤ (V + P - 1) / P := by
    rw [Nat.one_le_div_iff (by omega)]; omega
  have hceil : V ≤ P * ((V + P - 1) / P) := by
    have h1 := Nat.div_add_mod (V + P - 1) P
    have h2 := Nat.mod_lt (V + P - 1) (show 0 < P by omega)
    omega
  obtain ⟨c1, c2, c3⟩ := chunk_cover V P _ v hchunk hceil hv
  exact ⟨_, _, Pthreads.getElem?_makeThreadData V P _ c1, c2, c3⟩

theorem pthreads_runEpoch_eq_relaxSeq (g : CSRMatrix) (tds : List Pthreads.ThreadData)
    (sched : List Nat) (label : List Int) :
    Pthreads.runEpoch g tds sched label =
      relaxSeq g (Pthreads.trace tds (sched ++ Pthreads.drainSchedule tds)
        (tds.map (fun td => td.start))) (label, false) := by
  obtain ⟨h1, h2⟩ := Pthreads.foldl_stepThread g tds (sched ++ Pthreads.drainSchedule tds) label
    (tds.map (fun td => ({ v := td.start, local_changed := false } : Pthreads.WorkerState)))
  have hmap : (tds.map (fun td =>
      ({ v := td.start, local_changed := false } : Pthreads.WorkerState))).map (fun w => w.v) =
      tds.map (fun td => td.start) := by
    rw [List.map_map]; rfl
  have hany : (tds.map (fun td =>
      ({ v := td.start, local_changed := false } : Pthreads.WorkerState))).any
      (fun w => w.local_changed) = false := by
    rw [List.any_eq_false]
    intro w hw
    obtain ⟨td, _, e⟩ := List.mem_map.1 hw
    rw [← e]; simp
  rw [hmap] at h1 h2
  rw [hany, Bool.false_or] at h2
  unfold Pthreads.runEpoch
  exact Prod.ext h1 h2

theorem pthreads_sweeps (g : CSRMatrix) (tds : List Pthreads.ThreadData)
    (hend : ∀ td ∈ tds, td.end_ ≤ g.num_vertices)
    (hcov : ∀ v, v < g.num_vertices → ∃ (i : Nat) (td : Pthreads.ThreadData),
      tds[i]? = some td ∧ td.start ≤ v ∧ v < td.end_)
    (scheds : Nat → List Nat) :
    Sweeps g (fun n l => Pthreads.runEpoch g tds (scheds n) l) := by
  intro n label
  refine ⟨_, ?_, ?_, pthreads_runEpoch_eq_relaxSeq g tds (scheds n) label⟩
  · intro v hv
    obtain ⟨td, htd, hlt⟩ := Pthreads.trace_lt_end tds _ _ v hv
    have := hend td htd
    omega
  · intro v hv
    obtain ⟨i, td, htd, h1, h2⟩ := hcov v hv
    apply Pthreads.mem_trace tds _ _ v i td td.start htd
      (by rw [List.getElem?_map, htd]; rfl) h1 h2
    rw [List.count_append]
    have := Pthreads.count_drainSchedule tds i td htd
    omega

theorem pthreads_sweeps_makeThreadData (g : CSRMatrix) (P : Nat) (hP : 1 ≤ P)
    (scheds : Nat → List Nat) :
    Sweeps g (fun n l =>
      Pthreads.runEpoch g (Pthreads.makeThreadData g.num_vertices P) (scheds n) l) :=
  pthreads_sweeps g _ (Pthreads.makeThreadData_end_le g.num_vertices P)
    (Pthreads.makeThreadData_cover g.num_vertices P hP) scheds

/-! ## The fork-join variant as a sweep -/

theorem cilk_epochLoop_eq_iterate (g : CSRMatrix) (scheds : Nat → List Nat) (fuel : Nat)
    (label : List Int) (it : Nat) :
    OpenCilk.epochLoop g scheds fuel label it =
      iterateEpochs (fun n l => OpenCilk.runEpoch g (scheds n) l) fuel label it := by
  induction fuel generalizing label it with
  | zero => rfl
  | succ f ih =>
    simp only [OpenCilk.epochLoop, iterateEpochs]
    rw [ih]

theorem OpenCilk.foldl_picked {σ : Type} (n : Nat) (body : Nat → σ → σ) (sched : List Nat)
    (s : σ) (done : List Bool) :
    sched.foldl
        (fun (st : σ × List Bool) v =>
          if v < n ∧ st.2.getD v true = false then (body v st.1, st.2.set v true) else st)
        (s, done) =
      ((OpenCilk.picked n sched done).1.foldl (fun s v => body v s) s,
        (OpenCilk.picked n sched done).2) := by
  induction sched generalizing s done with
  | nil => rfl
  | cons v rest ih =>
    simp only [List.foldl_cons, OpenCilk.picked]
    by_cases h : v < n ∧ done.getD v true = false
    · rw [if_pos h, if_pos h, ih]; rfl
    · rw [if_neg h, if_neg h, ih]

theorem foldl_filter_body {σ : Type} (p : Nat → Prop) [DecidablePred p] (body : Nat → σ → σ)
    (l : List Nat) (s : σ) :
    l.foldl (fun s v => if p v then body v s else s) s =
      (l.filter (fun v => decide (p v))).foldl (fun s v => body v s) s := by
  induction l generalizing s with
  | nil => rfl
  | cons a t ih =>
    simp only [List.foldl_cons, List.filter_cons]
    by_cases h : p a
    · simp only [h, if_true, decide_True, List.foldl_cons]; exact ih _
    · simp only [h, if_false, decide_False]; exact ih _

theorem OpenCilk.cilkFor_eq_foldl {σ : Type} (n : Nat) (sched : List Nat) (body : Nat → σ → σ)
    (s : σ) :
    OpenCilk.cilkFor n sched body s = (OpenCilk.order n sched).foldl (fun s v => body v s) s := by
  unfold OpenCilk.cilkFor OpenCilk.order
  simp only [OpenCilk.foldl_picked, List.foldl_append]
  exact foldl_filter_body _ body _ _

theorem OpenCilk.picked_lt (n : Nat) (sched : List Nat) (done : List Bool) (x : Nat)
    (hx : x ∈ (OpenCilk.picked n sched done).1) : x < n := by
  induction sched generalizing done with
  | nil => simp [OpenCilk.picked] at hx
  | cons v rest ih =>
    simp only [OpenCilk.picked] at hx
    by_cases h : v < n ∧ done.getD v true = false
    · rw [if_pos h] at hx
      rcases List.mem_cons.1 hx with e | e
      · rw [e]; exact h.1
      · exact ih _ e
    · rw [if_neg h] at hx; exact ih _ hx

theorem OpenCilk.picked_done (n : Nat) (sched : List Nat) (done : List Bool) (x : Nat)
    (hx : (OpenCilk.picked n sched done).2.getD x true = true) :
    done.getD x true = true ∨ x ∈ (OpenCilk.picked n sched done).1 := by
  induction sched generalizing done with
  | nil => left; exact hx
  | cons v rest ih =>
    simp only [OpenCilk.picked] at hx ⊢
    by_cases h : v < n ∧ done.getD v true = false
    · rw [if_pos h] at hx ⊢
      by_cases hxv : x = v
      · right; rw [hxv]; exact List.mem_cons_self _ _
      · rcases ih _ hx with e | e
        · left
          simp only [List.getD_eq_getElem?_getD] at e ⊢
          rw [List.getElem?_set_ne (Ne.symm hxv)] at e
          exact e
        · right; exact List.mem_cons_of_mem _ e
    · rw [if_neg h] at hx ⊢; exact ih _ hx

theorem OpenCilk.mem_order (n : Nat) (sched : List Nat) (x : Nat) :
    x ∈ OpenCilk.order n sched ↔ x < n := by
  unfold OpenCilk.order
  rw [List.mem_append, List.mem_filter, List.mem_range]
  constructor
  · rintro (h | ⟨h, _⟩)
    · exact OpenCilk.picked_lt n sched _ x h
    · exact h
  · intro hx
    by_cases hd : (OpenCilk.picked n sched (List.replicate n false)).2.getD x true = false
    · right; exact ⟨hx, by simpa using hd⟩
    · left
      have hd' : (OpenCilk.picked n sched (List.replicate n false)).2.getD x true = true := by
        simpa using hd
      rcases OpenCilk.picked_done n sched _ x hd' with e | e
      · simp [List.getElem?_replicate, hx] at e
      · exact e

theorem OpenCilk.foldl_relaxBody (g : CSRMatrix) (vs : List Nat) (label : List Int)
    (lc : List Bool) (hvs : ∀ v ∈ vs, v < lc.length) :
    (vs.foldl (fun st v => OpenCilk.relaxBody g v st) (label, lc)).1 =
        (relaxSeq g vs (label, false)).1 ∧
    (vs.foldl (fun st v => OpenCilk.relaxBody g v st) (label, lc)).2.any (fun b => b) =
        (lc.any (fun b => b) || (relaxSeq g vs (label, false)).2) := by
  induction vs generalizing label lc with
  | nil => simp [relaxSeq_nil]
  | cons v t ih =>
    have hv := hvs v (List.mem_cons_self _ _)
    have hb : OpenCilk.relaxBody g v (label, lc) =
        ((relaxVertex g label v).1,
          if (relaxVertex g label v).2 = true then lc.set v true else lc) := rfl
    rw [List.foldl_cons, hb]
    have hlen : (if (relaxVertex g label v).2 = true then lc.set v true else lc).length =
        lc.length := by split <;> simp
    obtain ⟨i1, i2⟩ := ih (relaxVertex g label v).1
      (if (relaxVertex g label v).2 = true then lc.set v true else lc)
      (fun x hx => by rw [hlen]; exact hvs x (List.mem_cons_of_mem _ hx))
    rw [relaxSeq_cons, relaxSeq_flag]
    refine ⟨i1, ?_⟩
    dsimp only
    rw [i2]
    have hany : (if (relaxVertex g label v).2 = true then lc.set v true else lc).any (fun b => b) =
        (lc.any (fun b => b) || (relaxVertex g label v).2) := by
      by_cases hc : (relaxVertex g label v).2 = true
      · rw [if_pos hc, hc]
        exact any_set_or (fun b => b) lc v lc[v] true true
          (List.getElem?_eq_getElem hv) (by simp)
      · have hc' : (relaxVertex g label v).2 = false := by simpa using hc
        rw [if_neg hc, hc', Bool.or_false]
    rw [hany]
    simp [Bool.or_assoc]

theorem cilk_runEpoch_eq_relaxSeq (g : CSRMatrix) (sched : List Nat) (label : List Int) :
    OpenCilk.runEpoch g sched label =
      relaxSeq g (OpenCilk.order g.num_vertices sched) (label, false) := by
  unfold OpenCilk.runEpoch
  simp only [OpenCilk.cilkFor_eq_foldl]
  obtain ⟨h1, h2⟩ := OpenCilk.foldl_relaxBody g (OpenCilk.order g.num_vertices sched) label
    (List.replicate g.num_vertices false)
    (fun v hv => by simpa using (OpenCilk.mem_order g.num_vertices sched v).1 hv)
  have hany : (List.replicate g.num_vertices false).any (fun b => b) = false := by
    rw [List.any_eq_false]
    intro b hb
    rw [(List.mem_replicate.1 hb).2]; simp
  rw [hany, Bool.false_or] at h2
  exact Prod.ext h1 h2

theorem cilk_sweeps (g : CSRMatrix) (scheds : Nat → List Nat) :
    Sweeps g (fun n l => OpenCilk.runEpoch g (scheds n) l) := by
  intro n label
  exact ⟨_, fun v hv => (OpenCilk.mem_order _ _ v).1 hv,
    fun v hv => (OpenCilk.mem_order _ _ v).2 hv, cilk_runEpoch_eq_relaxSeq g (scheds n) label⟩

/-! ## Runs of the two variants -/

theorem init_measure (V : Nat) : (labelSum (initLabels V)).toNat ≤ V * V := by
  have := labelSum_init_le V
  omega

theorem pthreads_run_converges (g : CSRMatrix) (hwf : g.WellFormed) (num_threads : Int)
    (hP : 1 ≤ num_threads) (scheds : Nat → List Nat) :
    ∃ (labels : List Int) (iters : Nat), 1 ≤ iters ∧ iters ≤ g.num_vertices * g.num_vertices + 1 ∧
      LabelInv g labels ∧ FixedPoint g labels ∧
      ∀ fuel, g.num_vertices * g.num_vertices < fuel →
        Pthreads.ColoringCCAlgorithm fuel g num_threads scheds = Except.ok (labels, iters) := by
  obtain ⟨final, k, hk1, hk2, hf1, hf2, hrun⟩ :=
    iterateEpochs_converges g hwf _
      (pthreads_sweeps_makeThreadData g num_threads.toNat (by omega) scheds)
      (g.num_vertices * g.num_vertices) (initLabels g.num_vertices) 0
      (labelInv_init g) (init_measure g.num_vertices)
  refine ⟨final, k, hk1, hk2, hf1, hf2, fun fuel hfuel => ?_⟩
  have h1 : ¬ num_threads < 0 := by omega
  have h2 : ¬ num_threads = 0 := by omega
  simp only [Pthreads.ColoringCCAlgorithm, h1, h2, if_false]
  rw [pthreads_worker_thread_eq_iterate, hrun fuel hfuel, Nat.zero_add]

theorem cilk_run_converges (g : CSRMatrix) (hwf : g.WellFormed) (scheds : Nat → List Nat) :
    ∃ (labels : List Int) (iters : Nat), 1 ≤ iters ∧ iters ≤ g.num_vertices * g.num_vertices + 1 ∧
      LabelInv g labels ∧ FixedPoint g labels ∧
      ∀ fuel, g.num_vertices * g.num_vertices < fuel →
        OpenCilk.ColoringCCAlgorithm fuel g scheds = Except.ok (labels, iters) := by
  obtain ⟨final, k, hk1, hk2, hf1, hf2, hrun⟩ :=
    iterateEpochs_converges g hwf _ (cilk_sweeps g scheds)
      (g.num_vertices * g.num_vertices) (initLabels g.num_vertices) 0
      (labelInv_init g) (init_measure g.num_vertices)
  refine ⟨final, k, hk1, hk2, hf1, hf2, fun fuel hfuel => ?_⟩
  simp only [OpenCilk.ColoringCCAlgorithm]
  rw [cilk_epochLoop_eq_iterate, hrun fuel hfuel, Nat.zero_add]

theorem converged_unique (g : CSRMatrix) (hwf : g.WellFormed) (l1 l2 : List Int)
    (h1 : LabelInv g l1) (f1 : FixedPoint g l1) (h2 : LabelInv g l2) (f2 : FixedPoint g l2) :
    l1 = l2 := by
  apply List.ext_getElem (by rw [h1.1, h2.1])
  intro v hv1 hv2
  have hv : v < g.num_vertices := by rw [← h1.1]; exact hv1
  obtain ⟨m1, a1, b1⟩ := fixedPoint_minReach g hwf l1 h1 f1 v hv
  obtain ⟨m2, a2, b2⟩ := fixedPoint_minReach g hwf l2 h2 f2 v hv
  rw [List.getD_eq_getElem _ _ hv1] at b1
  rw [List.getD_eq_getElem _ _ hv2] at b2
  rw [b1, b2, minReach_unique g v m1 m2 a1 a2]

/-- C1: on a well-formed CSR graph with undirected adjacency, for every worker count
`P ≥ 1` and every interleaving, `ColoringCCAlgorithm` returns (with any fuel above
`V * V`) a label array in which `label[v]` is the least vertex index of the connected
component of `v`; the same holds for the fork-join variant. -/
theorem coloring_labels_component_min (g : CSRMatrix) (hwf : g.WellFormed)
    (hund : g.Undirected) (num_threads : Int) (hP : 1 ≤ num_threads)
    (scheds : Nat → List Nat) :
    (∃ (labels : List Int) (iters : Nat),
      (∀ fuel, g.num_vertices * g.num_vertices < fuel →
        Pthreads.ColoringCCAlgorithm fuel g num_threads scheds = Except.ok (labels, iters)) ∧
      labels.length = g.num_vertices ∧
      ∀ v, v < g.num_vertices → ∃ m, g.IsComponentMin v m ∧ labels.getD v 0 = (m : Int)) ∧
    (∃ (labels : List Int) (iters : Nat),
      (∀ fuel, g.num_vertices * g.num_vertices < fuel →
        OpenCilk.ColoringCCAlgorithm fuel g scheds = Except.ok (labels, iters)) ∧
      labels.length = g.num_vertices ∧
      ∀ v, v < g.num_vertices → ∃ m, g.IsComponentMin v m ∧ labels.getD v 0 = (m : Int)) := by
  constructor
  · obtain ⟨labels, iters, _, _, hinv, hfp, hrun⟩ :=
      pthreads_run_converges g hwf num_threads hP scheds
    refine ⟨labels, iters, hrun, hinv.1, fun v hv => ?_⟩
    obtain ⟨m, hm, e⟩ := fixedPoint_minReach g hwf labels hinv hfp v hv
    exact ⟨m, minReach_componentMin g hwf hund v m hv hm, e⟩
  · obtain ⟨labels, iters, _, _, hinv, hfp, hrun⟩ := cilk_run_converges g hwf scheds
    refine ⟨labels, iters, hrun, hinv.1, fun v hv => ?_⟩
    obtain ⟨m, hm, e⟩ := fixedPoint_minReach g hwf labels hinv hfp v hv
    exact ⟨m, minReach_componentMin g hwf hund v m hv hm, e⟩

theorem coloring_labels_component_min_witness :
    twoTriangles.WellFormed ∧ twoTriangles.Undirected ∧ (1 : Int) ≤ 2 ∧
    CSRMatrix.build true 6 [(1, 2), (2, 3), (1, 3), (4, 5), (5, 6), (4, 6)] = twoTriangles ∧
    Pthreads.ColoringCCAlgorithm 37 twoTriangles 2 (fun _ => [1, 0, 1]) =
      Except.ok ([0, 0, 0, 3, 3, 3], 2) ∧
    OpenCilk.ColoringCCAlgorithm 37 twoTriangles (fun _ => [1, 0, 1]) =
      Except.ok ([0, 0, 0, 3, 3, 3], 2) ∧
    ∃ (labels : List Int) (iters : Nat),
      (∀ fuel, twoTriangles.num_vertices * twoTriangles.num_vertices < fuel →
        Pthreads.ColoringCCAlgorithm fuel twoTriangles 2 (fun _ => [1, 0, 1]) =
          Except.ok (labels, iters)) ∧
      labels.length = twoTriangles.num_vertices ∧
      ∀ v, v < twoTriangles.num_vertices →
        ∃ m, twoTriangles.IsComponentMin v m ∧ labels.getD v 0 = (m : Int) :=
  ⟨by decide, by decide, by decide, by decide, by decide, by decide,
    (coloring_labels_component_min twoTriangles (by decide) (by decide) 2 (by decide)
      (fun _ => [1, 0, 1])).1⟩

theorem bounded_init (V : Nat) : Bounded (initLabels V) := by
  intro v hv
  have hv' : v < V := by simpa [initLabels] using hv
  simp [initLabels, List.getElem?_range hv']

/-- C7: on a well-formed graph every label satisfies `0 ≤ label[v] ≤ v` after the
initialisation, after every single relaxation, after every epoch of either variant under
any interleaving, and in the array that `ColoringCCAlgorithm` returns. -/
theorem labels_bounded_by_index (g : CSRMatrix) (hwf : g.WellFormed) (num_threads : Int)
    (hP : 1 ≤ num_threads) (scheds : Nat → List Nat) :
    Bounded (initLabels g.num_vertices) ∧
    (∀ label v, Bounded label → Bounded (relaxVertex g label v).1) ∧
    (∀ label sched, Bounded label →
      Bounded (Pthreads.runEpoch g
        (Pthreads.makeThreadData g.num_vertices num_threads.toNat) sched label).1) ∧
    (∀ label sched, Bounded label → Bounded (OpenCilk.runEpoch g sched label).1) ∧
    (∃ (labels : List Int) (iters : Nat),
      (∀ fuel, g.num_vertices * g.num_vertices < fuel →
        Pthreads.ColoringCCAlgorithm fuel g num_threads scheds = Except.ok (labels, iters)) ∧
      labels.length = g.num_vertices ∧ Bounded labels) ∧
    (∃ (labels : List Int) (iters : Nat),
      (∀ fuel, g.num_vertices * g.num_vertices < fuel →
        OpenCilk.ColoringCCAlgorithm fuel g scheds = Except.ok (labels, iters)) ∧
      labels.length = g.num_vertices ∧ Bounded labels) := by
  refine ⟨bounded_init _, fun label v hb => bounded_relaxVertex g label hb v, ?_, ?_, ?_, ?_⟩
  · intro label sched hb
    rw [pthreads_runEpoch_eq_relaxSeq]
    exact bounded_relaxSeq g _ (label, false) hb
  · intro label sched hb
    rw [cilk_runEpoch_eq_relaxSeq]
    exact bounded_relaxSeq g _ (label, false) hb
  · obtain ⟨labels, iters, _, _, hinv, _, hrun⟩ :=
      pthreads_run_converges g hwf num_threads hP scheds
    exact ⟨labels, iters, hrun, hinv.1, labelInv_bounded g labels hinv⟩
  · obtain ⟨labels, iters, _, _, hinv, _, hrun⟩ := cilk_run_converges g hwf scheds
    exact ⟨labels, iters, hrun, hinv.1, labelInv_bounded g labels hinv⟩

theorem labels_bounded_by_index_witness :
    path4.WellFormed ∧ (1 : Int) ≤ 2 ∧
    Bounded (Pthreads.runEpoch path4 (Pthreads.makeThreadData 4 2) [1, 1] [0, 1, 2, 3]).1 ∧
    Pthreads.runEpoch path4 (Pthreads.makeThreadData 4 2) [1, 1] [0, 1, 2, 3] =
      ([0, 0, 1, 1], true) :=
  ⟨by decide, by decide,
    (labels_bounded_by_index path4 (by decide) 2 (by decide) (fun _ => [])).2.2.1
      [0, 1, 2, 3] [1, 1] (by decide),
    by decide⟩

theorem converged_labels_eq (g : CSRMatrix) (hwf : g.WellFormed) (P1 P2 : Int)
    (h1 : 1 ≤ P1) (h2 : 1 ≤ P2) (s1 s2 s3 : Nat → List Nat) :
    ∃ (labels : List Int) (i1 i2 i3 : Nat),
      LabelInv g labels ∧ FixedPoint g labels ∧
      (∀ fuel, g.num_vertices * g.num_vertices < fuel →
        Pthreads.ColoringCCAlgorithm fuel g P1 s1 = Except.ok (labels, i1)) ∧
      (∀ fuel, g.num_vertices * g.num_vertices < fuel →
        Pthreads.ColoringCCAlgorithm fuel g P2 s2 = Except.ok (labels, i2)) ∧
      (∀ fuel, g.num_vertices * g.num_vertices < fuel →
        OpenCilk.ColoringCCAlgorithm fuel g s3 = Except.ok (labels, i3)) := by
  obtain ⟨l1, i1, _, _, a1, b1, r1⟩ := pthreads_run_converges g hwf P1 h1 s1
  obtain ⟨l2, i2, _, _, a2, b2, r2⟩ := pthreads_run_converges g hwf P2 h2 s2
  obtain ⟨l3, i3, _, _, a3, b3, r3⟩ := cilk_run_converges g hwf s3
  have e2 : l2 = l1 := converged_unique g hwf l2 l1 a2 b2 a1 b1
  have e3 : l3 = l1 := converged_unique g hwf l3 l1 a3 b3 a1 b1
  subst e2 e3
  exact ⟨_, i1, i2, i3, a1, b1, r1, r2, r3⟩

/-- C8: on every well-formed CSR graph, symmetric or not, two runs of
`ColoringCCAlgorithm` with worker counts `P1, P2 ≥ 1` and arbitrary interleavings return
the same label array; the reported iteration counts can differ (2 against 3 on the path
with four vertices). -/
theorem coloring_labels_independent_of_workers (g : CSRMatrix) (hwf : g.WellFormed)
    (P1 P2 : Int) (h1 : 1 ≤ P1) (h2 : 1 ≤ P2) (s1 s2 : Nat → List Nat) :
    (∃ (labels : List Int) (i1 i2 : Nat),
      (∀ fuel, g.num_vertices * g.num_vertices < fuel →
        Pthreads.ColoringCCAlgorithm fuel g P1 s1 = Except.ok (labels, i1)) ∧
      (∀ fuel, g.num_vertices * g.num_vertices < fuel →
        Pthreads.ColoringCCAlgorithm fuel g P2 s2 = Except.ok (labels, i2))) ∧
    (Pthreads.ColoringCCAlgorithm 17 path4 1 (fun _ => []) = Except.ok ([0, 0, 0, 0], 2) ∧
      Pthreads.ColoringCCAlgorithm 17 path4 2 (fun _ => [1, 1]) =
        Except.ok ([0, 0, 0, 0], 3)) := by
  refine ⟨?_, by decide, by decide⟩
  obtain ⟨labels, i1, i2, _, _, _, r1, r2, _⟩ := converged_labels_eq g hwf P1 P2 h1 h2 s1 s2 s1
  exact ⟨labels, i1, i2, r1, r2⟩

theorem coloring_labels_independent_of_workers_witness :
    path4.WellFormed ∧ (1 : Int) ≤ 1 ∧ (1 : Int) ≤ 3 ∧
    CSRMatrix.build true 4 [(1, 2), (2, 3), (3, 4)] = path4 ∧
    ∃ (labels : List Int) (i1 i2 : Nat),
      (∀ fuel, path4.num_vertices * path4.num_vertices < fuel →
        Pthreads.ColoringCCAlgorithm fuel path4 1 (fun _ => []) = Except.ok (labels, i1)) ∧
      (∀ fuel, path4.num_vertices * path4.num_vertices < fuel →
        Pthreads.ColoringCCAlgorithm fuel path4 3 (fun _ => [2, 1, 0]) =
          Except.ok (labels, i2)) :=
  ⟨by decide, by decide, by decide, by decide,
    (coloring_labels_independent_of_workers path4 (by decide) 1 3 (by decide) (by decide)
      (fun _ => []) (fun _ => [2, 1, 0])).1⟩

theorem sweeps_changed_lt (g : CSRMatrix) (E : Nat → List Int → List Int × Bool)
    (hE : Sweeps g E) (n : Nat) (label : List Int) (hlen : label.length = g.num_vertices)
    (hc : (E n label).2 = true) : labelSum (E n label).1 < labelSum label := by
  obtain ⟨vs, hvs, _, hEq⟩ := hE n label
  rw [hEq] at hc ⊢
  exact labelSum_relaxSeq_lt g vs label (fun v hv => by rw [hlen]; exact hvs v hv) hc

theorem sweeps_fixed (g : CSRMatrix) (hwf : g.WellFormed)
    (E : Nat → List Int → List Int × Bool) (hE : Sweeps g E) (n : Nat) (label : List Int)
    (hfp : FixedPoint g label) : E n label = (label, false) := by
  obtain ⟨vs, hvs, _, hEq⟩ := hE n label
  rw [hEq]
  exact relaxSeq_fixed g vs label false
    (fun v hv => (fixedPoint_iff g hwf label).1 hfp v (hvs v hv))

theorem fixedPoint_relaxVertex (g : CSRMatrix) (hwf : g.WellFormed) (label : List Int)
    (hfp : FixedPoint g label) (v : Nat) (hv : v < g.num_vertices) :
    relaxVertex g label v = (label, false) := by
  have h := (fixedPoint_iff g hwf label).1 hfp v hv
  exact Prod.ext (relaxVertex_unchanged g label v h) h

/-- C9: on a well-formed graph, for every worker count `P ≥ 1` and every interleaving,
an epoch that raises the changed flag strictly lowers the sum of the labels, that sum
never goes below 0, and the epoch loop returns (with any fuel above `V * V`) after at
most `V * V + 1` epochs; likewise for the fork-join variant. -/
theorem epoch_loop_terminates (g : CSRMatrix) (hwf : g.WellFormed) (num_threads : Int)
    (hP : 1 ≤ num_threads) (scheds : Nat → List Nat) :
    (∀ label sched, label.length = g.num_vertices →
      (Pthreads.runEpoch g (Pthreads.makeThreadData g.num_vertices num_threads.toNat)
        sched label).2 = true →
      labelSum (Pthreads.runEpoch g (Pthreads.makeThreadData g.num_vertices num_threads.toNat)
        sched label).1 < labelSum label) ∧
    (∀ label sched, label.length = g.num_vertices →
      (OpenCilk.runEpoch g sched label).2 = true →
      labelSum (OpenCilk.runEpoch g sched label).1 < labelSum label) ∧
    (∀ label sched, Bounded label →
      0 ≤ labelSum (Pthreads.runEpoch g
        (Pthreads.makeThreadData g.num_vertices num_threads.toNat) sched label).1 ∧
      0 ≤ labelSum (OpenCilk.runEpoch g sched label).1) ∧
    (∃ (labels : List Int) (iters : Nat), iters ≤ g.num_vertices * g.num_vertices + 1 ∧
      ∀ fuel, g.num_vertices * g.num_vertices < fuel →
        Pthreads.ColoringCCAlgorithm fuel g num_threads scheds = Except.ok (labels, iters)) ∧
    (∃ (labels : List Int) (iters : Nat), iters ≤ g.num_vertices * g.num_vertices + 1 ∧
      ∀ fuel, g.num_vertices * g.num_vertices < fuel →
        OpenCilk.ColoringCCAlgorithm fuel g scheds = Except.ok (labels, iters)) := by
  refine ⟨?_, ?_, ?_, ?_, ?_⟩
  · intro label sched hlen hc
    exact sweeps_changed_lt g _
      (pthreads_sweeps_makeThreadData g num_threads.toNat (by omega) (fun _ => sched))
      0 label hlen hc
  · intro label sched hlen hc
    exact sweeps_changed_lt g _ (cilk_sweeps g (fun _ => sched)) 0 label hlen hc
  · intro label sched hb
    constructor
    · rw [pthreads_runEpoch_eq_relaxSeq]
      exact bounded_labelSum_nonneg _ (bounded_relaxSeq g _ (label, false) hb)
    · rw [cilk_runEpoch_eq_relaxSeq]
      exact bounded_labelSum_nonneg _ (bounded_relaxSeq g _ (label, false) hb)
  · obtain ⟨labels, iters, _, hle, _, _, hrun⟩ :=
      pthreads_run_converges g hwf num_threads hP scheds
    exact ⟨labels, iters, hle, hrun⟩
  · obtain ⟨labels, iters, _, hle, _, _, hrun⟩ := cilk_run_converges g hwf scheds
    exact ⟨labels, iters, hle, hrun⟩

theorem epoch_loop_terminates_witness :
    path4.WellFormed ∧ (1 : Int) ≤ 2 ∧
    Pthreads.runEpoch path4 (Pthreads.makeThreadData 4 2) [1, 1] [0, 1, 2, 3] =
      ([0, 0, 1, 1], true) ∧
    labelSum (Pthreads.runEpoch path4 (Pthreads.makeThreadData path4.num_vertices
      (2 : Int).toNat) [1, 1] [0, 1, 2, 3]).1 < labelSum [0, 1, 2, 3] :=
  ⟨by decide, by decide, by decide,
    (epoch_loop_terminates path4 (by decide) 2 (by decide) (fun _ => [])).1
      [0, 1, 2, 3] [1, 1] (by decide) (by decide)⟩

/-- C10: the label array returned by `ColoringCCAlgorithm` on a well-formed graph is a
fixed point: no single relaxation changes it, one more epoch under any interleaving
returns it with `changed = false`, and the epoch loop restarted from it returns it after
one pass; likewise for the fork-join variant. -/
theorem converged_labels_are_fixed (g : CSRMatrix) (hwf : g.WellFormed) (num_threads : Int)
    (hP : 1 ≤ num_threads) (scheds : Nat → List Nat) :
    (∃ (labels : List Int) (iters : Nat),
      (∀ fuel, g.num_vertices * g.num_vertices < fuel →
        Pthreads.ColoringCCAlgorithm fuel g num_threads scheds = Except.ok (labels, iters)) ∧
      (∀ v, v < g.num_vertices → relaxVertex g labels v = (labels, false)) ∧
      (∀ sched, Pthreads.runEpoch g
        (Pthreads.makeThreadData g.num_vertices num_threads.toNat) sched labels =
          (labels, false)) ∧
      (∀ (scheds' : Nat → List Nat) (fuel it : Nat),
        Pthreads.worker_thread g (Pthreads.makeThreadData g.num_vertices num_threads.toNat)
          scheds' (fuel + 1) labels it = Except.ok (labels, it + 1))) ∧
    (∃ (labels : List Int) (iters : Nat),
      (∀ fuel, g.num_vertices * g.num_vertices < fuel →
        OpenCilk.ColoringCCAlgorithm fuel g scheds = Except.ok (labels, iters)) ∧
      (∀ v, v < g.num_vertices → relaxVertex g labels v = (labels, false)) ∧
      (∀ sched, OpenCilk.runEpoch g sched labels = (labels, false)) ∧
      (∀ (scheds' : Nat → List Nat) (fuel it : Nat),
        OpenCilk.epochLoop g scheds' (fuel + 1) labels it = Except.ok (labels, it + 1))) := by
  constructor
  · obtain ⟨labels, iters, _, _, _, hfp, hrun⟩ :=
      pthreads_run_converges g hwf num_threads hP scheds
    have hep : ∀ sched, Pthreads.runEpoch g
        (Pthreads.makeThreadData g.num_vertices num_threads.toNat) sched labels =
          (labels, false) := fun sched =>
      sweeps_fixed g hwf _
        (pthreads_sweeps_makeThreadData g num_threads.toNat (by omega) (fun _ => sched))
        0 labels hfp
    refine ⟨labels, iters, hrun, fixedPoint_relaxVertex g hwf labels hfp, hep, ?_⟩
    intro scheds' fuel it
    simp only [Pthreads.worker_thread, hep, Bool.false_eq_true, if_false]
  · obtain ⟨labels, iters, _, _, _, hfp, hrun⟩ := cilk_run_converges g hwf scheds
    have hep : ∀ sched, OpenCilk.runEpoch g sched labels = (labels, false) := fun sched =>
      sweeps_fixed g hwf _ (cilk_sweeps g (fun _ => sched)) 0 labels hfp
    refine ⟨labels, iters, hrun, fixedPoint_relaxVertex g hwf labels hfp, hep, ?_⟩
    intro scheds' fuel it
    simp only [OpenCilk.epochLoop, hep, Bool.false_eq_true, if_false]

theorem converged_labels_are_fixed_witness :
    twoTriangles.WellFormed ∧ (1 : Int) ≤ 4 ∧
    Pthreads.ColoringCCAlgorithm 37 twoTriangles 4 (fun _ => [3, 2]) =
      Except.ok ([0, 0, 0, 3, 3, 3], 2) ∧
    Pthreads.runEpoch twoTriangles (Pthreads.makeThreadData 6 4) [3, 1, 0]
      [0, 0, 0, 3, 3, 3] = ([0, 0, 0, 3, 3, 3], false) ∧
    ∃ (labels : List Int) (iters : Nat),
      (∀ fuel, twoTriangles.num_vertices * twoTriangles.num_vertices < fuel →
        Pthreads.ColoringCCAlgorithm fuel twoTriangles 4 (fun _ => [3, 2]) =
          Except.ok (labels, iters)) ∧
      (∀ v, v < twoTriangles.num_vertices →
        relaxVertex twoTriangles labels v = (labels, false)) ∧
      (∀ sched, Pthreads.runEpoch twoTriangles
        (Pthreads.makeThreadData twoTriangles.num_vertices (4 : Int).toNat) sched labels =
          (labels, false)) ∧
      (∀ (scheds' : Nat → List Nat) (fuel it : Nat),
        Pthreads.worker_thread twoTriangles
          (Pthreads.makeThreadData twoTriangles.num_vertices (4 : Int).toNat)
          scheds' (fuel + 1) labels it = Except.ok (labels, it + 1)) :=
  ⟨by decide, by decide, by decide, by decide,
    (converged_labels_are_fixed twoTriangles (by decide) 4 (by decide) (fun _ => [3, 2])).1⟩

/-! ## The constructor builds well-formed graphs -/

theorem starts_locate (R : Nat → Nat) (V p : Nat)
    (h0 : R 0 ≤ p) (hp : p < R V) : ∃ v, v < V ∧ R v ≤ p ∧ p < R (v + 1) := by
  induction V with
  | zero => omega
  | succ n ih =>
    by_cases h : p < R n
    · obtain ⟨v, hv, a, b⟩ := ih h
      exact ⟨v, by omega, a, b⟩
    · exact ⟨n, by omega, by omega, hp⟩

theorem contrib_lt (s : Bool) (V : Nat) (es : List (Nat × Nat)) (hr : InRange V es)
    (v x : Nat) (hx : x ∈ contrib s es v) : x < V := by
  simp only [contrib, List.mem_flatMap] at hx
  obtain ⟨e, he, hxe⟩ := hx
  obtain ⟨h1, h2, h3, h4⟩ := hr e he
  simp only [entryContrib, List.mem_append] at hxe
  rcases hxe with h | h
  · split at h
    · simp only [List.mem_singleton] at h; omega
    · simp at h
  · split at h
    · simp only [List.mem_singleton] at h; omega
    · simp at h

theorem build_wellFormed (s : Bool) (V : Nat) (es : List (Nat × Nat)) (hr : InRange V es) :
    (CSRMatrix.build s V es).WellFormed := by
  obtain ⟨_, hlen, h0, hmono, hcol, _⟩ := build_row_ptr_shape_aux s V es
  refine ⟨hlen, h0, fun i hi => hmono i (i + 1) (by omega) (by omega), hcol, ?_⟩
  intro u hu
  obtain ⟨p, hpu⟩ := List.mem_iff_getElem?.1 hu
  have hp : p < (CSRMatrix.build s V es).col_ind.length := (List.getElem?_eq_some_iff.1 hpu).1
  obtain ⟨_, _, _, h4⟩ := build_fillInv s V es hr
  have hR : ∀ v, ((countPass s V es).take (v + 1)).sum =
      ((countPass s V es).take v).sum + (contrib s es v).length := by
    intro v
    rw [sum_take_succ, getD_countPass s V es hr]
  have hpV : p < (fun i => ((countPass s V es).take i).sum) V := by
    beta_reduce
    rw [← build_row_ptr s V es V (le_refl V), hcol]; exact hp
  obtain ⟨v, hv, a, b⟩ := starts_locate (fun i => ((countPass s V es).take i).sum) V p
    (by simp) hpV
  have hb := hR v
  have hj : p - ((countPass s V es).take v).sum < (contrib s es v).length := by omega
  have hget := h4 v hv _ hj
  beta_reduce at hget
  rw [show ((countPass s V es).take v).sum + (p - ((countPass s V es).take v).sum) = p by
    omega] at hget
  have hcol2 : (CSRMatrix.build s V es).col_ind[p]? =
      (contrib s es v)[p - ((countPass s V es).take v).sum]? := hget
  rw [hpu] at hcol2
  exact contrib_lt s V es hr v u (List.getElem?_mem hcol2.symm)

/-! ## Monotonicity of the labels -/

theorem getD_relaxVertex_le (g : CSRMatrix) (label : List Int) (v w : Nat) :
    (relaxVertex g label v).1.getD w 0 ≤ label.getD w 0 := by
  by_cases h : w = v
  · subst h
    by_cases hw : w < label.length
    · rw [getD_relaxVertex_self g label w hw]; exact minLabel_le_self g label w
    · rw [relaxVertex_def]
      split
      · rw [List.set_eq_of_length_le (by omega)]
      · exact le_refl _
  · rw [getD_relaxVertex_ne g label v w h]

theorem getD_relaxSeq_le (g : CSRMatrix) (vs : List Nat) (st : List Int × Bool) (w : Nat) :
    (relaxSeq g vs st).1.getD w 0 ≤ st.1.getD w 0 := by
  induction vs generalizing st with
  | nil => exact le_refl _
  | cons v t ih =>
    rw [relaxSeq_cons]
    exact le_trans (ih _) (getD_relaxVertex_le g st.1 v w)

/-- C14: on a well-formed graph labels never increase: after a single relaxation, after
any sequence of relaxations, and after an epoch of either variant under any interleaving,
the label of every vertex is at most what it was before. -/
theorem labels_never_increase (g : CSRMatrix) (hwf : g.WellFormed) (label : List Int)
    (hlen : label.length = g.num_vertices) :
    (∀ v w, (relaxVertex g label v).1.getD w 0 ≤ label.getD w 0) ∧
    (∀ vs w, (relaxSeq g vs (label, false)).1.getD w 0 ≤ label.getD w 0) ∧
    (∀ (P : Nat) sched w,
      (Pthreads.runEpoch g (Pthreads.makeThreadData g.num_vertices P) sched label).1.getD w 0 ≤
        label.getD w 0) ∧
    (∀ sched w, (OpenCilk.runEpoch g sched label).1.getD w 0 ≤ label.getD w 0) := by
  have _ := hwf
  have _ := hlen
  refine ⟨getD_relaxVertex_le g label, fun vs w => getD_relaxSeq_le g vs (label, false) w,
    ?_, ?_⟩
  · intro P sched w
    rw [pthreads_runEpoch_eq_relaxSeq]
    exact getD_relaxSeq_le g _ (label, false) w
  · intro sched w
    rw [cilk_runEpoch_eq_relaxSeq]
    exact getD_relaxSeq_le g _ (label, false) w

theorem labels_never_increase_witness :
    path4.WellFormed ∧ ([0, 1, 2, 3] : List Int).length = path4.num_vertices ∧
    Pthreads.runEpoch path4 (Pthreads.makeThreadData 4 2) [1, 1] [0, 1, 2, 3] =
      ([0, 0, 1, 1], true) ∧
    ∀ w, (Pthreads.runEpoch path4 (Pthreads.makeThreadData path4.num_vertices 2) [1, 1]
      [0, 1, 2, 3]).1.getD w 0 ≤ ([0, 1, 2, 3] : List Int).getD w 0 :=
  ⟨by decide, by decide, by decide,
    (labels_never_increase path4 (by decide) [0, 1, 2, 3] (by decide)).2.2.1 2 [1, 1]⟩

/-! ## Directed reachability and arbitrary relaxation orders -/

/-- C18: on every well-formed CSR graph, symmetric or not, the label returned for `v` is
the least index among the vertices reachable from `v` along stored edges (`v` included),
for both variants; on the graph built from the single general line `1 2` the vertices 0
and 1 are joined by a stored edge and end with the labels 0 and 1. -/
theorem coloring_labels_min_reachable (g : CSRMatrix) (hwf : g.WellFormed)
    (num_threads : Int) (hP : 1 ≤ num_threads) (scheds : Nat → List Nat) :
    (∃ (labels : List Int) (iters : Nat),
      (∀ fuel, g.num_vertices * g.num_vertices < fuel →
        Pthreads.ColoringCCAlgorithm fuel g num_threads scheds = Except.ok (labels, iters)) ∧
      (∀ fuel, g.num_vertices * g.num_vertices < fuel →
        ∃ iters', OpenCilk.ColoringCCAlgorithm fuel g scheds = Except.ok (labels, iters')) ∧
      labels.length = g.num_vertices ∧
      ∀ v, v < g.num_vertices → ∃ m, g.IsMinReach v m ∧ labels.getD v 0 = (m : Int)) ∧
    (1 ∈ (CSRMatrix.build false 2 [(1, 2)]).neighbors 0 ∧
      Pthreads.ColoringCCAlgorithm 5 (CSRMatrix.build false 2 [(1, 2)]) 1 (fun _ => []) =
        Except.ok ([0, 1], 1) ∧
      OpenCilk.ColoringCCAlgorithm 5 (CSRMatrix.build false 2 [(1, 2)]) (fun _ => []) =
        Except.ok ([0, 1], 1)) := by
  refine ⟨?_, by decide, by decide, by decide⟩
  obtain ⟨labels, i1, _, i3, hinv, hfp, r1, _, r3⟩ :=
    converged_labels_eq g hwf num_threads num_threads hP hP scheds scheds scheds
  exact ⟨labels, i1, r1, fun fuel hf => ⟨i3, r3 fuel hf⟩, hinv.1,
    fun v hv => fixedPoint_minReach g hwf labels hinv hfp v hv⟩

theorem coloring_labels_min_reachable_witness :
    (CSRMatrix.build false 3 [(1, 2), (3, 2)]).WellFormed ∧ (1 : Int) ≤ 2 ∧
    ¬ (CSRMatrix.build false 3 [(1, 2), (3, 2)]).Undirected ∧
    Pthreads.ColoringCCAlgorithm 10 (CSRMatrix.build false 3 [(1, 2), (3, 2)]) 2
      (fun _ => [1, 0]) = Except.ok ([0, 1, 1], 2) ∧
    ∃ (labels : List Int) (iters : Nat),
      (∀ fuel, (CSRMatrix.build false 3 [(1, 2), (3, 2)]).num_vertices *
          (CSRMatrix.build false 3 [(1, 2), (3, 2)]).num_vertices < fuel →
        Pthreads.ColoringCCAlgorithm fuel (CSRMatrix.build false 3 [(1, 2), (3, 2)]) 2
          (fun _ => [1, 0]) = Except.ok (labels, iters)) ∧
      (∀ fuel, (CSRMatrix.build false 3 [(1, 2), (3, 2)]).num_vertices *
          (CSRMatrix.build false 3 [(1, 2), (3, 2)]).num_vertices < fuel →
        ∃ iters', OpenCilk.ColoringCCAlgorithm fuel
          (CSRMatrix.build false 3 [(1, 2), (3, 2)]) (fun _ => [1, 0]) =
            Except.ok (labels, iters')) ∧
      labels.length = (CSRMatrix.build false 3 [(1, 2), (3, 2)]).num_vertices ∧
      ∀ v, v < (CSRMatrix.build false 3 [(1, 2), (3, 2)]).num_vertices →
        ∃ m, (CSRMatrix.build false 3 [(1, 2), (3, 2)]).IsMinReach v m ∧
          labels.getD v 0 = (m : Int) :=
  ⟨by decide, by decide, by decide, by decide,
    (coloring_labels_min_reachable (CSRMatrix.build false 3 [(1, 2), (3, 2)]) (by decide) 2
      (by decide) (fun _ => [1, 0])).1⟩

/-- C15: on a well-formed undirected graph, after any finite sequence of in-place
relaxations of vertices from `label[v] = v`, every label is the index of a vertex of the
connected component of its vertex and is at least the least index of that component;
and if no relaxation changes the array reached, it is the component-minimum labelling. -/
theorem relaxations_keep_component_labels (g : CSRMatrix) (hwf : g.WellFormed)
    (hund : g.Undirected) (vs : List Nat) (hvs : ∀ v ∈ vs, v < g.num_vertices) :
    (relaxSeq g vs (initLabels g.num_vertices, false)).1.length = g.num_vertices ∧
    (∀ v, v < g.num_vertices → ∃ w, g.Connected v w ∧
      (relaxSeq g vs (initLabels g.num_vertices, false)).1.getD v 0 = (w : Int) ∧
      ∀ m, g.IsComponentMin v m →
        (m : Int) ≤ (relaxSeq g vs (initLabels g.num_vertices, false)).1.getD v 0) ∧
    ((∀ v, v < g.num_vertices →
        (relaxVertex g (relaxSeq g vs (initLabels g.num_vertices, false)).1 v).2 = false) →
      ∀ v, v < g.num_vertices → ∃ m, g.IsComponentMin v m ∧
        (relaxSeq g vs (initLabels g.num_vertices, false)).1.getD v 0 = (m : Int)) := by
  have hinv := labelInv_relaxSeq g hwf vs hvs (initLabels g.num_vertices, false)
    (labelInv_init g)
  refine ⟨hinv.1, ?_, ?_⟩
  · intro v hv
    obtain ⟨w, _, hw2, hw3⟩ := hinv.2 v hv
    refine ⟨w, reach_connected g v w hw2, hw3, fun m hm => ?_⟩
    rw [hw3]
    exact_mod_cast hm.2 w (reach_connected g v w hw2)
  · intro hquiet v hv
    have hfp := (fixedPoint_iff g hwf _).2 hquiet
    obtain ⟨m, hm, e⟩ := fixedPoint_minReach g hwf _ hinv hfp v hv
    exact ⟨m, minReach_componentMin g hwf hund v m hv hm, e⟩

theorem relaxations_keep_component_labels_witness :
    path4.WellFormed ∧ path4.Undirected ∧ (∀ v ∈ [3, 2, 3, 1], v < path4.num_vertices) ∧
    (relaxSeq path4 [3, 2, 3, 1] (initLabels 4, false)).1 = [0, 0, 1, 1] ∧
    ∀ v, v < path4.num_vertices → ∃ w, path4.Connected v w ∧
      (relaxSeq path4 [3, 2, 3, 1] (initLabels path4.num_vertices, false)).1.getD v 0 =
        (w : Int) ∧
      ∀ m, path4.IsComponentMin v m →
        (m : Int) ≤
          (relaxSeq path4 [3, 2, 3, 1] (initLabels path4.num_vertices, false)).1.getD v 0 :=
  ⟨by decide, by decide, by decide, by decide,
    (relaxations_keep_component_labels path4 (by decide) (by decide) [3, 2, 3, 1]
      (by decide)).2.1⟩

/-! ## Graphs on which the first pass changes nothing -/

theorem sweeps_quiet (g : CSRMatrix) (E : Nat → List Int → List Int × Bool) (hE : Sweeps g E)
    (n : Nat) (label : List Int)
    (h : ∀ v, v < g.num_vertices → (relaxVertex g label v).2 = false) :
    E n label = (label, false) := by
  obtain ⟨vs, hvs, _, hEq⟩ := hE n label
  rw [hEq]
  exact relaxSeq_fixed g vs label false (fun v hv => h v (hvs v hv))

theorem iterateEpochs_quiet (E : Nat → List Int → List Int × Bool) (fuel : Nat)
    (label : List Int) (it : Nat) (h : E it label = (label, false)) :
    iterateEpochs E (fuel + 1) label it = Except.ok (label, it + 1) := by
  simp only [iterateEpochs, h, Bool.false_eq_true, if_false]

theorem pthreads_run_quiet (g : CSRMatrix) (num_threads : Int) (hP : 1 ≤ num_threads)
    (scheds : Nat → List Nat) (fuel : Nat)
    (h : ∀ v, v < g.num_vertices → (relaxVertex g (initLabels g.num_vertices) v).2 = false) :
    Pthreads.ColoringCCAlgorithm (fuel + 1) g num_threads scheds =
      Except.ok (initLabels g.num_vertices, 1) := by
  have h1 : ¬ num_threads < 0 := by omega
  have h2 : ¬ num_threads = 0 := by omega
  simp only [Pthreads.ColoringCCAlgorithm, h1, h2, if_false]
  rw [pthreads_worker_thread_eq_iterate]
  exact iterateEpochs_quiet _ fuel _ 0
    (sweeps_quiet g _ (pthreads_sweeps_makeThreadData g num_threads.toNat (by omega) scheds)
      0 _ h)

theorem cilk_run_quiet (g : CSRMatrix) (scheds : Nat → List Nat) (fuel : Nat)
    (h : ∀ v, v < g.num_vertices → (relaxVertex g (initLabels g.num_vertices) v).2 = false) :
    OpenCilk.ColoringCCAlgorithm (fuel + 1) g scheds =
      Except.ok (initLabels g.num_vertices, 1) := by
  simp only [OpenCilk.ColoringCCAlgorithm]
  rw [cilk_epochLoop_eq_iterate]
  exact iterateEpochs_quiet _ fuel _ 0 (sweeps_quiet g _ (cilk_sweeps g scheds) 0 _ h)

theorem edgeless_fixedPoint (g : CSRMatrix) (hcol : g.col_ind = []) (label : List Int) :
    FixedPoint g label := by
  intro v _ u hu
  simp [CSRMatrix.neighbors, hcol] at hu

theorem pthreads_trace_empty (P : Nat) (sched cur : List Nat) :
    Pthreads.trace (Pthreads.makeThreadData 0 P) sched cur = [] := by
  rw [List.eq_nil_iff_forall_not_mem]
  intro x hx
  obtain ⟨td, htd, hlt⟩ := Pthreads.trace_lt_end _ sched cur x hx
  have := Pthreads.makeThreadData_end_le 0 P td htd
  omega

/-- C13: on a graph with 0 vertices, for every worker count `P ≥ 1` and every
interleaving, `ColoringCCAlgorithm` returns the empty label array after one pass in
which no vertex is relaxed (so nothing is read or written and no fault occurs), in both
variants; on a single vertex without edges it returns `[0]`. -/
theorem empty_graph_returns_empty (g : CSRMatrix) (h0 : g.num_vertices = 0)
    (num_threads : Int) (hP : 1 ≤ num_threads) (scheds : Nat → List Nat) (fuel : Nat) :
    Pthreads.ColoringCCAlgorithm (fuel + 1) g num_threads scheds = Except.ok ([], 1) ∧
    OpenCilk.ColoringCCAlgorithm (fuel + 1) g scheds = Except.ok ([], 1) ∧
    (∀ sched cur, Pthreads.trace
      (Pthreads.makeThreadData g.num_vertices num_threads.toNat) sched cur = []) ∧
    (∀ sched, OpenCilk.order g.num_vertices sched = []) ∧
    Pthreads.ColoringCCAlgorithm (fuel + 1) singleVertex num_threads scheds =
      Except.ok ([0], 1) ∧
    OpenCilk.ColoringCCAlgorithm (fuel + 1) singleVertex scheds = Except.ok ([0], 1) := by
  have hq : ∀ v, v < g.num_vertices →
      (relaxVertex g (initLabels g.num_vertices) v).2 = false := by
    intro v hv; omega
  have hinit : initLabels g.num_vertices = [] := by rw [h0]; rfl
  have hs : ∀ v, v < singleVertex.num_vertices →
      (relaxVertex singleVertex (initLabels singleVertex.num_vertices) v).2 = false :=
    (fixedPoint_iff singleVertex (by decide) _).1 (edgeless_fixedPoint singleVertex rfl _)
  refine ⟨?_, ?_, ?_, ?_, ?_, ?_⟩
  · rw [pthreads_run_quiet g num_threads hP scheds fuel hq, hinit]
  · rw [cilk_run_quiet g scheds fuel hq, hinit]
  · intro sched cur
    rw [h0]; exact pthreads_trace_empty _ sched cur
  · intro sched
    rw [List.eq_nil_iff_forall_not_mem]
    intro x hx
    have := (OpenCilk.mem_order g.num_vertices sched x).1 hx
    omega
  · rw [pthreads_run_quiet singleVertex num_threads hP scheds fuel hs]; rfl
  · rw [cilk_run_quiet singleVertex scheds fuel hs]; rfl

theorem empty_graph_returns_empty_witness :
    (CSRMatrix.build true 0 []).num_vertices = 0 ∧ (1 : Int) ≤ 3 ∧
    (CSRMatrix.build true 0 []).WellFormed ∧
    Pthreads.ColoringCCAlgorithm (0 + 1) (CSRMatrix.build true 0 []) 3 (fun _ => [2, 0]) =
      Except.ok ([], 1) :=
  ⟨by decide, by decide, by decide,
    (empty_graph_returns_empty (CSRMatrix.build true 0 []) (by decide) 3 (by decide)
      (fun _ => [2, 0]) 0).1⟩

/-! ## The partition table -/

theorem chunk_ceil (V P : Nat) (hP : 1 ≤ P) :
    V ≤ P * ((V + P - 1) / P) ∧ P * ((V + P - 1) / P) < V + P := by
  have h1 := Nat.div_add_mod (V + P - 1) P
  have h2 := Nat.mod_lt (V + P - 1) (show 0 < P by omega)
  constructor <;> omega

theorem Pthreads.makeThreadData_getElem (V P i : Nat) (td : Pthreads.ThreadData)
    (h : (Pthreads.makeThreadData V P)[i]? = some td) :
    i < P ∧ td.start = i * ((V + P - 1) / P) ∧
      td.end_ = min ((i + 1) * ((V + P - 1) / P)) V ∧ td.thread_id = i := by
  have hi : i < P := by
    have := (List.getElem?_eq_some_iff.1 h).1
    simpa [Pthreads.makeThreadData] using this
  rw [Pthreads.getElem?_makeThreadData V P i hi] at h
  cases h
  exact ⟨hi, rfl, rfl, rfl⟩

theorem Pthreads.owns_unique (V P i j v : Nat) (a b : Pthreads.ThreadData)
    (ha : (Pthreads.makeThreadData V P)[i]? = some a)
    (hb : (Pthreads.makeThreadData V P)[j]? = some b)
    (hva : Pthreads.Owns a v) (hvb : Pthreads.Owns b v) : i = j := by
  obtain ⟨_, a1, a2, _⟩ := Pthreads.makeThreadData_getElem V P i a ha
  obtain ⟨_, b1, b2, _⟩ := Pthreads.makeThreadData_getElem V P j b hb
  unfold Pthreads.Owns at hva hvb
  rw [a1, a2] at hva
  rw [b1, b2] at hvb
  by_contra hne
  rcases Nat.lt_or_gt_of_ne hne with h | h
  · have := Nat.mul_le_mul_right ((V + P - 1) / P) (show i + 1 ≤ j by omega)
    omega
  · have := Nat.mul_le_mul_right ((V + P - 1) / P) (show j + 1 ≤ i by omega)
    omega

/-! ## Index bounds in the two passes and in the kernel -/

theorem length_contrib_lt (s : Bool) (es p q : List (Nat × Nat)) (e : Nat × Nat)
    (hes : es = p ++ e :: q) (v : Nat) (hne : entryContrib s v e ≠ []) :
    (contrib s p v).length < (contrib s es v).length := by
  rw [hes, contrib_append, contrib_cons]
  simp only [List.length_append]
  have : 0 < (entryContrib s v e).length := List.length_pos.2 hne
  omega

theorem fill_state_at (s : Bool) (V : Nat) (es p q : List (Nat × Nat)) (e : Nat × Nat)
    (hr : InRange V es) (hes : es = p ++ e :: q) :
    FillInv V ((CSRMatrix.build s V es).row_ptr.getD V 0)
      (fun i => ((countPass s V es).take i).sum) (contrib s p)
      (p.foldl (fillStep s) (List.replicate ((CSRMatrix.build s V es).row_ptr.getD V 0) 0,
        (CSRMatrix.build s V es).row_ptr)) := by
  have hR : ∀ v, (fun i => ((countPass s V es).take i).sum) (v + 1) =
      (fun i => ((countPass s V es).take i).sum) v + (contrib s es v).length := by
    intro v
    beta_reduce
    rw [sum_take_succ, getD_countPass s V es hr]
  have hfold := fillInv_fold s V ((CSRMatrix.build s V es).row_ptr.getD V 0)
    (fun i => ((countPass s V es).take i).sum) es hR ?_ hr
    [] p (e :: q) (by simp [hes]) (List.replicate ((CSRMatrix.build s V es).row_ptr.getD V 0) 0,
      (CSRMatrix.build s V es).row_ptr) ?_
  · simpa using hfold
  · rw [build_row_ptr s V es V (le_refl V)]
  · refine ⟨by simp, ?_, ?_, ?_⟩
    · simp only [CSRMatrix.build]; exact length_buildRowPtr V _
    · intro v hv
      simp only [contrib, List.flatMap_nil, List.length_nil, Nat.add_zero]
      exact build_row_ptr s V es v (by omega)
    · intro v _ j hj
      simp [contrib] at hj

/-- C19: for data lines with indices in `[1, V]` every index of the two passes is in
bounds: `row` and `col` index the `V` counters of the count pass; each write
`col_ind[current_pos[r]++]` of the fill pass happens at a position that is inside
`col_ind` and satisfies `row_ptr[r] ≤ current_pos[r] < row_ptr[r+1]`; after the fill pass
`current_pos[v] = row_ptr[v+1]`; and every entry of `col_ind` is below `V`, so the kernel
reads `col_ind[k]` and `label[col_ind[k]]` in bounds. -/
theorem fill_indices_in_bounds (s : Bool) (V : Nat) (es : List (Nat × Nat))
    (hr : InRange V es) :
    ((countPass s V es).length = V ∧ ∀ e ∈ es, e.1 - 1 < V ∧ e.2 - 1 < V) ∧
    (∀ (p q : List (Nat × Nat)) (e : Nat × Nat), es = p ++ e :: q →
      (CSRMatrix.build s V es).row_ptr.getD (e.1 - 1) 0 ≤
        (p.foldl (fillStep s) (List.replicate (CSRMatrix.build s V es).nnz 0,
          (CSRMatrix.build s V es).row_ptr)).2.getD (e.1 - 1) 0 ∧
      (p.foldl (fillStep s) (List.replicate (CSRMatrix.build s V es).nnz 0,
          (CSRMatrix.build s V es).row_ptr)).2.getD (e.1 - 1) 0 <
        (CSRMatrix.build s V es).row_ptr.getD (e.1 - 1 + 1) 0 ∧
      (CSRMatrix.build s V es).row_ptr.getD (e.1 - 1 + 1) 0 ≤
        (p.foldl (fillStep s) (List.replicate (CSRMatrix.build s V es).nnz 0,
          (CSRMatrix.build s V es).row_ptr)).1.length ∧
      (s = true → e.1 - 1 ≠ e.2 - 1 →
        (CSRMatrix.build s V es).row_ptr.getD (e.2 - 1) 0 ≤
          (incrAt (p.foldl (fillStep s) (List.replicate (CSRMatrix.build s V es).nnz 0,
            (CSRMatrix.build s V es).row_ptr)).2 (e.1 - 1)).getD (e.2 - 1) 0 ∧
        (incrAt (p.foldl (fillStep s) (List.replicate (CSRMatrix.build s V es).nnz 0,
            (CSRMatrix.build s V es).row_ptr)).2 (e.1 - 1)).getD (e.2 - 1) 0 <
          (CSRMatrix.build s V es).row_ptr.getD (e.2 - 1 + 1) 0 ∧
        (CSRMatrix.build s V es).row_ptr.getD (e.2 - 1 + 1) 0 ≤
          (p.foldl (fillStep s) (List.replicate (CSRMatrix.build s V es).nnz 0,
            (CSRMatrix.build s V es).row_ptr)).1.length)) ∧
    (∀ v, v < V →
      (fillPass s (CSRMatrix.build s V es).row_ptr (CSRMatrix.build s V es).nnz es).2.getD v 0 =
        (CSRMatrix.build s V es).row_ptr.getD (v + 1) 0) ∧
    (∀ u ∈ (CSRMatrix.build s V es).col_ind, u < V) ∧
    (∀ v, v < V → ∀ k, (CSRMatrix.build s V es).row_ptr.getD v 0 ≤ k →
      k < (CSRMatrix.build s V es).row_ptr.getD (v + 1) 0 →
      k < (CSRMatrix.build s V es).col_ind.length ∧
        (CSRMatrix.build s V es).col_ind.getD k 0 < V) := by
  have hwf := build_wellFormed s V es hr
  have hshape := build_row_ptr_shape_aux s V es
  have hin : ∀ e ∈ es, e.1 - 1 < V ∧ e.2 - 1 < V := by
    intro e he
    obtain ⟨h1, h2, h3, h4⟩ := hr e he
    omega
  refine ⟨⟨length_countPass s V es hr, hin⟩, ?_, ?_, hwf.2.2.2.2, ?_⟩
  · intro p q e hes
    have he : e ∈ es := by rw [hes]; simp
    obtain ⟨b1, b2, b3, b4⟩ := hr e he
    obtain ⟨i1, i2, i3, _⟩ := fill_state_at s V es p q e hr hes
    have hnnz : (CSRMatrix.build s V es).nnz = (CSRMatrix.build s V es).row_ptr.getD V 0 := rfl
    rw [hnnz]
    have hrow := build_row_ptr s V es (e.1 - 1) (by omega)
    have hrow1 := build_row_ptr_succ s V es hr (e.1 - 1) (by omega)
    have hcur := i3 (e.1 - 1) (by omega)
    beta_reduce at hcur
    have hlt1 : (contrib s p (e.1 - 1)).length < (contrib s es (e.1 - 1)).length := by
      apply length_contrib_lt s es p q e hes
      have : e.1 = e.1 - 1 + 1 := by omega
      simp [entryContrib, ← this]
    have hle1 := hshape.2.2.2.1 (e.1 - 1 + 1) V (by omega) (le_refl V)
    refine ⟨by omega, by omega, by omega, ?_⟩
    intro hs hne
    have hcol := build_row_ptr s V es (e.2 - 1) (by omega)
    have hcol1 := build_row_ptr_succ s V es hr (e.2 - 1) (by omega)
    have hcur2 := i3 (e.2 - 1) (by omega)
    beta_reduce at hcur2
    have hlt2 : (contrib s p (e.2 - 1)).length < (contrib s es (e.2 - 1)).length := by
      apply length_contrib_lt s es p q e hes
      have h2 : e.2 = e.2 - 1 + 1 := by omega
      have h3 : e.1 ≠ e.2 := by omega
      simp [entryContrib, ← h2, hs, h3]
    have hle2 := hshape.2.2.2.1 (e.2 - 1 + 1) V (by omega) (le_refl V)
    have hincr : (incrAt (p.foldl (fillStep s)
        (List.replicate ((CSRMatrix.build s V es).row_ptr.getD V 0) 0,
          (CSRMatrix.build s V es).row_ptr)).2 (e.1 - 1)).getD (e.2 - 1) 0 =
        (p.foldl (fillStep s) (List.replicate ((CSRMatrix.build s V es).row_ptr.getD V 0) 0,
          (CSRMatrix.build s V es).row_ptr)).2.getD (e.2 - 1) 0 := by
      rw [getD_incrAt]
      have : ¬ (e.1 - 1 = e.2 - 1 ∧ e.1 - 1 < (p.foldl (fillStep s)
        (List.replicate ((CSRMatrix.build s V es).row_ptr.getD V 0) 0,
          (CSRMatrix.build s V es).row_ptr)).2.length) := fun h => hne h.1
      rw [if_neg this, Nat.add_zero]
    rw [hincr]
    refine ⟨by omega, by omega, by omega⟩
  · intro v hv
    obtain ⟨_, _, i3, _⟩ := build_fillInv s V es hr
    have := i3 v hv
    beta_reduce at this
    have hnnz : (CSRMatrix.build s V es).nnz = (CSRMatrix.build s V es).row_ptr.getD V 0 := rfl
    rw [hnnz, this, build_row_ptr_succ s V es hr v hv, build_row_ptr s V es v (by omega)]
  · intro v hv k hk1 hk2
    have hle := hshape.2.2.2.1 (v + 1) V (by omega) (le_refl V)
    have hklt : k < (CSRMatrix.build s V es).col_ind.length := by
      rw [← hshape.2.2.2.2.1]; omega
    refine ⟨hklt, ?_⟩
    rw [List.getD_eq_getElem _ _ hklt]
    exact hwf.2.2.2.2 _ (List.getElem_mem hklt)

theorem fill_indices_in_bounds_witness :
    InRange 3 [(3, 1), (1, 2), (1, 1), (2, 1)] ∧
    (fillPass true (CSRMatrix.build true 3 [(3, 1), (1, 2), (1, 1), (2, 1)]).row_ptr
      (CSRMatrix.build true 3 [(3, 1), (1, 2), (1, 1), (2, 1)]).nnz
      [(3, 1), (1, 2), (1, 1), (2, 1)]).2 = [4, 6, 7, 7] ∧
    (CSRMatrix.build true 3 [(3, 1), (1, 2), (1, 1), (2, 1)]).row_ptr = [0, 4, 6, 7] ∧
    ∀ u ∈ (CSRMatrix.build true 3 [(3, 1), (1, 2), (1, 1), (2, 1)]).col_ind, u < 3 :=
  ⟨by decide, by decide, by decide,
    (fill_indices_in_bounds true 3 [(3, 1), (1, 2), (1, 1), (2, 1)] (by decide)).2.2.2.1⟩

/-! ## The reported iteration count -/

theorem iterateEpochs_count (E : Nat → List Int → List Int × Bool) (fuel : Nat) :
    ∀ (label : List Int) (it : Nat) (final : List Int) (c : Nat),
      iterateEpochs E fuel label it = Except.ok (final, c) →
      ∃ k, c = it + k + 1 ∧
        (∀ n, n < k → (E (it + n) (epochState E it label n)).2 = true) ∧
        (E (it + k) (epochState E it label k)).2 = false ∧
        final = (E (it + k) (epochState E it label k)).1 := by
  induction fuel with
  | zero =>
    intro label it final c h
    simp [iterateEpochs] at h
  | succ f ih =>
    intro label it final c h
    simp only [iterateEpochs] at h
    by_cases hc : (E it label).2 = true
    · rw [if_pos hc] at h
      obtain ⟨k, hk1, hk2, hk3, hk4⟩ := ih _ _ _ _ h
      refine ⟨k + 1, by omega, ?_, ?_, ?_⟩
      · intro n hn
        cases n with
        | zero => exact hc
        | succ m =>
          have e : it + (m + 1) = it + 1 + m := by omega
          rw [e]
          exact hk2 m (by omega)
      · have e : it + (k + 1) = it + 1 + k := by omega
        rw [e]; exact hk3
      · have e : it + (k + 1) = it + 1 + k := by omega
        rw [e]; exact hk4
    · rw [if_neg hc] at h
      simp only [Except.ok.injEq, Prod.mk.injEq] at h
      refine ⟨0, by omega, fun n hn => by omega, ?_, ?_⟩
      · simpa using hc
      · exact h.1.symm

theorem sweeps_flag_iff (g : CSRMatrix) (E : Nat → List Int → List Int × Bool)
    (hE : Sweeps g E) (n : Nat) (label : List Int) (hlen : label.length = g.num_vertices) :
    (E n label).2 = true ↔ (E n label).1 ≠ label := by
  constructor
  · intro hc heq
    have := sweeps_changed_lt g E hE n label hlen hc
    rw [heq] at this
    exact lt_irrefl _ this
  · intro hne
    by_contra hc
    have hc' : (E n label).2 = false := by simpa using hc
    obtain ⟨vs, _, _, hEq⟩ := hE n label
    rw [hEq] at hc' hne
    exact hne (relaxSeq_quiet g vs label hc').1

theorem pthreads_run_eq_iterate (g : CSRMatrix) (num_threads : Int) (hP : 1 ≤ num_threads)
    (scheds : Nat → List Nat) (fuel : Nat) :
    Pthreads.ColoringCCAlgorithm fuel g num_threads scheds =
      iterateEpochs (fun n l => Pthreads.runEpoch g
        (Pthreads.makeThreadData g.num_vertices num_threads.toNat) (scheds n) l)
        fuel (initLabels g.num_vertices) 0 := by
  have h1 : ¬ num_threads < 0 := by omega
  have h2 : ¬ num_threads = 0 := by omega
  simp only [Pthreads.ColoringCCAlgorithm, h1, h2, if_false]
  rw [pthreads_worker_thread_eq_iterate]

theorem cilk_run_eq_iterate (g : CSRMatrix) (scheds : Nat → List Nat) (fuel : Nat) :
    OpenCilk.ColoringCCAlgorithm fuel g scheds =
      iterateEpochs (fun n l => OpenCilk.runEpoch g (scheds n) l)
        fuel (initLabels g.num_vertices) 0 := by
  simp only [OpenCilk.ColoringCCAlgorithm]
  rw [cilk_epochLoop_eq_iterate]

theorem run_count (g : CSRMatrix) (hwf : g.WellFormed) (E : Nat → List Int → List Int × Bool)
    (hE : Sweeps g E) :
    ∃ (labels : List Int) (k : Nat),
      (∀ fuel, g.num_vertices * g.num_vertices < fuel →
        iterateEpochs E fuel (initLabels g.num_vertices) 0 = Except.ok (labels, k + 1)) ∧
      (∀ n, n < k → (E n (epochState E 0 (initLabels g.num_vertices) n)).2 = true) ∧
      (E k (epochState E 0 (initLabels g.num_vertices) k)).2 = false := by
  obtain ⟨final, c, _, _, _, _, hrun⟩ :=
    iterateEpochs_converges g hwf E hE (g.num_vertices * g.num_vertices)
      (initLabels g.num_vertices) 0 (labelInv_init g) (init_measure g.num_vertices)
  obtain ⟨k, hk1, hk2, hk3, _⟩ :=
    iterateEpochs_count E _ _ _ _ _ (hrun (g.num_vertices * g.num_vertices + 1) (by omega))
  refine ⟨final, k, fun fuel hf => ?_, fun n hn => ?_, ?_⟩
  · rw [hrun fuel hf]
    congr 2; omega
  · have := hk2 n hn
    rwa [Nat.zero_add] at this
  · rwa [Nat.zero_add] at hk3

/-- C17 (as the code has it): the counter starts at 0 and is incremented in every pass,
also in the last one, whose flag is read as false; the flag of a pass is true exactly
when the pass changed a label, so the reported count is the number of passes that
changed a label plus one, and it is 1 for a graph without edges. -/
theorem iteration_count_is_passes (g : CSRMatrix) (hwf : g.WellFormed) (num_threads : Int)
    (hP : 1 ≤ num_threads) (scheds : Nat → List Nat) :
    (∀ fuel, Pthreads.ColoringCCAlgorithm fuel g num_threads scheds =
      Pthreads.worker_thread g (Pthreads.makeThreadData g.num_vertices num_threads.toNat)
        scheds fuel (initLabels g.num_vertices) 0) ∧
    (∃ (labels : List Int) (k : Nat),
      (∀ fuel, g.num_vertices * g.num_vertices < fuel →
        Pthreads.ColoringCCAlgorithm fuel g num_threads scheds = Except.ok (labels, k + 1)) ∧
      (∀ n, n < k →
        (Pthreads.runEpoch g (Pthreads.makeThreadData g.num_vertices num_threads.toNat)
          (scheds n)
          (epochState (fun n l => Pthreads.runEpoch g
            (Pthreads.makeThreadData g.num_vertices num_threads.toNat) (scheds n) l)
            0 (initLabels g.num_vertices) n)).2 = true) ∧
      (Pthreads.runEpoch g (Pthreads.makeThreadData g.num_vertices num_threads.toNat)
        (scheds k)
        (epochState (fun n l => Pthreads.runEpoch g
          (Pthreads.makeThreadData g.num_vertices num_threads.toNat) (scheds n) l)
          0 (initLabels g.num_vertices) k)).2 = false) ∧
    (∃ (labels : List Int) (k : Nat),
      (∀ fuel, g.num_vertices * g.num_vertices < fuel →
        OpenCilk.ColoringCCAlgorithm fuel g scheds = Except.ok (labels, k + 1)) ∧
      (∀ n, n < k →
        (OpenCilk.runEpoch g (scheds n)
          (epochState (fun n l => OpenCilk.runEpoch g (scheds n) l)
            0 (initLabels g.num_vertices) n)).2 = true) ∧
      (OpenCilk.runEpoch g (scheds k)
        (epochState (fun n l => OpenCilk.runEpoch g (scheds n) l)
          0 (initLabels g.num_vertices) k)).2 = false) ∧
    (∀ label sched, label.length = g.num_vertices →
      ((Pthreads.runEpoch g (Pthreads.makeThreadData g.num_vertices num_threads.toNat)
          sched label).2 = true ↔
        (Pthreads.runEpoch g (Pthreads.makeThreadData g.num_vertices num_threads.toNat)
          sched label).1 ≠ label) ∧
      ((OpenCilk.runEpoch g sched label).2 = true ↔
        (OpenCilk.runEpoch g sched label).1 ≠ label)) ∧
    (g.col_ind = [] → ∀ fuel,
      Pthreads.ColoringCCAlgorithm (fuel + 1) g num_threads scheds =
        Except.ok (initLabels g.num_vertices, 1) ∧
      OpenCilk.ColoringCCAlgorithm (fuel + 1) g scheds =
        Except.ok (initLabels g.num_vertices, 1)) := by
  have hEp := pthreads_sweeps_makeThreadData g num_threads.toNat (by omega) scheds
  have hEc := cilk_sweeps g scheds
  refine ⟨?_, ?_, ?_, ?_, ?_⟩
  · intro fuel
    have h1 : ¬ num_threads < 0 := by omega
    have h2 : ¬ num_threads = 0 := by omega
    simp only [Pthreads.ColoringCCAlgorithm, h1, h2, if_false]
  · obtain ⟨labels, k, a, b, c⟩ := run_count g hwf _ hEp
    refine ⟨labels, k, fun fuel hf => ?_, b, c⟩
    rw [pthreads_run_eq_iterate g num_threads hP scheds fuel]
    exact a fuel hf
  · obtain ⟨labels, k, a, b, c⟩ := run_count g hwf _ hEc
    refine ⟨labels, k, fun fuel hf => ?_, b, c⟩
    rw [cilk_run_eq_iterate g scheds fuel]
    exact a fuel hf
  · intro label sched hlen
    exact ⟨sweeps_flag_iff g _
        (pthreads_sweeps_makeThreadData g num_threads.toNat (by omega) (fun _ => sched))
        0 label hlen,
      sweeps_flag_iff g _ (cilk_sweeps g (fun _ => sched)) 0 label hlen⟩
  · intro hcol fuel
    have hq := (fixedPoint_iff g hwf (initLabels g.num_vertices)).1
      (edgeless_fixedPoint g hcol _)
    exact ⟨pthreads_run_quiet g num_threads hP scheds fuel hq,
      cilk_run_quiet g scheds fuel hq⟩

theorem iteration_count_is_passes_witness :
    path4.WellFormed ∧ (1 : Int) ≤ 2 ∧
    Pthreads.ColoringCCAlgorithm 17 path4 2 (fun _ => [1, 1]) = Except.ok ([0, 0, 0, 0], 3) ∧
    (Pthreads.runEpoch path4 (Pthreads.makeThreadData 4 2) [1, 1] [0, 1, 2, 3]).2 = true ∧
    (Pthreads.runEpoch path4 (Pthreads.makeThreadData 4 2) [1, 1] [0, 0, 1, 1]).2 = true ∧
    (Pthreads.runEpoch path4 (Pthreads.makeThreadData 4 2) [1, 1] [0, 0, 0, 0]).2 = false ∧
    ∃ (labels : List Int) (k : Nat),
      (∀ fuel, path4.num_vertices * path4.num_vertices < fuel →
        Pthreads.ColoringCCAlgorithm fuel path4 2 (fun _ => [1, 1]) =
          Except.ok (labels, k + 1)) ∧
      (∀ n, n < k →
        (Pthreads.runEpoch path4 (Pthreads.makeThreadData path4.num_vertices (2 : Int).toNat)
          [1, 1]
          (epochState (fun _ l => Pthreads.runEpoch path4
            (Pthreads.makeThreadData path4.num_vertices (2 : Int).toNat) [1, 1] l)
            0 (initLabels path4.num_vertices) n)).2 = true) ∧
      (Pthreads.runEpoch path4 (Pthreads.makeThreadData path4.num_vertices (2 : Int).toNat)
        [1, 1]
        (epochState (fun _ l => Pthreads.runEpoch path4
          (Pthreads.makeThreadData path4.num_vertices (2 : Int).toNat) [1, 1] l)
          0 (initLabels path4.num_vertices) k)).2 = false :=
  ⟨by decide, by decide, by decide, by decide, by decide, by decide,
    (iteration_count_is_passes path4 (by decide) 2 (by decide) (fun _ => [1, 1])).2.1⟩

/-- C17 as stated fails: on a single vertex without edges the only pass reads the flag
as false, yet the counter is incremented and the reported count is 1, not 0. -/
theorem iteration_count_edgeless_is_one :
    singleVertex.WellFormed ∧ singleVertex.col_ind = [] ∧
    (Pthreads.runEpoch singleVertex (Pthreads.makeThreadData 1 1) [] (initLabels 1)).2 =
      false ∧
    Pthreads.ColoringCCAlgorithm 5 singleVertex 1 (fun _ => []) = Except.ok ([0], 1) ∧
    OpenCilk.ColoringCCAlgorithm 5 singleVertex (fun _ => []) = Except.ok ([0], 1) ∧
    ¬ (∃ labels, Pthreads.ColoringCCAlgorithm 5 singleVertex 1 (fun _ => []) =
      Except.ok (labels, 0)) := by
  refine ⟨by decide, rfl, by decide, by decide, by decide, ?_⟩
  rintro ⟨labels, h⟩
  have h1 : Pthreads.ColoringCCAlgorithm 5 singleVertex 1 (fun _ => []) =
      Except.ok ([0], 1) := by decide
  rw [h1] at h
  cases h

/-! ## The sequential schedule -/

theorem Pthreads.trace_block (tds : List Pthreads.ThreadData) (i : Nat)
    (td : Pthreads.ThreadData) (htd : tds[i]? = some td) (rest : List Nat) (n : Nat) :
    ∀ (c : Nat) (cur : List Nat), cur[i]? = some c → (n = 0 ∨ c + n ≤ td.end_) →
      Pthreads.trace tds (List.replicate n i ++ rest) cur =
        List.range' c n ++ Pthreads.trace tds rest (cur.set i (c + n)) := by
  induction n with
  | zero =>
    intro c cur hc _
    simp only [List.replicate_zero, List.nil_append, List.range'_zero, Nat.add_zero]
    rw [set_same cur i c hc]
  | succ m ih =>
    intro c cur hc hle
    have hlt : c < td.end_ := by omega
    have hlen : i < cur.length := (List.getElem?_eq_some_iff.1 hc).1
    rw [List.replicate_succ, List.cons_append, Pthreads.trace]
    simp only [htd, hc, hlt, if_true]
    rw [ih (c + 1) (cur.set i (c + 1)) (by rw [List.getElem?_set]; simp [hlen]) (by omega),
      List.set_set, List.range'_succ]
    have e : c + 1 + m = c + (m + 1) := by omega
    rw [e]
    rfl

theorem Pthreads.trace_drain (tds : List Pthreads.ThreadData) (rest : List Pthreads.ThreadData) :
    ∀ (k : Nat) (cur : List Nat),
      (∀ (j : Nat) (td : Pthreads.ThreadData), rest[j]? = some td →
        tds[k + j]? = some td ∧ cur[k + j]? = some td.start) →
      Pthreads.trace tds
        ((List.enumFrom k rest).flatMap (fun p => List.replicate (p.2.end_ - p.2.start) p.1))
        cur =
      rest.flatMap (fun td => List.range' td.start (td.end_ - td.start)) := by
  induction rest with
  | nil => intro k cur _; rfl
  | cons td t ih =>
    intro k cur h
    obtain ⟨h1, h2⟩ := h 0 td (List.getElem?_cons_zero)
    rw [Nat.add_zero] at h1 h2
    rw [List.enumFrom_cons, List.flatMap_cons, List.flatMap_cons]
    rw [Pthreads.trace_block tds k td h1 _ (td.end_ - td.start) td.start cur h2 (by omega)]
    congr 1
    apply ih (k + 1)
    intro j td' hj
    have := h (j + 1) td' (by simpa using hj)
    have e : k + (j + 1) = k + 1 + j := by omega
    rw [e] at this
    refine ⟨this.1, ?_⟩
    rw [List.getElem?_set_ne (by omega)]
    exact this.2

theorem flatMap_partitions (V c : Nat) (k : Nat) :
    (List.range k).flatMap (fun i => List.range' (i * c) (min ((i + 1) * c) V - i * c)) =
      List.range (min (k * c) V) := by
  induction k with
  | zero => simp
  | succ n ih =>
    rw [List.range_succ, List.flatMap_append, ih, List.flatMap_cons, List.flatMap_nil,
      List.append_nil, List.range_eq_range', List.range_eq_range']
    have hs : (n + 1) * c = n * c + c := Nat.succ_mul n c
    rw [hs]
    generalize n * c = x
    by_cases h : x ≤ V
    · have e1 : min x V = x := by omega
      rw [e1]
      have := List.range'_append 0 x (min (x + c) V - x) 1
      simp only [Nat.one_mul, Nat.zero_add] at this
      rw [this]
      congr 1
      omega
    · have e1 : min x V = V := by omega
      have e2 : min (x + c) V - x = 0 := by omega
      have e3 : min (x + c) V = V := by omega
      rw [e1, e2, e3]
      simp

theorem Pthreads.trace_sequential (V P : Nat) (hP : 1 ≤ P) :
    Pthreads.trace (Pthreads.makeThreadData V P)
      ([] ++ Pthreads.drainSchedule (Pthreads.makeThreadData V P))
      ((Pthreads.makeThreadData V P).map (fun td => td.start)) = List.range V := by
  rw [List.nil_append]
  unfold Pthreads.drainSchedule
  rw [List.enum_eq_enumFrom]
  rw [Pthreads.trace_drain (Pthreads.makeThreadData V P) (Pthreads.makeThreadData V P) 0 _
    (fun j td hj => by
      rw [Nat.zero_add]
      exact ⟨hj, by rw [List.getElem?_map, hj]; rfl⟩)]
  have hmap : (Pthreads.makeThreadData V P).flatMap
      (fun td => List.range' td.start (td.end_ - td.start)) =
      (List.range P).flatMap (fun i => List.range' (i * ((V + P - 1) / P))
        (min ((i + 1) * ((V + P - 1) / P)) V - i * ((V + P - 1) / P))) := by
    simp only [Pthreads.makeThreadData, List.flatMap_map]
  rw [hmap, flatMap_partitions]
  congr 1
  have := (chunk_ceil V P hP).1
  omega

theorem OpenCilk.order_sequential (n : Nat) : OpenCilk.order n [] = List.range n := by
  unfold OpenCilk.order
  simp only [OpenCilk.picked, List.nil_append]
  rw [List.filter_eq_self]
  intro v hv
  have hv' : v < n := List.mem_range.1 hv
  simp [List.getElem?_replicate, hv']

theorem pthreads_runEpoch_sequential (g : CSRMatrix) (P : Nat) (hP : 1 ≤ P)
    (label : List Int) :
    Pthreads.runEpoch g (Pthreads.makeThreadData g.num_vertices P) [] label =
      relaxSeq g (List.range g.num_vertices) (label, false) := by
  rw [pthreads_runEpoch_eq_relaxSeq, Pthreads.trace_sequential g.num_vertices P hP]

theorem cilk_runEpoch_sequential (g : CSRMatrix) (label : List Int) :
    OpenCilk.runEpoch g [] label = relaxSeq g (List.range g.num_vertices) (label, false) := by
  rw [cilk_runEpoch_eq_relaxSeq, OpenCilk.order_sequential]

theorem sequential_sweeps (g : CSRMatrix) :
    Sweeps g (fun _ l => relaxSeq g (List.range g.num_vertices) (l, false)) := by
  intro n label
  exact ⟨List.range g.num_vertices, fun v hv => List.mem_range.1 hv,
    fun v hv => List.mem_range.2 hv, rfl⟩

/-- C20: under the sequential schedule (every pass relaxes the vertices in place in
ascending index order) the thread-pool variant with any `P ≥ 1` and the fork-join variant
run the same passes, hence return the same labels and the same iteration count for every
fuel; on a well-formed graph both return, and the count is at least 1 and equals the
number of passes that changed a label plus one. -/
theorem sequential_variants_agree (g : CSRMatrix) (hwf : g.WellFormed) (num_threads : Int)
    (hP : 1 ≤ num_threads) :
    (∀ label, Pthreads.runEpoch g (Pthreads.makeThreadData g.num_vertices num_threads.toNat)
      [] label = relaxSeq g (List.range g.num_vertices) (label, false)) ∧
    (∀ label, OpenCilk.runEpoch g [] label =
      relaxSeq g (List.range g.num_vertices) (label, false)) ∧
    (∀ fuel, Pthreads.ColoringCCAlgorithm fuel g num_threads (fun _ => []) =
      OpenCilk.ColoringCCAlgorithm fuel g (fun _ => [])) ∧
    (∃ (labels : List Int) (k : Nat), 1 ≤ k + 1 ∧
      (∀ fuel, g.num_vertices * g.num_vertices < fuel →
        Pthreads.ColoringCCAlgorithm fuel g num_threads (fun _ => []) =
          Except.ok (labels, k + 1) ∧
        OpenCilk.ColoringCCAlgorithm fuel g (fun _ => []) = Except.ok (labels, k + 1)) ∧
      (∀ n, n < k →
        (relaxSeq g (List.range g.num_vertices)
          (epochState (fun _ l => relaxSeq g (List.range g.num_vertices) (l, false))
            0 (initLabels g.num_vertices) n, false)).2 = true ∧
        (relaxSeq g (List.range g.num_vertices)
          (epochState (fun _ l => relaxSeq g (List.range g.num_vertices) (l, false))
            0 (initLabels g.num_vertices) n, false)).1 ≠
          epochState (fun _ l => relaxSeq g (List.range g.num_vertices) (l, false))
            0 (initLabels g.num_vertices) n) ∧
      (relaxSeq g (List.range g.num_vertices)
        (epochState (fun _ l => relaxSeq g (List.range g.num_vertices) (l, false))
          0 (initLabels g.num_vertices) k, false)).2 = false) := by
  have hp : (fun (_ : Nat) l => Pthreads.runEpoch g
      (Pthreads.makeThreadData g.num_vertices num_threads.toNat) [] l) =
      (fun _ l => relaxSeq g (List.range g.num_vertices) (l, false)) := by
    funext _ l
    exact pthreads_runEpoch_sequential g num_threads.toNat (by omega) l
  have hc : (fun (_ : Nat) l => OpenCilk.runEpoch g [] l) =
      (fun _ l => relaxSeq g (List.range g.num_vertices) (l, false)) := by
    funext _ l
    exact cilk_runEpoch_sequential g l
  have hpr : ∀ fuel, Pthreads.ColoringCCAlgorithm fuel g num_threads (fun _ => []) =
      iterateEpochs (fun _ l => relaxSeq g (List.range g.num_vertices) (l, false))
        fuel (initLabels g.num_vertices) 0 := by
    intro fuel
    rw [pthreads_run_eq_iterate g num_threads hP (fun _ => []) fuel, hp]
  have hcr : ∀ fuel, OpenCilk.ColoringCCAlgorithm fuel g (fun _ => []) =
      iterateEpochs (fun _ l => relaxSeq g (List.range g.num_vertices) (l, false))
        fuel (initLabels g.num_vertices) 0 := by
    intro fuel
    rw [cilk_run_eq_iterate g (fun _ => []) fuel, hc]
  refine ⟨fun label => pthreads_runEpoch_sequential g num_threads.toNat (by omega) label,
    cilk_runEpoch_sequential g, fun fuel => by rw [hpr, hcr], ?_⟩
  have hS := sequential_sweeps g
  obtain ⟨labels, k, a, b, c⟩ := run_count g hwf _ hS
  have hlen : ∀ n, (epochState (fun _ l => relaxSeq g (List.range g.num_vertices) (l, false))
      0 (initLabels g.num_vertices) n).length = g.num_vertices := by
    have key : ∀ (n it : Nat) (l : List Int), l.length = g.num_vertices →
        (epochState (fun _ l => relaxSeq g (List.range g.num_vertices) (l, false))
          it l n).length = g.num_vertices := by
      intro n
      induction n with
      | zero => intro it l hl; exact hl
      | succ m ih =>
        intro it l hl
        simp only [epochState]
        exact ih _ _ (by rw [length_relaxSeq]; exact hl)
    intro n
    exact key n 0 _ (by simp [initLabels])
  refine ⟨labels, k, by omega, fun fuel hf => ?_, fun n hn => ?_, c⟩
  · rw [hpr, hcr]
    exact ⟨a fuel hf, a fuel hf⟩
  · exact ⟨b n hn, (sweeps_flag_iff g _ hS n _ (hlen n)).1 (b n hn)⟩

theorem sequential_variants_agree_witness :
    path4.WellFormed ∧ (1 : Int) ≤ 3 ∧
    Pthreads.ColoringCCAlgorithm 17 path4 3 (fun _ => []) = Except.ok ([0, 0, 0, 0], 2) ∧
    OpenCilk.ColoringCCAlgorithm 17 path4 (fun _ => []) = Except.ok ([0, 0, 0, 0], 2) ∧
    ∀ fuel, Pthreads.ColoringCCAlgorithm fuel path4 3 (fun _ => []) =
      OpenCilk.ColoringCCAlgorithm fuel path4 (fun _ => []) :=
  ⟨by decide, by decide, by decide, by decide,
    (sequential_variants_agree path4 (by decide) 3 (by decide)).2.2.1⟩

/-! ## The worker count -/

theorem iterateEpochs_fault (E : Nat → List Int → List Int × Bool) (fuel : Nat) :
    ∀ (label : List Int) (it : Nat) (f : Fault),
      iterateEpochs E fuel label it = Except.error f → f = Fault.outOfFuel := by
  induction fuel with
  | zero =>
    intro label it f h
    simp only [iterateEpochs, Except.error.injEq] at h
    exact h.symm
  | succ n ih =>
    intro label it f h
    simp only [iterateEpochs] at h
    split at h
    · exact ih _ _ _ h
    · cases h

/-- C11 (as the code has it): `ColoringCCAlgorithm` makes no invalid-configuration check
on the worker count.  A negative count fails in the construction of the thread vectors,
before partition sizing; for a count of at least 1 partition sizing divides by a positive
number and the call runs the epoch loop, so it ends neither with a length error nor with
a division by zero. -/
theorem worker_count_unchecked (g : CSRMatrix) (num_threads : Int) (scheds : Nat → List Nat)
    (fuel : Nat) :
    (num_threads < 0 →
      Pthreads.ColoringCCAlgorithm fuel g num_threads scheds =
        Except.error Fault.lengthError) ∧
    (1 ≤ num_threads →
      0 < num_threads.toNat ∧
      Pthreads.ColoringCCAlgorithm fuel g num_threads scheds =
        Pthreads.worker_thread g (Pthreads.makeThreadData g.num_vertices num_threads.toNat)
          scheds fuel (initLabels g.num_vertices) 0 ∧
      Pthreads.ColoringCCAlgorithm fuel g num_threads scheds ≠
        Except.error Fault.divisionByZero ∧
      Pthreads.ColoringCCAlgorithm fuel g num_threads scheds ≠
        Except.error Fault.lengthError) := by
  constructor
  · intro h
    simp only [Pthreads.ColoringCCAlgorithm, h, if_true]
  · intro h
    have h1 : ¬ num_threads < 0 := by omega
    have h2 : ¬ num_threads = 0 := by omega
    have hrun := pthreads_run_eq_iterate g num_threads h scheds fuel
    refine ⟨by omega, ?_, ?_, ?_⟩
    · simp only [Pthreads.ColoringCCAlgorithm, h1, h2, if_false]
    · rw [hrun]
      intro he
      have := iterateEpochs_fault _ _ _ _ _ he
      cases this
    · rw [hrun]
      intro he
      have := iterateEpochs_fault _ _ _ _ _ he
      cases this

theorem worker_count_unchecked_witness :
    ((-2 : Int) < 0) ∧ (1 : Int) ≤ 2 ∧
    Pthreads.ColoringCCAlgorithm 37 twoTriangles (-2) (fun _ => []) =
      Except.error Fault.lengthError ∧
    Pthreads.ColoringCCAlgorithm 37 twoTriangles 2 (fun _ => []) ≠
      Except.error Fault.divisionByZero :=
  ⟨by decide, by decide,
    (worker_count_unchecked twoTriangles (-2) (fun _ => []) 37).1 (by decide),
    ((worker_count_unchecked twoTriangles 2 (fun _ => []) 37).2 (by decide)).2.2.1⟩

/-- C11 as stated fails: with a worker count of zero nothing rejects the call before
partition sizing, and `(num_vertices + num_threads - 1) / num_threads` is evaluated with
`num_threads = 0`. -/
theorem zero_workers_reach_division :
    Pthreads.ColoringCCAlgorithm 37 twoTriangles 0 (fun _ => []) =
      Except.error Fault.divisionByZero ∧
    Pthreads.ColoringCCAlgorithm 37 twoTriangles 0 (fun _ => []) ≠
      Except.error Fault.lengthError := by
  constructor <;> decide

/-! ## Every vertex is relaxed once per pass -/

theorem Pthreads.not_mem_trace (tds : List Pthreads.ThreadData) (x : Nat) (sched : List Nat) :
    ∀ cur : List Nat,
      (∀ (i : Nat) (td : Pthreads.ThreadData) (c : Nat), tds[i]? = some td →
        cur[i]? = some c → ¬ (c ≤ x ∧ x < td.end_)) →
      x ∉ Pthreads.trace tds sched cur := by
  induction sched with
  | nil => intro cur _; simp [Pthreads.trace]
  | cons j rest ih =>
    intro cur h
    simp only [Pthreads.trace]
    cases htj : tds[j]? with
    | none => exact ih cur h
    | some tdj =>
      cases hcj : cur[j]? with
      | none => exact ih cur h
      | some cj =>
        simp only
        by_cases hlt : cj < tdj.end_
        · rw [if_pos hlt]
          have hlen : j < cur.length := (List.getElem?_eq_some_iff.1 hcj).1
          intro hx
          rcases List.mem_cons.1 hx with e | e
          · exact h j tdj cj htj hcj ⟨by omega, by omega⟩
          · refine ih (cur.set j (cj + 1)) ?_ e
            intro i td c hi hc
            by_cases hij : j = i
            · subst hij
              rw [List.getElem?_set] at hc
              simp only [if_true, hlen] at hc
              cases hc
              rw [htj] at hi
              cases hi
              intro hp
              exact h j tdj cj htj hcj ⟨by omega, hp.2⟩
            · rw [List.getElem?_set_ne hij] at hc
              exact h i td c hi hc
        · rw [if_neg hlt]; exact ih cur h

theorem Pthreads.count_trace_le_one (tds : List Pthreads.ThreadData) (x : Nat)
    (sched : List Nat) :
    ∀ cur : List Nat,
      (∀ (i j : Nat) (a b : Pthreads.ThreadData) (c d : Nat),
        tds[i]? = some a → cur[i]? = some c → c ≤ x → x < a.end_ →
        tds[j]? = some b → cur[j]? = some d → d ≤ x → x < b.end_ → i = j) →
      List.count x (Pthreads.trace tds sched cur) ≤ 1 := by
  induction sched with
  | nil => intro cur _; simp [Pthreads.trace]
  | cons j rest ih =>
    intro cur h
    simp only [Pthreads.trace]
    cases htj : tds[j]? with
    | none => exact ih cur h
    | some tdj =>
      cases hcj : cur[j]? with
      | none => exact ih cur h
      | some cj =>
        simp only
        by_cases hlt : cj < tdj.end_
        · rw [if_pos hlt]
          have hlen : j < cur.length := (List.getElem?_eq_some_iff.1 hcj).1
          by_cases hx : cj = x
          · subst hx
            have hnot : cj ∉ Pthreads.trace tds rest (cur.set j (cj + 1)) := by
              apply Pthreads.not_mem_trace
              intro i td c hi hc hp
              by_cases hij : j = i
              · subst hij
                rw [List.getElem?_set] at hc
                simp only [if_true, hlen] at hc
                cases hc
                omega
              · rw [List.getElem?_set_ne hij] at hc
                exact hij (h j i tdj td cj c htj hcj (le_refl _) hlt hi hc hp.1 hp.2)
            rw [List.count_cons_self, List.count_eq_zero_of_not_mem hnot]
          · rw [List.count_cons_of_ne (Ne.symm hx)]
            apply ih
            intro i k a b c d hi hc h1 h2 hk hd h3 h4
            have hc' : ∃ c', cur[i]? = some c' ∧ c' ≤ x := by
              by_cases hij : j = i
              · subst hij
                rw [List.getElem?_set] at hc
                simp only [if_true, hlen] at hc
                cases hc
                exact ⟨cj, hcj, by omega⟩
              · rw [List.getElem?_set_ne hij] at hc
                exact ⟨c, hc, h1⟩
            have hd' : ∃ d', cur[k]? = some d' ∧ d' ≤ x := by
              by_cases hkj : j = k
              · subst hkj
                rw [List.getElem?_set] at hd
                simp only [if_true, hlen] at hd
                cases hd
                exact ⟨cj, hcj, by omega⟩
              · rw [List.getElem?_set_ne hkj] at hd
                exact ⟨d, hd, h3⟩
            obtain ⟨c', e1, e2⟩ := hc'
            obtain ⟨d', f1, f2⟩ := hd'
            exact h i k a b c' d' hi e1 e2 h2 hk f1 f2 h4
        · rw [if_neg hlt]; exact ih cur h

theorem pthreads_pass_once (V P : Nat) (hP : 1 ≤ P) (sched : List Nat) (v : Nat) (hv : v < V) :
    List.count v (Pthreads.trace (Pthreads.makeThreadData V P)
      (sched ++ Pthreads.drainSchedule (Pthreads.makeThreadData V P))
      ((Pthreads.makeThreadData V P).map (fun td => td.start))) = 1 := by
  apply le_antisymm
  · apply Pthreads.count_trace_le_one
    intro i j a b c d hi hc h1 h2 hj hd h3 h4
    rw [List.getElem?_map, hi] at hc
    rw [List.getElem?_map, hj] at hd
    cases hc
    cases hd
    exact Pthreads.owns_unique V P i j v a b hi hj ⟨h1, h2⟩ ⟨h3, h4⟩
  · rw [Nat.succ_le_iff, List.count_pos_iff]
    obtain ⟨i, td, htd, h1, h2⟩ := Pthreads.makeThreadData_cover V P hP v hv
    apply Pthreads.mem_trace _ _ _ v i td td.start htd
      (by rw [List.getElem?_map, htd]; rfl) h1 h2
    rw [List.count_append]
    have := Pthreads.count_drainSchedule _ i td htd
    omega

/-- C16: for every `V` and every `P ≥ 1` the table set up by `ColoringCCAlgorithm` has `P`
partitions `[i * chunk, min((i+1) * chunk, V))` with `chunk = ceil(V / P)`; every vertex
below `V` lies in the partition of exactly one thread, no partition holds anything else,
no partition holds more than `chunk` vertices, and in a pass every vertex is relaxed
exactly once, whatever the interleaving. -/
theorem partitions_cover_exactly_once (V P : Nat) (hP : 1 ≤ P) :
    (Pthreads.makeThreadData V P).length = P ∧
    (∀ i, i < P → (Pthreads.makeThreadData V P)[i]? =
      some { start := i * ((V + P - 1) / P),
             end_ := min ((i + 1) * ((V + P - 1) / P)) V,
             thread_id := i }) ∧
    (V ≤ P * ((V + P - 1) / P) ∧ P * ((V + P - 1) / P) < V + P) ∧
    (∀ v, v < V → ∃ i : Nat, (∃ td, (Pthreads.makeThreadData V P)[i]? = some td ∧
        Pthreads.Owns td v) ∧
      ∀ j : Nat, (∃ td, (Pthreads.makeThreadData V P)[j]? = some td ∧ Pthreads.Owns td v) →
        j = i) ∧
    (∀ td ∈ Pthreads.makeThreadData V P, ∀ v, Pthreads.Owns td v → v < V) ∧
    (∀ td ∈ Pthreads.makeThreadData V P, td.end_ - td.start ≤ (V + P - 1) / P) ∧
    (∀ sched v, v < V →
      List.count v (Pthreads.trace (Pthreads.makeThreadData V P)
        (sched ++ Pthreads.drainSchedule (Pthreads.makeThreadData V P))
        ((Pthreads.makeThreadData V P).map (fun td => td.start))) = 1) := by
  refine ⟨by simp [Pthreads.makeThreadData], Pthreads.getElem?_makeThreadData V P,
    chunk_ceil V P hP, ?_, ?_, ?_, fun sched v hv => pthreads_pass_once V P hP sched v hv⟩
  · intro v hv
    obtain ⟨i, td, htd, h1, h2⟩ := Pthreads.makeThreadData_cover V P hP v hv
    refine ⟨i, ⟨td, htd, h1, h2⟩, ?_⟩
    rintro j ⟨tdj, htdj, hown⟩
    exact Pthreads.owns_unique V P j i v tdj td htdj htd hown ⟨h1, h2⟩
  · intro td htd v hv
    have := Pthreads.makeThreadData_end_le V P td htd
    unfold Pthreads.Owns at hv
    omega
  · intro td htd
    obtain ⟨i, hi⟩ := List.mem_iff_getElem?.1 htd
    obtain ⟨_, a1, a2, _⟩ := Pthreads.makeThreadData_getElem V P i td hi
    rw [a1, a2, Nat.succ_mul]
    generalize (V + P - 1) / P = chunk
    generalize i * chunk = x
    omega

theorem partitions_cover_exactly_once_witness :
    (1 : Nat) ≤ 3 ∧
    Pthreads.makeThreadData 7 3 =
      [{ start := 0, end_ := 3, thread_id := 0 }, { start := 3, end_ := 6, thread_id := 1 },
       { start := 6, end_ := 7, thread_id := 2 }] ∧
    Pthreads.makeThreadData 2 4 =
      [{ start := 0, end_ := 1, thread_id := 0 }, { start := 1, end_ := 2, thread_id := 1 },
       { start := 2, end_ := 2, thread_id := 2 }, { start := 3, end_ := 2, thread_id := 3 }] ∧
    ∀ v, v < 7 → ∃ i : Nat, (∃ td, (Pthreads.makeThreadData 7 3)[i]? = some td ∧
        Pthreads.Owns td v) ∧
      ∀ j : Nat, (∃ td, (Pthreads.makeThreadData 7 3)[j]? = some td ∧ Pthreads.Owns td v) →
        j = i :=
  ⟨by decide, by decide, by decide, (partitions_cover_exactly_once 7 3 (by decide)).2.2.2.1⟩

/-! ## Loading -/

theorem load_not_square (f : MtxFile) (h : f.rows ≠ f.cols) :
    CSRMatrix.load (some f) = LoadResult.exit LoadError.notSquare := by
  simp only [CSRMatrix.load, h, ne_eq, not_false_eq_true, if_true]

theorem load_square_not_exit (f : MtxFile) (h : f.rows = f.cols) (e : LoadError) :
    CSRMatrix.load (some f) ≠ LoadResult.exit e := by
  simp only [CSRMatrix.load, h, ne_eq, not_true_eq_false, if_false]
  split
  · intro hc; cases hc
  · split
    · intro hc; cases hc
    · split
      · intro hc; cases hc
      · split
        · intro hc; cases hc
        · intro hc; cases hc

theorem dataOk_inRange (f : MtxFile) (hd : f.DataOk) :
    InRange f.rows.toNat ((f.entries.take f.nnz.toNat).map (fun e => (e.1.toNat, e.2.toNat))) := by
  obtain ⟨h0, _, hall⟩ := hd
  intro e' he'
  obtain ⟨e, he, rfl⟩ := List.mem_map.1 he'
  obtain ⟨a, b, c, d⟩ := hall e he
  simp only
  omega

theorem load_square (f : MtxFile) (h : f.rows = f.cols) (hd : f.DataOk) :
    CSRMatrix.load (some f) =
      LoadResult.built (CSRMatrix.build (decide (f.symmetry = "symmetric")) f.rows.toNat
        ((f.entries.take f.nnz.toNat).map (fun e => (e.1.toNat, e.2.toNat)))) := by
  obtain ⟨h0, hlen, hall⟩ := hd
  have h1 : ¬ f.rows < 0 := by omega
  have h2 : ¬ f.entries.length < f.nnz.toNat := by omega
  have h3 : ¬ ((f.entries.take f.nnz.toNat).all
      (lineDefined (decide (f.symmetry = "symmetric")) f.rows.toNat) = false) := by
    rw [Bool.not_eq_false, List.all_eq_true]
    intro e he
    obtain ⟨a, b, c, d⟩ := hall e he
    simp only [lineDefined, decide_eq_true_eq]
    refine ⟨a, by omega, fun _ _ => ⟨c, by omega⟩⟩
  have h4 : ¬ ((f.entries.take f.nnz.toNat).all (fun e => decide (1 ≤ e.2)) = false) := by
    rw [Bool.not_eq_false, List.all_eq_true]
    intro e he
    obtain ⟨_, _, c, _⟩ := hall e he
    simpa using c
  simp only [CSRMatrix.load, h, ne_eq, not_true_eq_false, if_false]
  rw [← h, if_neg h1, if_neg h2, if_neg h3, if_neg h4]

